import Mathlib

/-!
RemoteList: a write-ahead-logged store of named integer lists.

Shallow embedding of `remotelist/pkg_structs/remotelist_rpc.go`.

Modelling conventions.

* A Go `map[K]V` is an association list with at most one entry per key
  (`GoMap`); `mapGet` is the two-valued lookup `v, exists := m[k]`, and
  `mapSet` is the assignment `m[k] = v`.  Go iterates a map in an unspecified
  order; the model iterates in list order.
* `uuid.New()` is a source of fresh identifiers: the model draws them from a
  counter `nextUUID` kept next to the store.
* `uint64` arithmetic on `currentLSN` is `Nat` arithmetic modulo `2 ^ 64`.
* Files are modelled by their decoded contents: `data/wal.log` is a list of
  `WalItem`s, each either a record that `json.Decoder.Decode` accepts or a
  position at which it reports an error; a snapshot file is the `SnapshotData`
  it decodes to.  List names are Lean `String`s (valid Unicode), for which the
  JSON encoding used by the program is lossless.
* The locks (`mu`) serialise the methods; every method below is one atomic
  transition of the store.
-/

namespace Remotelist

/-! ## Go maps -/

/-- A Go map, as an association list. -/
abbrev GoMap (κ ν : Type) := List (κ × ν)

/-- The lookup `v, exists := m[k]`: `none` when the key is absent. -/
def mapGet {κ ν : Type} [DecidableEq κ] : GoMap κ ν → κ → Option ν
  | [], _ => none
  | (k', v) :: m, k => if k' = k then some v else mapGet m k

/-- The assignment `m[k] = v`. -/
def mapSet {κ ν : Type} [DecidableEq κ] : GoMap κ ν → κ → ν → GoMap κ ν
  | [], k, v => [(k, v)]
  | (k', v') :: m, k, v => if k' = k then (k', v) :: m else (k', v') :: mapSet m k v

/-- The keys of a map, in iteration order. -/
def mapKeys {κ ν : Type} (m : GoMap κ ν) : List κ := m.map Prod.fst

/-! ## Data model -/

/-- Identifiers produced by `uuid.New()`. -/
abbrev UUID := Nat

/-- The modulus of `uint64` arithmetic. -/
def uint64Mod : Nat := 2 ^ 64

/-- Go `AppendArgs`. -/
structure AppendArgs where
  ListName : String
  Value : Int
  deriving DecidableEq, Repr

/-- Go `GetArgs`. -/
structure GetArgs where
  ListName : String
  Index : Int
  deriving DecidableEq, Repr

/-- Go `RemoveArgs`. -/
structure RemoveArgs where
  ListName : String
  deriving DecidableEq, Repr

/-- Go `SizeArgs`. -/
structure SizeArgs where
  ListName : String
  deriving DecidableEq, Repr

/-- Go `ListAllReply`. -/
structure ListAllReply where
  ListNames : List String
  deriving DecidableEq, Repr

/-- Go `LogEntry`: one record of the write-ahead log. -/
structure LogEntry where
  LSN : Nat
  Timestamp : Int
  Operation : String
  ListName : String
  Value : Int
  deriving DecidableEq, Repr

/-- Go `SnapshotData`. -/
structure SnapshotData where
  LSN : Nat
  Timestamp : Int
  Lists : GoMap String (List Int)
  deriving DecidableEq, Repr

/-- One position of `data/wal.log` as the JSON decoder sees it: a record it
decodes, or a point where `Decode` returns an error (a torn or corrupt
record). -/
inductive WalItem where
  | entry (e : LogEntry)
  | corrupt
  deriving DecidableEq, Repr

/-- Go `RemoteList`.  `walFile` is the content of the file behind the open
handle; `nextUUID` is the state of the identifier source. -/
structure RemoteList where
  nameToUUID : GoMap String UUID
  lists : GoMap UUID (List Int)
  currentLSN : Nat
  walFile : List WalItem
  nextUUID : Nat
  deriving DecidableEq, Repr

/-- The errors returned by the RPC methods. -/
inductive RpcError where
  /-- Go `errors.New("list not found")` -/
  | listNotFound
  /-- Go `errors.New("index out of bounds")` -/
  | indexOutOfBounds
  /-- Go `errors.New("empty list")` -/
  | emptyList
  /-- Go `fmt.Errorf("erro ao escrever WAL: %v", err)` -/
  | walWrite
  deriving DecidableEq, Repr

/-- The message carried by each error. -/
def RpcError.message : RpcError → String
  | .listNotFound => "list not found"
  | .indexOutOfBounds => "index out of bounds"
  | .emptyList => "empty list"
  | .walWrite => "erro ao escrever WAL"

/-- What the operating system does with one `writeWAL` attempt. -/
inductive WalOutcome where
  /-- the record is written and synced -/
  | ok
  /-- Go `json.Marshal` fails: nothing reaches the file -/
  | marshalFail
  /-- Go `WriteString` fails; `torn` tells whether a partial record reached the file -/
  | writeFail (torn : Bool)
  /-- the record is written, `Sync` fails -/
  | syncFail
  deriving DecidableEq, Repr

/-- The environment of one `writeWAL` attempt: the clock and the fate of the write. -/
structure WalIO where
  now : Int
  outcome : WalOutcome
  deriving DecidableEq, Repr

/-! ## The log writer -/

/-- Go `writeWAL`: bump `currentLSN`, build the record, marshal, write, sync.
Returns `true` when the error is `nil`. -/
def writeWAL (io : WalIO) (operation listName : String) (value : Int) (l : RemoteList) :
    RemoteList × Bool :=
  let l1 := { l with currentLSN := (l.currentLSN + 1) % uint64Mod }
  let entry : LogEntry :=
    { LSN := l1.currentLSN, Timestamp := io.now, Operation := operation,
      ListName := listName, Value := value }
  match io.outcome with
  | .marshalFail => (l1, false)
  | .writeFail torn =>
      (if torn then { l1 with walFile := l1.walFile ++ [WalItem.corrupt] } else l1, false)
  | .syncFail => ({ l1 with walFile := l1.walFile ++ [WalItem.entry entry] }, false)
  | .ok => ({ l1 with walFile := l1.walFile ++ [WalItem.entry entry] }, true)

/-! ## The list store and the operations -/

/-- The read `l.lists[uid]`: a missing key reads as the nil slice. -/
def listOf (l : RemoteList) (uid : UUID) : List Int := (mapGet l.lists uid).getD []

/-- Go `getOrCreateListUUID`. -/
def getOrCreateListUUID (name : String) (l : RemoteList) : RemoteList × UUID :=
  match mapGet l.nameToUUID name with
  | some listUUID => (l, listUUID)
  | none =>
      let newUUID := l.nextUUID
      ({ l with nameToUUID := mapSet l.nameToUUID name newUUID,
                lists := mapSet l.lists newUUID [],
                nextUUID := l.nextUUID + 1 }, newUUID)

/-- Go `Append`.  `reply` is the value behind the reply pointer before the
call; the result carries its value after the call and the error. -/
def Append (io : WalIO) (args : AppendArgs) (reply : Bool) (l : RemoteList) :
    RemoteList × Bool × Option RpcError :=
  match writeWAL io "APPEND" args.ListName args.Value l with
  | (l1, false) => (l1, reply, some .walWrite)
  | (l1, true) =>
      let (l2, listUUID) := getOrCreateListUUID args.ListName l1
      ({ l2 with lists := mapSet l2.lists listUUID (listOf l2 listUUID ++ [args.Value]) },
        true, none)

/-- Go `Get`. -/
def Get (args : GetArgs) (l : RemoteList) : Int × Option RpcError :=
  match mapGet l.nameToUUID args.ListName with
  | none => (0, some .listNotFound)
  | some listUUID =>
      let list := listOf l listUUID
      if args.Index < 0 ∨ args.Index ≥ (list.length : Int) then (0, some .indexOutOfBounds)
      else (list.getD args.Index.toNat 0, none)

/-- Go `Remove`. -/
def Remove (io : WalIO) (args : RemoveArgs) (l : RemoteList) :
    RemoteList × Int × Option RpcError :=
  match mapGet l.nameToUUID args.ListName with
  | none => (l, 0, some .listNotFound)
  | some listUUID =>
      let list := listOf l listUUID
      if list.length = 0 then (l, 0, some .emptyList)
      else
        let removedValue := list.getD (list.length - 1) 0
        match writeWAL io "REMOVE" args.ListName removedValue l with
        | (l1, false) => (l1, 0, some .walWrite)
        | (l1, true) =>
            ({ l1 with lists := mapSet l1.lists listUUID (list.take (list.length - 1)) },
              removedValue, none)

/-- Go `Size`. -/
def Size (args : SizeArgs) (l : RemoteList) : Int × Option RpcError :=
  match mapGet l.nameToUUID args.ListName with
  | none => (0, none)
  | some listUUID => (((listOf l listUUID).length : Int), none)

/-- Go `ListAll`. -/
def ListAll (l : RemoteList) : ListAllReply × Option RpcError :=
  ({ ListNames := mapKeys l.nameToUUID }, none)

/-! ## Snapshots -/

/-- The first loop of `createSnapshot`: invert the name registry. -/
def invertRegistry (nameToUUID : GoMap String UUID) : GoMap UUID String :=
  nameToUUID.foldl (fun acc p => mapSet acc p.2 p.1) []

/-- The second loop of `createSnapshot`: a copy of every list, keyed by the
name its identifier inverts to (the empty string, Go's zero value, when the
identifier has no name). -/
def copyLists (uuidToName : GoMap UUID String) (lists : GoMap UUID (List Int)) :
    GoMap String (List Int) :=
  lists.foldl (fun acc p => mapSet acc ((mapGet uuidToName p.1).getD "") p.2) []

/-- The part of `createSnapshot` that runs under the read lock, and the
`SnapshotData` built from it: the current LSN and a copy of the lists. -/
def captureSnapshot (now : Int) (l : RemoteList) : SnapshotData :=
  { LSN := l.currentLSN, Timestamp := now,
    Lists := copyLists (invertRegistry l.nameToUUID) l.lists }

/-- Go `truncateWAL`, when reopening the file succeeds: the log is replaced by
an empty one. -/
def truncateWAL (l : RemoteList) : RemoteList := { l with walFile := [] }

/-! ## The data directory -/

/-- What opening and decoding a file of `data/` as a snapshot gives. -/
inductive SnapshotFile where
  /-- Go `os.Open` fails -/
  | unreadable
  /-- Go `Decode` fails -/
  | undecodable
  | valid (s : SnapshotData)
  deriving DecidableEq, Repr

/-- The state of `data/wal.log` as `Recover` finds it. -/
inductive WalFile where
  /-- Go `os.Stat` fails -/
  | absent
  /-- Go `os.Open` fails -/
  | unreadable
  | present (items : List WalItem)
  deriving DecidableEq, Repr

/-- The directory `data/`: its files other than the log, by name, and the log.
`os.ReadDir` is taken to succeed (the directory was created at start-up). -/
structure DataDir where
  files : List (String × SnapshotFile)
  wal : WalFile
  deriving DecidableEq, Repr

/-- Go `strings.HasPrefix`. -/
def hasPrefix (s pre : String) : Bool := pre.data.isPrefixOf s.data

/-- Go `strings.HasSuffix`. -/
def hasSuffix (s suf : String) : Bool := suf.data.isSuffixOf s.data

/-- Go's order on strings (bytewise, which on valid UTF-8 is the order of the
code points). -/
def stringLE (a b : String) : Prop := a.data ≤ b.data

instance : DecidableRel stringLE := fun a b => inferInstanceAs (Decidable (a.data ≤ b.data))

/-- Go `sort.Strings`. -/
def sortStrings (names : List String) : List String := List.insertionSort stringLE names

/-- The file names that both `cleanOldSnapshots` and `findLatestSnapshot`
collect from a directory listing. -/
def snapshotNames (names : List String) : List String :=
  names.filter (fun name => hasPrefix name "snapshot_" && hasSuffix name ".json")

/-- Go `findLatestSnapshot`, returning the file name inside `data/`; `none` is
the error "nenhum snapshot encontrado". -/
def findLatestSnapshot (d : DataDir) : Option String :=
  let snapshots := snapshotNames (d.files.map Prod.fst)
  if snapshots.length = 0 then none
  else (sortStrings snapshots).getLast?

/-! ## Recovery -/

/-- The errors `Recover` returns. -/
inductive RecoverError where
  /-- The error "erro ao abrir snapshot" -/
  | openSnapshot
  /-- The error "erro ao decodificar snapshot" -/
  | decodeSnapshot
  /-- The error "erro ao abrir WAL" -/
  | openWAL
  deriving DecidableEq, Repr

/-- The loop of `Recover` over `snapshot.Lists`: a fresh identifier for every
name, bound to the list stored under that name. -/
def seedFromSnapshot (lists : GoMap String (List Int)) (l : RemoteList) : RemoteList :=
  lists.foldl (fun acc p =>
    { acc with nameToUUID := mapSet acc.nameToUUID p.1 acc.nextUUID,
               lists := mapSet acc.lists acc.nextUUID p.2,
               nextUUID := acc.nextUUID + 1 }) l

/-- The body of the replay loop of `Recover` for a record that is not skipped:
the `switch` on the operation, then `l.currentLSN = entry.LSN`. -/
def applyEntry (entry : LogEntry) (l : RemoteList) : RemoteList :=
  let l1 :=
    if entry.Operation = "APPEND" then
      let (l2, listUUID) := getOrCreateListUUID entry.ListName l
      { l2 with lists := mapSet l2.lists listUUID (listOf l2 listUUID ++ [entry.Value]) }
    else if entry.Operation = "REMOVE" then
      match mapGet l.nameToUUID entry.ListName with
      | some listUUID =>
          let list := listOf l listUUID
          if list.length > 0 then
            { l with lists := mapSet l.lists listUUID (list.take (list.length - 1)) }
          else l
      | none => l
    else l
  { l1 with currentLSN := entry.LSN }

/-- The replay loop of `Recover`: decode records until `Decode` fails, skip
those with `LSN <= snapshotLSN`, apply the others. -/
def replayWAL (snapshotLSN : Nat) : List WalItem → RemoteList → RemoteList
  | [], l => l
  | WalItem.corrupt :: _, l => l
  | WalItem.entry entry :: rest, l =>
      if entry.LSN ≤ snapshotLSN then replayWAL snapshotLSN rest l
      else replayWAL snapshotLSN rest (applyEntry entry l)

/-- The second half of `Recover`: the replay of `data/wal.log`. -/
def recoverWAL (snapshotLSN : Nat) (wal : WalFile) (l : RemoteList) :
    RemoteList × Option RecoverError :=
  match wal with
  | .absent => (l, none)
  | .unreadable => (l, some .openWAL)
  | .present items => (replayWAL snapshotLSN items l, none)

/-- Go `Recover`. -/
def Recover (d : DataDir) (l : RemoteList) : RemoteList × Option RecoverError :=
  match findLatestSnapshot d with
  | none => recoverWAL 0 d.wal l
  | some snapshotFile =>
      match mapGet d.files snapshotFile with
      | none => (l, some .openSnapshot)
      | some .unreadable => (l, some .openSnapshot)
      | some .undecodable => (l, some .decodeSnapshot)
      | some (.valid snapshot) =>
          let snapshotLSN := snapshot.LSN
          let l1 := { l with currentLSN := snapshotLSN }
          recoverWAL snapshotLSN d.wal (seedFromSnapshot snapshot.Lists l1)

/-- The store `NewRemoteList` builds before it calls `Recover`: empty maps,
`currentLSN` 0. -/
def emptyStore : RemoteList :=
  { nameToUUID := [], lists := [], currentLSN := 0, walFile := [], nextUUID := 0 }

/-- Go `NewRemoteList`: open (creating it if needed) `data/wal.log` for append,
build the empty store and run `Recover`; `none` is a panic. -/
def NewRemoteList (d : DataDir) : Option RemoteList :=
  match d.wal with
  | .unreadable => none
  | .absent =>
      match Recover { d with wal := .present [] } emptyStore with
      | (l, none) => some l
      | (_, some _) => none
  | .present items =>
      match Recover d { emptyStore with walFile := items } with
      | (l, none) => some l
      | (_, some _) => none

/-! ## Observations, call sequences and the snapshot routine -/

/-- What a client can read of the list called `name`: `none` when the name is
not registered, else the elements (`Size` is their number, `Get` indexes them). -/
def contents (l : RemoteList) (name : String) : Option (List Int) :=
  (mapGet l.nameToUUID name).map (listOf l)

/-- A mutating call together with the fate of its log write. -/
inductive Call where
  | append (io : WalIO) (args : AppendArgs)
  | remove (io : WalIO) (args : RemoveArgs)
  deriving DecidableEq, Repr

/-- The fate of the log write of a call, should the call reach `writeWAL`. -/
def Call.outcome : Call → WalOutcome
  | .append io _ => io.outcome
  | .remove io _ => io.outcome

/-- Run one call: the store after it and the error it returns. -/
def Call.run : Call → RemoteList → RemoteList × Option RpcError
  | .append io args, l => ((Append io args false l).1, (Append io args false l).2.2)
  | .remove io args, l => ((Remove io args l).1, (Remove io args l).2.2)

/-- Run a sequence of calls in order. -/
def runCalls (calls : List Call) (l : RemoteList) : RemoteList :=
  calls.foldl (fun acc c => (c.run acc).1) l

/-- The LSNs of the decodable records of a piece of log. -/
def recordLSNs : List WalItem → List Nat
  | [] => []
  | WalItem.entry e :: rest => e.LSN :: recordLSNs rest
  | WalItem.corrupt :: rest => recordLSNs rest

/-- The LSNs carried by the records that the successful calls of a sequence
add to the log, in call order. -/
def successLSNs : List Call → RemoteList → List Nat
  | [], _ => []
  | c :: cs, l =>
      match (c.run l).2 with
      | none =>
          recordLSNs ((c.run l).1.walFile.drop l.walFile.length) ++ successLSNs cs (c.run l).1
      | some _ => successLSNs cs (c.run l).1

/-- The number of calls of a sequence that return no error. -/
def successCount : List Call → RemoteList → Nat
  | [], _ => 0
  | c :: cs, l =>
      (if (c.run l).2 = none then 1 else 0) + successCount cs (c.run l).1

/-- Where the snapshot routine stands: `createSnapshot` is not running, has
taken its copy under the read lock, or has renamed the file into place and not
yet truncated the log. -/
inductive SnapshotPhase where
  | idle
  | copied (snapshot : SnapshotData)
  | published
  deriving DecidableEq, Repr

/-- The running server with its durable state: the store (with the log behind
its handle), the content of the newest snapshot file of `data/`, and the
snapshot routine.  Publishing a snapshot makes it the newest file: its name
carries the time of its creation. -/
structure System where
  store : RemoteList
  newest : Option SnapshotData
  phase : SnapshotPhase
  deriving DecidableEq, Repr

/-- The steps of the server: a mutating call, the three stages of
`createSnapshot` (copy under the read lock; write, sync and rename the file;
`truncateWAL`), and a `createSnapshot` that runs with no call in between. -/
inductive Event where
  | call (c : Call)
  | snapshotCopy (now : Int)
  | snapshotPublish
  | snapshotTruncate
  | snapshot (now : Int)
  deriving DecidableEq, Repr

/-- One step of the server.  A stage of `createSnapshot` that is not the next
one of the routine leaves the system as it is. -/
def step (sys : System) : Event → System
  | .call c => { sys with store := (c.run sys.store).1 }
  | .snapshotCopy now =>
      match sys.phase with
      | .idle => { sys with phase := .copied (captureSnapshot now sys.store) }
      | _ => sys
  | .snapshotPublish =>
      match sys.phase with
      | .copied snapshot => { sys with newest := some snapshot, phase := .published }
      | _ => sys
  | .snapshotTruncate =>
      match sys.phase with
      | .published => { sys with store := truncateWAL sys.store, phase := .idle }
      | _ => sys
  | .snapshot now =>
      match sys.phase with
      | .idle =>
          { store := truncateWAL sys.store, newest := some (captureSnapshot now sys.store),
            phase := .idle }
      | _ => sys

/-- The server freshly started on an empty `data/` directory. -/
def freshSystem : System := { store := emptyStore, newest := none, phase := .idle }

/-- Run a sequence of steps from a system state. -/
def runEvents (evs : List Event) (sys : System) : System := evs.foldl step sys

/-- What opening the file chosen by `findLatestSnapshot` gives; `none` when
there is no snapshot file. -/
def newestSnapshotFile (d : DataDir) : Option SnapshotFile :=
  match findLatestSnapshot d with
  | none => none
  | some snapshotFile => some ((mapGet d.files snapshotFile).getD .unreadable)

/-- The registry and the list table fit together: no name and no identifier
occurs twice, the identifiers of the registry are exactly the keys of the list
table, and the identifier source has not yet produced a value it will produce
later. -/
def WF (l : RemoteList) : Prop :=
  (mapKeys l.nameToUUID).Nodup ∧ (l.nameToUUID.map Prod.snd).Nodup ∧
  (mapKeys l.lists).Nodup ∧
  (∀ u ∈ l.nameToUUID.map Prod.snd, u ∈ mapKeys l.lists) ∧
  (∀ u ∈ mapKeys l.lists, u ∈ l.nameToUUID.map Prod.snd ∧ u < l.nextUUID)

instance (l : RemoteList) : Decidable (WF l) := by unfold WF; infer_instance

/-- The effect of a replayed log record on what clients read: an APPEND puts
its value at the tail of its list (registering the name if need be), a REMOVE
drops the last element of its list if there is one, any other record changes
nothing. -/
def applyView (entry : LogEntry) (view : String → Option (List Int)) :
    String → Option (List Int) :=
  fun name =>
    if entry.Operation = "APPEND" then
      if name = entry.ListName then some ((view name).getD [] ++ [entry.Value]) else view name
    else if entry.Operation = "REMOVE" then
      if name = entry.ListName then (view name).map List.dropLast else view name
    else view name

/-- The records `Recover` gets to see: those before the first position at
which `Decode` fails. -/
def decodablePrefix : List WalItem → List LogEntry
  | [] => []
  | WalItem.corrupt :: _ => []
  | WalItem.entry e :: rest => e :: decodablePrefix rest

/-- The LSN `Recover` starts from: that of the newest snapshot, 0 without one. -/
def snapshotLSNOf : Option SnapshotData → Nat
  | none => 0
  | some snapshot => snapshot.LSN

/-- The empty store after the first half of `Recover`: seeded from the newest
snapshot, if there is one. -/
def seeded : Option SnapshotData → RemoteList
  | none => emptyStore
  | some snapshot =>
      seedFromSnapshot snapshot.Lists { emptyStore with currentLSN := snapshot.LSN }

/-- The store `Recover` reaches from the empty store when the newest snapshot
file holds `newest` (or there is none) and the log holds `wal`. -/
def recovered (newest : Option SnapshotData) (wal : List WalItem) : RemoteList :=
  replayWAL (snapshotLSNOf newest) wal (seeded newest)

/-- The steps considered when `createSnapshot` runs with no call in between:
calls whose log write succeeds, and whole snapshots. -/
def Event.atomicOk : Event → Prop
  | .call c => c.outcome = WalOutcome.ok
  | .snapshot _ => True
  | _ => False

/-- The steps after which the durable state still determines the live store:
calls whose log write succeeds and every stage of `createSnapshot` except a
`truncateWAL` that other steps may have preceded. -/
def Event.safe : Event → Prop
  | .call c => c.outcome = WalOutcome.ok
  | .snapshotTruncate => False
  | _ => True

/-- The number of calls among a sequence of steps. -/
def callCount : List Event → Nat
  | [] => 0
  | .call _ :: evs => callCount evs + 1
  | _ :: evs => callCount evs

/-- The durable state determines the live store: the store is well formed, the
log holds only whole records, none newer than the current LSN, the newest
snapshot is not newer than the current LSN, and recovery from the newest
snapshot and the log reads, name by name, as the live store does; the same
holds of a snapshot that has been copied and not yet published. -/
def SysInv (sys : System) : Prop :=
  WF sys.store ∧
  WalItem.corrupt ∉ sys.store.walFile ∧
  (∀ e, WalItem.entry e ∈ sys.store.walFile → e.LSN ≤ sys.store.currentLSN) ∧
  snapshotLSNOf sys.newest ≤ sys.store.currentLSN ∧
  WF (seeded sys.newest) ∧
  (∀ n, contents (recovered sys.newest sys.store.walFile) n = contents sys.store n) ∧
  (∀ snapshot, sys.phase = SnapshotPhase.copied snapshot →
    snapshot.LSN ≤ sys.store.currentLSN ∧ WF (seeded (some snapshot)) ∧
    ∀ n, contents (recovered (some snapshot) sys.store.walFile) n = contents sys.store n)

/-- The log without the records a snapshot with LSN `s` subsumes. -/
def dropSubsumed (s : Nat) (items : List WalItem) : List WalItem :=
  items.filter (fun item =>
    match item with
    | WalItem.entry e => decide (s < e.LSN)
    | WalItem.corrupt => true)

/-- The calls `Append(name, v)` for the values `v` of a list, in order, each
stamped with its clock reading and each with a log write that succeeds. -/
def appendCalls (name : String) (tvs : List (Int × Int)) : List Call :=
  tvs.map (fun p => Call.append { now := p.1, outcome := WalOutcome.ok }
    { ListName := name, Value := p.2 })

/-- The run of scenario E: appends to one name, then a snapshot that is copied
and published but whose truncation has not happened, then two more appends to
that name. -/
def snapshotThenTwoAppends (name : String) (tvs : List (Int × Int)) (now : Int)
    (p q : Int × Int) : List Event :=
  (appendCalls name tvs).map Event.call ++
    ([Event.snapshotCopy now, Event.snapshotPublish] ++
      (appendCalls name [p, q]).map Event.call)

/-- The registry alone is sound: its identifiers are pairwise distinct and all
below the identifier source.  Unlike `WF` this allows lists that no name
refers to, as a `Recover` run on a store that is not empty leaves behind. -/
def RegOK (l : RemoteList) : Prop :=
  (l.nameToUUID.map Prod.snd).Nodup ∧ ∀ u ∈ l.nameToUUID.map Prod.snd, u < l.nextUUID

instance (l : RemoteList) : Decidable (RegOK l) := by unfold RegOK; infer_instance

/-- The records of a log that `Recover` applies over a snapshot with LSN `s`. -/
def appliedRecords (s : Nat) (items : List WalItem) : List LogEntry :=
  (decodablePrefix items).filter (fun e => decide (s < e.LSN))

/-- Any call of the RPC surface. -/
inductive Request where
  | append (io : WalIO) (args : AppendArgs)
  | remove (io : WalIO) (args : RemoveArgs)
  | get (args : GetArgs)
  | size (args : SizeArgs)
  | listAll
  deriving DecidableEq, Repr

/-- The store after a request: `Get`, `Size` and `ListAll` only read it. -/
def Request.run : Request → RemoteList → RemoteList
  | .append io args, l => (Append io args false l).1
  | .remove io args, l => (Remove io args l).1
  | .get _, l => l
  | .size _, l => l
  | .listAll, l => l

/-- Run a sequence of requests in order. -/
def runRequests (reqs : List Request) (l : RemoteList) : RemoteList :=
  reqs.foldl (fun acc r => r.run acc) l

/-- The names targeted by the `Append` requests of a sequence that return no
error. -/
def appendedNames : List Request → RemoteList → List String
  | [], _ => []
  | .append io args :: rs, l =>
      (if (Append io args false l).2.2 = none then [args.ListName] else []) ++
        appendedNames rs (Request.run (.append io args) l)
  | r :: rs, l => appendedNames rs (r.run l)

/-- The list a call is about. -/
def Call.listName : Call → String
  | .append _ args => args.ListName
  | .remove _ args => args.ListName

/-- The number of `Append` calls of a sequence that return no error. -/
def appendSuccesses : List Call → RemoteList → Nat
  | [], _ => 0
  | .append io args :: cs, l =>
      (if (Call.run (.append io args) l).2 = none then 1 else 0) +
        appendSuccesses cs (Call.run (.append io args) l).1
  | .remove io args :: cs, l => appendSuccesses cs (Call.run (.remove io args) l).1

/-- The number of `Remove` calls of a sequence that return no error. -/
def removeSuccesses : List Call → RemoteList → Nat
  | [], _ => 0
  | .append io args :: cs, l => removeSuccesses cs (Call.run (.append io args) l).1
  | .remove io args :: cs, l =>
      (if (Call.run (.remove io args) l).2 = none then 1 else 0) +
        removeSuccesses cs (Call.run (.remove io args) l).1

/-- The number of elements clients see under a name (0 when it is not
registered): the reply of `Size`. -/
def sizeOf (l : RemoteList) (name : String) : Nat := ((contents l name).getD []).length

/-- The orders in which the server can serve the calls of several callers:
each method holds the lock `mu` from its first to its last statement, so the
server serves whole calls one after the other, and each caller's calls in the
order the caller issues them. -/
inductive Interleaving : List (List Call) → List Call → Prop where
  | done (threads : List (List Call)) (h : ∀ t ∈ threads, t = []) : Interleaving threads []
  | step (pre post : List (List Call)) (c : Call) (t rest : List Call)
      (h : Interleaving (pre ++ t :: post) rest) :
      Interleaving (pre ++ (c :: t) :: post) (c :: rest)

/-- The names `cleanOldSnapshots` passes to `os.Remove`: none when there are at
most `keepCount` snapshot files, else all but the last `keepCount` of the
sorted snapshot names. -/
def snapshotsToRemove (keepCount : Nat) (names : List String) : List String :=
  let snapshots := snapshotNames names
  if snapshots.length ≤ keepCount then []
  else (sortStrings snapshots).take (snapshots.length - keepCount)

/-- Go `cleanOldSnapshots` on the listing of `data/`, when every `os.Remove`
succeeds: the listing that is left.  (`keepCount` is an `int` in Go; the only
call passes 3.) -/
def cleanOldSnapshots (keepCount : Nat) (names : List String) : List String :=
  names.filter (fun name => decide (name ∉ snapshotsToRemove keepCount names))

/-- The name `createSnapshot` gives, inside `data/`, to a snapshot created at
Unix time `t`: the `%d` of `fmt.Sprintf` is the decimal numeral. -/
def snapshotFileName (t : Int) : String := "snapshot_" ++ toString t ++ ".json"

/-- The decimal digits of `n` in exactly `w` positions, most significant
first. -/
def fixedDigits : Nat → Nat → List Char
  | 0, _ => []
  | w + 1, n => fixedDigits w (n / 10) ++ [Nat.digitChar (n % 10)]


/-! ## Goroutines serving `Append` -/

/-- The statement of `Append` that a goroutine serving a call runs next.  The
assignment `l.lists[listUUID] = append(l.lists[listUUID], args.Value)` is two
steps: the evaluation of its right-hand side, then the store into the map. -/
inductive AppendPC where
  /-- no call in progress; the next call begins with `l.mu.Lock()` -/
  | idle
  /-- the lock is taken; next is `l.writeWAL("APPEND", ...)` -/
  | atWriteWAL (io : WalIO) (args : AppendArgs)
  /-- next is `l.getOrCreateListUUID(args.ListName)` -/
  | atGetUUID (args : AppendArgs)
  /-- next is the evaluation of `append(l.lists[listUUID], args.Value)` -/
  | atRead (args : AppendArgs) (listUUID : UUID)
  /-- next is the store `l.lists[listUUID] = list` -/
  | atStore (listUUID : UUID) (list : List Int)
  /-- next is the deferred `l.mu.Unlock()`; `err` is what the call returns -/
  | atUnlock (err : Option RpcError)
  deriving DecidableEq, Repr

/-- A caller: one client connection.  Its `Call`s wait for the reply, so it has
at most one call in progress, served by a goroutine of its own, and the calls
in `pending` are still to be issued, in this order.  Each call comes with the
environment its `writeWAL` will meet. -/
structure Caller where
  pending : List ( WalIO × AppendArgs)
  pc : AppendPC
  deriving DecidableEq, Repr

/-- The server with its goroutines: the store, whether `l.mu` is locked (the
callers here only take the write lock, `Lock`), and the callers. -/
structure Server where
  store : RemoteList
  mu : Bool
  callers : List Caller
  deriving DecidableEq, Repr

/-- One step of the goroutine of a caller: `none` when it cannot move (no call
left, or `l.mu.Lock()` while the lock is held).  Only `Lock` looks at `mu`;
every other statement runs whatever the other goroutines are doing. -/
def Caller.step (store : RemoteList) (mu : Bool) (c : Caller) :
    Option (RemoteList × Bool × Caller) :=
  match c.pc with
  | .idle =>
      match c.pending with
      | [] => none
      | (io, args) :: rest =>
          if mu then none
          else some (store, true, { pending := rest, pc := .atWriteWAL io args })
  | .atWriteWAL io args =>
      match writeWAL io "APPEND" args.ListName args.Value store with
      | (l1, false) => some (l1, mu, { c with pc := .atUnlock (some .walWrite) })
      | (l1, true) => some (l1, mu, { c with pc := .atGetUUID args })
  | .atGetUUID args =>
      let (l2, listUUID) := getOrCreateListUUID args.ListName store
      some (l2, mu, { c with pc := .atRead args listUUID })
  | .atRead args listUUID =>
      some (store, mu, { c with pc := .atStore listUUID (listOf store listUUID ++ [args.Value]) })
  | .atStore listUUID list =>
      some ({ store with lists := mapSet store.lists listUUID list }, mu,
        { c with pc := .atUnlock none })
  | .atUnlock _ => some (store, false, { c with pc := .idle })

/-- The scheduler lets the goroutine of caller `i` run one step. -/
def Server.step (i : Nat) (s : Server) : Option Server :=
  match s.callers[i]? with
  | none => none
  | some c =>
      match c.step s.store s.mu with
      | none => none
      | some (store, mu, c1) => some { store := store, mu := mu, callers := s.callers.set i c1 }

/-- Run a schedule: the callers whose goroutines step, in order.  The result is
`none` when the schedule asks a goroutine to step that cannot. -/
def Server.run : List Nat → Server → Option Server
  | [], s => some s
  | i :: rest, s =>
      match s.step i with
      | none => none
      | some s1 => Server.run rest s1

/-- Every caller has issued all its calls and got all replies. -/
def Server.finished (s : Server) : Prop :=
  ∀ c ∈ s.callers, c.pending = [] ∧ c.pc = AppendPC.idle

instance (s : Server) : Decidable s.finished := by unfold Server.finished; infer_instance

/-- The elements the call in progress will still add to its list. -/
def AppendPC.owed : AppendPC → Nat
  | .idle => 0
  | .atWriteWAL io _ => if io.outcome = WalOutcome.ok then 1 else 0
  | .atGetUUID _ => 1
  | .atRead _ _ => 1
  | .atStore _ _ => 1
  | .atUnlock _ => 0

/-- The elements a caller will still add: one for each pending call whose log
write succeeds, plus what its call in progress owes. -/
def Caller.owed (c : Caller) : Nat :=
  (c.pending.filter (fun p => decide (p.1.outcome = WalOutcome.ok))).length + c.pc.owed

/-- The steps the call in progress has left. -/
def AppendPC.stepsLeft : AppendPC → Nat
  | .idle => 0
  | .atWriteWAL io _ => if io.outcome = WalOutcome.ok then 5 else 2
  | .atGetUUID _ => 4
  | .atRead _ _ => 3
  | .atStore _ _ => 2
  | .atUnlock _ => 1

/-- The steps a caller has left: six for a call whose log write succeeds, three
for one whose log write fails. -/
def Caller.stepsLeft (c : Caller) : Nat :=
  (c.pending.map (fun p => if p.1.outcome = WalOutcome.ok then 6 else 3)).sum + c.pc.stepsLeft

/-- What the local variables of a call in progress on the list `name` have to
do with the store. -/
def AppendPC.fits (name : String) (store : RemoteList) : AppendPC → Prop
  | .idle => True
  | .atWriteWAL _ args => args.ListName = name
  | .atGetUUID args => args.ListName = name
  | .atRead _ listUUID => mapGet store.nameToUUID name = some listUUID
  | .atStore listUUID list =>
      mapGet store.nameToUUID name = some listUUID ∧
      list.length = (listOf store listUUID).length + 1
  | .atUnlock _ => True

/-- The invariant of the server while callers append to the list `name`: every
call names that list, a goroutine inside `Append` holds the lock, no two
goroutines are inside `Append`, and a held lock has a holder. -/
def Server.Inv (name : String) (s : Server) : Prop :=
  (∀ (i : Nat) (c : Caller), s.callers[i]? = some c →
    (∀ p ∈ c.pending, p.2.ListName = name) ∧ c.pc.fits name s.store ∧
    (c.pc ≠ AppendPC.idle → s.mu = true)) ∧
  (∀ (i j : Nat) (ci cj : Caller), s.callers[i]? = some ci → s.callers[j]? = some cj →
    ci.pc ≠ AppendPC.idle → cj.pc ≠ AppendPC.idle → i = j) ∧
  (s.mu = true → ∃ (i : Nat) (c : Caller), s.callers[i]? = some c ∧ c.pc ≠ AppendPC.idle)

end Remotelist

namespace Remotelist

/-! ## Lookup after assignment -/

theorem mapGet_mapSet {κ ν : Type} [DecidableEq κ] (m : GoMap κ ν) (k k' : κ) (v : ν) :
    mapGet (mapSet m k v) k' = if k = k' then some v else mapGet m k' := by
  induction m with
  | nil => simp [mapSet, mapGet]
  | cons p m ih =>
    obtain ⟨a, b⟩ := p
    by_cases h : a = k
    · subst h
      by_cases h' : a = k' <;> simp [mapSet, mapGet, h']
    · by_cases h' : a = k'
      · subst h'
        simp [mapSet, mapGet, h, Ne.symm h]
      · simp [mapSet, mapGet, h, h', ih]

theorem mapGet_mapSet_self {κ ν : Type} [DecidableEq κ] (m : GoMap κ ν) (k : κ) (v : ν) :
    mapGet (mapSet m k v) k = some v := by
  simp [mapGet_mapSet]

theorem listOf_mapSet_self (l : RemoteList) (m : GoMap UUID (List Int)) (u : UUID)
    (xs : List Int) (h : l.lists = mapSet m u xs) : listOf l u = xs := by
  simp [listOf, h, mapGet_mapSet]

theorem contents_congr (l l' : RemoteList) (h1 : l'.nameToUUID = l.nameToUUID)
    (h2 : l'.lists = l.lists) (name : String) : contents l' name = contents l name := by
  unfold contents
  rw [h1]
  cases mapGet l.nameToUUID name with
  | none => rfl
  | some u => simp [listOf, h2]

theorem contents_eq_none_iff (l : RemoteList) (name : String) :
    contents l name = none ↔ mapGet l.nameToUUID name = none := by
  simp [contents]

theorem contents_eq_some_iff (l : RemoteList) (name : String) (xs : List Int) :
    contents l name = some xs ↔ ∃ u, mapGet l.nameToUUID name = some u ∧ listOf l u = xs := by
  simp [contents]

theorem getD_pred_eq_getLast (xs : List Int) (h : xs ≠ []) :
    some (xs.getD (xs.length - 1) 0) = xs.getLast? := by
  induction xs using List.reverseRecOn with
  | nil => exact absurd rfl h
  | append_singleton ys y _ => simp [List.getD_eq_getElem?_getD]

/-! ## Membership, keys and lookups -/

theorem mapGet_eq_none_iff {κ ν : Type} [DecidableEq κ] (m : GoMap κ ν) (k : κ) :
    mapGet m k = none ↔ k ∉ mapKeys m := by
  induction m with
  | nil => simp [mapGet, mapKeys]
  | cons p m ih =>
    obtain ⟨a, b⟩ := p
    by_cases h : a = k
    · simp [mapGet, mapKeys, h]
    · have ih' : mapGet m k = none ↔ k ∉ List.map Prod.fst m := ih
      simp [mapGet, mapKeys, h, Ne.symm h, ih']

theorem mem_of_mapGet {κ ν : Type} [DecidableEq κ] (m : GoMap κ ν) (k : κ) (v : ν)
    (h : mapGet m k = some v) : (k, v) ∈ m := by
  induction m with
  | nil => simp [mapGet] at h
  | cons p m ih =>
    obtain ⟨a, b⟩ := p
    by_cases hk : a = k
    · simp only [mapGet, hk, if_true, Option.some.injEq] at h
      simp [hk, h]
    · simp only [mapGet, hk, if_false] at h
      exact List.mem_cons_of_mem _ (ih h)

theorem mapGet_of_mem {κ ν : Type} [DecidableEq κ] (m : GoMap κ ν) (k : κ) (v : ν)
    (hnd : (mapKeys m).Nodup) (h : (k, v) ∈ m) : mapGet m k = some v := by
  induction m with
  | nil => simp at h
  | cons p m ih =>
    obtain ⟨a, b⟩ := p
    simp only [mapKeys, List.map_cons, List.nodup_cons] at hnd
    rcases List.mem_cons.1 h with heq | hmem
    · simp only [Prod.mk.injEq] at heq
      simp [mapGet, heq.1, heq.2]
    · have hne : a ≠ k := by
        rintro rfl
        exact hnd.1 (List.mem_map.2 ⟨(a, v), hmem, rfl⟩)
      simp only [mapGet, hne, if_false]
      exact ih hnd.2 hmem

theorem key_mem_of_mapGet {κ ν : Type} [DecidableEq κ] (m : GoMap κ ν) (k : κ) (v : ν)
    (h : mapGet m k = some v) : k ∈ mapKeys m :=
  List.mem_map.2 ⟨(k, v), mem_of_mapGet m k v h, rfl⟩

theorem value_mem_of_mapGet {κ ν : Type} [DecidableEq κ] (m : GoMap κ ν) (k : κ) (v : ν)
    (h : mapGet m k = some v) : v ∈ m.map Prod.snd :=
  List.mem_map.2 ⟨(k, v), mem_of_mapGet m k v h, rfl⟩

theorem mapSet_of_not_mem {κ ν : Type} [DecidableEq κ] (m : GoMap κ ν) (k : κ) (v : ν)
    (h : k ∉ mapKeys m) : mapSet m k v = m ++ [(k, v)] := by
  induction m with
  | nil => rfl
  | cons p m ih =>
    obtain ⟨a, b⟩ := p
    simp only [mapKeys, List.map_cons, List.mem_cons, not_or] at h
    have hne : a ≠ k := fun e => h.1 e.symm
    simp only [mapSet, hne, if_false, List.cons_append]
    rw [ih h.2]

theorem mapKeys_mapSet_of_mem {κ ν : Type} [DecidableEq κ] (m : GoMap κ ν) (k : κ) (v : ν)
    (h : k ∈ mapKeys m) : mapKeys (mapSet m k v) = mapKeys m := by
  induction m with
  | nil => simp [mapKeys] at h
  | cons p m ih =>
    obtain ⟨a, b⟩ := p
    by_cases hk : a = k
    · simp [mapSet, mapKeys, hk]
    · simp only [mapKeys, List.map_cons, List.mem_cons] at h
      rcases h with h | h
      · exact absurd h.symm hk
      · have := ih h
        simp only [mapKeys] at this
        simp [mapSet, mapKeys, hk, this]

theorem mapKeys_append {κ ν : Type} (m m' : GoMap κ ν) :
    mapKeys (m ++ m') = mapKeys m ++ mapKeys m' := by
  simp [mapKeys]

/-! ## The store invariant -/

theorem WF_emptyStore : WF emptyStore := by decide

theorem NewRemoteList_empty_dir :
    NewRemoteList { files := [], wal := WalFile.absent } = some emptyStore := by decide

theorem WF_congr (l l' : RemoteList) (h : WF l) (h1 : l'.nameToUUID = l.nameToUUID)
    (h2 : l'.lists = l.lists) (h3 : l'.nextUUID = l.nextUUID) : WF l' := by
  unfold WF at *
  rw [h1, h2, h3]
  exact h

theorem WF_inj (l : RemoteList) (h : WF l) (n1 n2 : String) (u : UUID)
    (h1 : mapGet l.nameToUUID n1 = some u) (h2 : mapGet l.nameToUUID n2 = some u) :
    n1 = n2 := by
  have m1 := mem_of_mapGet _ _ _ h1
  have m2 := mem_of_mapGet _ _ _ h2
  have := List.inj_on_of_nodup_map h.2.1 m1 m2 rfl
  exact (Prod.mk.injEq _ _ _ _ ▸ this).1

theorem WF_id_mem (l : RemoteList) (h : WF l) (n : String) (u : UUID)
    (h1 : mapGet l.nameToUUID n = some u) : u ∈ mapKeys l.lists :=
  h.2.2.2.1 u (value_mem_of_mapGet _ _ _ h1)

theorem WF_id_lt (l : RemoteList) (h : WF l) (n : String) (u : UUID)
    (h1 : mapGet l.nameToUUID n = some u) : u < l.nextUUID :=
  (h.2.2.2.2 u (WF_id_mem l h n u h1)).2

theorem WF_next_not_mem (l : RemoteList) (h : WF l) : l.nextUUID ∉ mapKeys l.lists :=
  fun hm => Nat.lt_irrefl _ (h.2.2.2.2 _ hm).2

/-- Assigning to the list of a registered name keeps the invariant. -/
theorem WF_of_setList (l l' : RemoteList) (h : WF l) (u : UUID) (X : List Int)
    (hu : u ∈ mapKeys l.lists) (h1 : l'.nameToUUID = l.nameToUUID)
    (h2 : l'.lists = mapSet l.lists u X) (h3 : l'.nextUUID = l.nextUUID) : WF l' := by
  unfold WF at *
  rw [h1, h2, h3, mapKeys_mapSet_of_mem _ _ _ hu]
  exact h

/-- Assigning to the list of a registered name changes what that name reads
and nothing else. -/
theorem contents_of_setList (l l' : RemoteList) (h : WF l) (name : String) (u : UUID)
    (X : List Int) (hu : mapGet l.nameToUUID name = some u)
    (h1 : l'.nameToUUID = l.nameToUUID) (h2 : l'.lists = mapSet l.lists u X) (n : String) :
    contents l' n = if n = name then some X else contents l n := by
  unfold contents
  rw [h1]
  by_cases hn : n = name
  · subst hn
    simp [hu, listOf, h2, mapGet_mapSet]
  · simp only [hn, if_false]
    cases hn' : mapGet l.nameToUUID n with
    | none => rfl
    | some u' =>
      have hne : u ≠ u' := by
        rintro rfl
        exact hn (WF_inj l h _ _ _ hn' hu)
      simp [listOf, h2, mapGet_mapSet, hne]

/-- Registering a new name with a fresh identifier keeps the invariant. -/
theorem WF_of_newList (l l' : RemoteList) (h : WF l) (name : String) (X : List Int)
    (hnone : mapGet l.nameToUUID name = none)
    (h1 : l'.nameToUUID = mapSet l.nameToUUID name l.nextUUID)
    (h2 : l'.lists = mapSet (mapSet l.lists l.nextUUID []) l.nextUUID X)
    (h3 : l'.nextUUID = l.nextUUID + 1) : WF l' := by
  have hname : name ∉ mapKeys l.nameToUUID := (mapGet_eq_none_iff _ _).1 hnone
  have hnext : l.nextUUID ∉ mapKeys l.lists := WF_next_not_mem l h
  have hk1 : mapKeys (mapSet l.lists l.nextUUID ([] : List Int)) =
      mapKeys l.lists ++ [l.nextUUID] := by
    rw [mapSet_of_not_mem _ _ _ hnext, mapKeys_append]; rfl
  have hk2 : mapKeys l'.lists = mapKeys l.lists ++ [l.nextUUID] := by
    rw [h2, mapKeys_mapSet_of_mem _ _ _ (by rw [hk1]; simp), hk1]
  have hr : l'.nameToUUID = l.nameToUUID ++ [(name, l.nextUUID)] := by
    rw [h1, mapSet_of_not_mem _ _ _ hname]
  have hv : l.nextUUID ∉ l.nameToUUID.map Prod.snd := fun hm => hnext (h.2.2.2.1 _ hm)
  obtain ⟨w1, w2, w3, w4, w5⟩ := h
  refine ⟨?_, ?_, ?_, ?_, ?_⟩
  · rw [hr, mapKeys_append]
    refine List.Nodup.append w1 (by simp [mapKeys]) ?_
    intro x hx hx'
    simp only [mapKeys, List.map_cons, List.map_nil, List.mem_singleton] at hx'
    exact hname (hx' ▸ hx)
  · rw [hr, List.map_append]
    refine List.Nodup.append w2 (by simp) ?_
    intro x hx hx'
    simp only [List.map_cons, List.map_nil, List.mem_singleton] at hx'
    exact hv (hx' ▸ hx)
  · rw [hk2]
    refine List.Nodup.append w3 (by simp) ?_
    intro x hx hx'
    simp only [List.mem_singleton] at hx'
    exact hnext (hx' ▸ hx)
  · intro u hu
    rw [hr, List.map_append, List.mem_append] at hu
    rw [hk2, List.mem_append]
    rcases hu with hu | hu
    · exact Or.inl (w4 u hu)
    · right; simpa using hu
  · intro u hu
    rw [hk2, List.mem_append] at hu
    rw [hr, List.map_append, List.mem_append, h3]
    rcases hu with hu | hu
    · exact ⟨Or.inl (w5 u hu).1, Nat.lt_succ_of_lt (w5 u hu).2⟩
    · simp only [List.mem_singleton] at hu
      subst hu
      exact ⟨Or.inr (by simp), Nat.lt_succ_self _⟩

/-- Registering a new name with a fresh identifier changes what that name
reads and nothing else. -/
theorem contents_of_newList (l l' : RemoteList) (h : WF l) (name : String) (X : List Int)
    (h1 : l'.nameToUUID = mapSet l.nameToUUID name l.nextUUID)
    (h2 : l'.lists = mapSet (mapSet l.lists l.nextUUID []) l.nextUUID X) (n : String) :
    contents l' n = if n = name then some X else contents l n := by
  unfold contents
  rw [h1, mapGet_mapSet]
  by_cases hn : n = name
  · subst hn
    simp [listOf, h2, mapGet_mapSet]
  · simp only [hn, Ne.symm hn, if_false]
    cases hn' : mapGet l.nameToUUID n with
    | none => rfl
    | some u' =>
      have hne : l.nextUUID ≠ u' := fun e => Nat.lt_irrefl _ (e ▸ WF_id_lt l h n u' hn')
      simp [listOf, h2, mapGet_mapSet, hne]

/-! ## Replaying one record -/

theorem applyEntry_append_some (e : LogEntry) (l : RemoteList) (u : UUID)
    (hop : e.Operation = "APPEND") (hreg : mapGet l.nameToUUID e.ListName = some u) :
    applyEntry e l =
      { l with lists := mapSet l.lists u (listOf l u ++ [e.Value]), currentLSN := e.LSN } := by
  simp only [applyEntry, hop, if_true, getOrCreateListUUID, hreg]

theorem applyEntry_append_none (e : LogEntry) (l : RemoteList)
    (hop : e.Operation = "APPEND") (hreg : mapGet l.nameToUUID e.ListName = none) :
    applyEntry e l =
      { nameToUUID := mapSet l.nameToUUID e.ListName l.nextUUID,
        lists := mapSet (mapSet l.lists l.nextUUID []) l.nextUUID [e.Value],
        currentLSN := e.LSN, walFile := l.walFile, nextUUID := l.nextUUID + 1 } := by
  simp only [applyEntry, hop, if_true, getOrCreateListUUID, hreg]
  rw [listOf_mapSet_self _ l.lists l.nextUUID [] rfl]
  rfl

theorem applyEntry_remove_some (e : LogEntry) (l : RemoteList) (u : UUID)
    (hop : e.Operation = "REMOVE") (hreg : mapGet l.nameToUUID e.ListName = some u)
    (hne : (listOf l u).length > 0) :
    applyEntry e l =
      { l with lists := mapSet l.lists u ((listOf l u).take ((listOf l u).length - 1)),
               currentLSN := e.LSN } := by
  have hra : ¬ ("REMOVE" : String) = "APPEND" := by decide
  simp only [applyEntry, hop, hra, if_false, if_true, hreg, hne]

theorem applyEntry_noop (e : LogEntry) (l : RemoteList)
    (h : (e.Operation ≠ "APPEND" ∧ e.Operation ≠ "REMOVE") ∨
      (e.Operation = "REMOVE" ∧ mapGet l.nameToUUID e.ListName = none) ∨
      (e.Operation = "REMOVE" ∧ ∃ u, mapGet l.nameToUUID e.ListName = some u ∧
        listOf l u = [])) :
    applyEntry e l = { l with currentLSN := e.LSN } := by
  rcases h with ⟨h1, h2⟩ | ⟨hop, hreg⟩ | ⟨hop, u, hreg, hnil⟩
  · simp only [applyEntry, h1, h2, if_false]
  · have hra : ¬ ("REMOVE" : String) = "APPEND" := by decide
    simp only [applyEntry, hop, hra, if_false, if_true, hreg]
  · have hra : ¬ ("REMOVE" : String) = "APPEND" := by decide
    simp [applyEntry, hop, hra, hreg, hnil]

theorem applyEntry_walFile (e : LogEntry) (l : RemoteList) :
    (applyEntry e l).walFile = l.walFile := by
  unfold applyEntry getOrCreateListUUID
  dsimp only
  split_ifs <;> (try split) <;> (try split_ifs) <;> rfl

theorem applyEntry_currentLSN (e : LogEntry) (l : RemoteList) :
    (applyEntry e l).currentLSN = e.LSN := rfl

theorem applyEntry_WF (e : LogEntry) (l : RemoteList) (h : WF l) : WF (applyEntry e l) := by
  by_cases hop : e.Operation = "APPEND"
  · cases hreg : mapGet l.nameToUUID e.ListName with
    | none =>
      rw [applyEntry_append_none e l hop hreg]
      exact WF_of_newList l _ h e.ListName [e.Value] hreg rfl rfl rfl
    | some u =>
      rw [applyEntry_append_some e l u hop hreg]
      exact WF_of_setList l _ h u _ (WF_id_mem l h _ u hreg) rfl rfl rfl
  · by_cases hop2 : e.Operation = "REMOVE"
    · cases hreg : mapGet l.nameToUUID e.ListName with
      | none =>
        rw [applyEntry_noop e l (Or.inr (Or.inl ⟨hop2, hreg⟩))]
        exact WF_congr l _ h rfl rfl rfl
      | some u =>
        by_cases hne : (listOf l u).length > 0
        · rw [applyEntry_remove_some e l u hop2 hreg hne]
          exact WF_of_setList l _ h u _ (WF_id_mem l h _ u hreg) rfl rfl rfl
        · have hnil : listOf l u = [] := List.length_eq_zero.1 (by omega)
          rw [applyEntry_noop e l (Or.inr (Or.inr ⟨hop2, u, hreg, hnil⟩))]
          exact WF_congr l _ h rfl rfl rfl
    · rw [applyEntry_noop e l (Or.inl ⟨hop, hop2⟩)]
      exact WF_congr l _ h rfl rfl rfl

theorem applyEntry_contents (e : LogEntry) (l : RemoteList) (h : WF l) (n : String) :
    contents (applyEntry e l) n = applyView e (contents l) n := by
  by_cases hop : e.Operation = "APPEND"
  · simp only [applyView, hop, if_true]
    cases hreg : mapGet l.nameToUUID e.ListName with
    | none =>
      have hEq := applyEntry_append_none e l hop hreg
      rw [contents_of_newList l (applyEntry e l) h e.ListName [e.Value]
        (by rw [hEq]) (by rw [hEq]) n]
      by_cases hn : n = e.ListName
      · subst hn
        simp [contents, hreg]
      · simp [hn]
    | some u =>
      have hEq := applyEntry_append_some e l u hop hreg
      rw [contents_of_setList l (applyEntry e l) h e.ListName u (listOf l u ++ [e.Value]) hreg
        (by rw [hEq]) (by rw [hEq]) n]
      by_cases hn : n = e.ListName
      · subst hn
        simp [contents, hreg]
      · simp [hn]
  · by_cases hop2 : e.Operation = "REMOVE"
    · simp only [applyView, hop, if_false, hop2, if_true]
      cases hreg : mapGet l.nameToUUID e.ListName with
      | none =>
        have hEq := applyEntry_noop e l (Or.inr (Or.inl ⟨hop2, hreg⟩))
        rw [contents_congr l (applyEntry e l) (by rw [hEq]) (by rw [hEq]) n]
        by_cases hn : n = e.ListName
        · subst hn
          simp [contents, hreg]
        · simp [hn]
      | some u =>
        by_cases hne : (listOf l u).length > 0
        · have hEq := applyEntry_remove_some e l u hop2 hreg hne
          rw [contents_of_setList l (applyEntry e l) h e.ListName u
            ((listOf l u).take ((listOf l u).length - 1)) hreg (by rw [hEq]) (by rw [hEq]) n]
          by_cases hn : n = e.ListName
          · subst hn
            simp [contents, hreg, List.dropLast_eq_take]
          · simp [hn]
        · have hnil : listOf l u = [] := List.length_eq_zero.1 (by omega)
          have hEq := applyEntry_noop e l (Or.inr (Or.inr ⟨hop2, u, hreg, hnil⟩))
          rw [contents_congr l (applyEntry e l) (by rw [hEq]) (by rw [hEq]) n]
          by_cases hn : n = e.ListName
          · subst hn
            simp [contents, hreg, hnil]
          · simp [hn]
    · simp only [applyView, hop, hop2, if_false]
      have hEq := applyEntry_noop e l (Or.inl ⟨hop, hop2⟩)
      exact contents_congr l (applyEntry e l) (by rw [hEq]) (by rw [hEq]) n

/-! ## Replaying a log -/

theorem replayWAL_append_entry (s : Nat) (wal : List WalItem) (e : LogEntry) (l : RemoteList)
    (hnc : WalItem.corrupt ∉ wal) :
    replayWAL s (wal ++ [WalItem.entry e]) l =
      if e.LSN ≤ s then replayWAL s wal l else applyEntry e (replayWAL s wal l) := by
  induction wal generalizing l with
  | nil => simp [replayWAL]
  | cons a wal ih =>
    cases a with
    | corrupt => simp at hnc
    | entry x =>
      have hnc' : WalItem.corrupt ∉ wal := fun h => hnc (List.mem_cons_of_mem _ h)
      by_cases hx : x.LSN ≤ s
      · simp only [List.cons_append, replayWAL, hx, if_true]
        exact ih l hnc'
      · simp only [List.cons_append, replayWAL, hx, if_false]
        exact ih _ hnc'

theorem replayWAL_skip (s : Nat) (wal : List WalItem) (l : RemoteList)
    (h : ∀ e, WalItem.entry e ∈ wal → e.LSN ≤ s) : replayWAL s wal l = l := by
  induction wal with
  | nil => rfl
  | cons a wal ih =>
    cases a with
    | corrupt => rfl
    | entry x =>
      have hx : x.LSN ≤ s := h x (List.mem_cons_self _ _)
      simp only [replayWAL, hx, if_true]
      exact ih (fun e he => h e (List.mem_cons_of_mem _ he))

theorem replayWAL_eq_foldl (s : Nat) (wal : List WalItem) (l : RemoteList) :
    replayWAL s wal l =
      ((decodablePrefix wal).filter (fun e => decide (s < e.LSN))).foldl
        (fun acc e => applyEntry e acc) l := by
  induction wal generalizing l with
  | nil => rfl
  | cons a wal ih =>
    cases a with
    | corrupt => rfl
    | entry x =>
      by_cases hx : x.LSN ≤ s
      · have hx' : ¬ s < x.LSN := by omega
        simp only [replayWAL, hx, if_true, decodablePrefix]
        rw [List.filter_cons_of_neg (by simpa using hx')]
        exact ih l
      · have hx' : s < x.LSN := by omega
        simp only [replayWAL, hx, if_false, decodablePrefix]
        rw [List.filter_cons_of_pos (by simpa using hx')]
        exact ih _

theorem replayWAL_WF (s : Nat) (wal : List WalItem) (l : RemoteList) (h : WF l) :
    WF (replayWAL s wal l) := by
  induction wal generalizing l with
  | nil => exact h
  | cons a wal ih =>
    cases a with
    | corrupt => exact h
    | entry x =>
      by_cases hx : x.LSN ≤ s
      · simp only [replayWAL, hx, if_true]
        exact ih l h
      · simp only [replayWAL, hx, if_false]
        exact ih _ (applyEntry_WF x l h)

theorem applyView_congr (e : LogEntry) (v v' : String → Option (List Int))
    (h : ∀ n, v n = v' n) (n : String) : applyView e v n = applyView e v' n := by
  have : v = v' := funext h
  rw [this]

theorem replayWAL_contents_congr (s : Nat) (wal : List WalItem) (l l' : RemoteList)
    (h : WF l) (h' : WF l') (hc : ∀ n, contents l n = contents l' n) (n : String) :
    contents (replayWAL s wal l) n = contents (replayWAL s wal l') n := by
  induction wal generalizing l l' with
  | nil => exact hc n
  | cons a wal ih =>
    cases a with
    | corrupt => exact hc n
    | entry x =>
      by_cases hx : x.LSN ≤ s
      · simp only [replayWAL, hx, if_true]
        exact ih l l' h h' hc
      · simp only [replayWAL, hx, if_false]
        refine ih _ _ (applyEntry_WF x l h) (applyEntry_WF x l' h') ?_
        intro m
        rw [applyEntry_contents x l h, applyEntry_contents x l' h']
        exact applyView_congr x _ _ hc m

theorem replayWAL_walFile (s : Nat) (wal : List WalItem) (l : RemoteList) :
    (replayWAL s wal l).walFile = l.walFile := by
  induction wal generalizing l with
  | nil => rfl
  | cons a wal ih =>
    cases a with
    | corrupt => rfl
    | entry x =>
      by_cases hx : x.LSN ≤ s
      · simp only [replayWAL, hx, if_true]
        exact ih l
      · simp only [replayWAL, hx, if_false]
        rw [ih, applyEntry_walFile]

/-! ## A successful call is the replay of its own record -/

theorem Append_ok_eq (io : WalIO) (args : AppendArgs) (reply : Bool) (l : RemoteList)
    (hio : io.outcome = WalOutcome.ok) :
    Append io args reply l =
      ({ applyEntry { LSN := (l.currentLSN + 1) % uint64Mod, Timestamp := io.now,
                      Operation := "APPEND", ListName := args.ListName,
                      Value := args.Value } l with
          walFile := l.walFile ++
            [WalItem.entry { LSN := (l.currentLSN + 1) % uint64Mod, Timestamp := io.now,
                             Operation := "APPEND", ListName := args.ListName,
                             Value := args.Value }] }, true, none) := by
  obtain ⟨now, outcome⟩ := io
  simp only at hio
  subst hio
  cases hreg : mapGet l.nameToUUID args.ListName with
  | none =>
    rw [applyEntry_append_none _ l rfl hreg]
    simp only [Append, writeWAL, getOrCreateListUUID, hreg]
    rw [listOf_mapSet_self _ l.lists l.nextUUID [] rfl]
    rfl
  | some u =>
    rw [applyEntry_append_some _ l u rfl hreg]
    simp only [Append, writeWAL, getOrCreateListUUID, hreg]
    rfl

theorem Remove_ok_eq (io : WalIO) (args : RemoveArgs) (l : RemoteList) (u : UUID)
    (xs : List Int) (hio : io.outcome = WalOutcome.ok)
    (hu : mapGet l.nameToUUID args.ListName = some u) (hxs : listOf l u = xs)
    (hne : xs ≠ []) :
    Remove io args l =
      ({ l with
          currentLSN := (l.currentLSN + 1) % uint64Mod,
          walFile := l.walFile ++
            [WalItem.entry { LSN := (l.currentLSN + 1) % uint64Mod, Timestamp := io.now,
                             Operation := "REMOVE", ListName := args.ListName,
                             Value := xs.getD (xs.length - 1) 0 }],
          lists := mapSet l.lists u (xs.take (xs.length - 1)) },
        xs.getD (xs.length - 1) 0, none) := by
  obtain ⟨now, outcome⟩ := io
  simp only at hio
  subst hio
  have hlen : xs.length ≠ 0 := fun h => hne (List.length_eq_zero.1 h)
  simp only [Remove, hu, hxs, writeWAL]
  rw [if_neg hlen]

theorem Remove_ok_eq_apply (io : WalIO) (args : RemoveArgs) (l : RemoteList) (u : UUID)
    (hio : io.outcome = WalOutcome.ok)
    (hu : mapGet l.nameToUUID args.ListName = some u) (hne : listOf l u ≠ []) :
    Remove io args l =
      ({ applyEntry { LSN := (l.currentLSN + 1) % uint64Mod, Timestamp := io.now,
                      Operation := "REMOVE", ListName := args.ListName,
                      Value := (listOf l u).getD ((listOf l u).length - 1) 0 } l with
          walFile := l.walFile ++
            [WalItem.entry { LSN := (l.currentLSN + 1) % uint64Mod, Timestamp := io.now,
                             Operation := "REMOVE", ListName := args.ListName,
                             Value := (listOf l u).getD ((listOf l u).length - 1) 0 }] },
        (listOf l u).getD ((listOf l u).length - 1) 0, none) := by
  have hpos : (listOf l u).length > 0 := List.length_pos.2 hne
  rw [Remove_ok_eq io args l u (listOf l u) hio hu rfl hne,
    applyEntry_remove_some _ l u rfl hu hpos]

/-- What a call whose log write succeeds does: either it fails before the log
is touched and changes nothing, or it succeeds and is the replay of the record
it appends, which carries the next LSN. -/
theorem Call_run_ok (c : Call) (l : RemoteList) (hok : c.outcome = WalOutcome.ok) :
    ((c.run l).2 ≠ none ∧ (c.run l).1 = l) ∨
    ((c.run l).2 = none ∧ ∃ e : LogEntry, e.LSN = (l.currentLSN + 1) % uint64Mod ∧
      (c.run l).1 = { applyEntry e l with walFile := l.walFile ++ [WalItem.entry e] }) := by
  cases c with
  | append io args =>
    right
    simp only [Call.run]
    rw [Append_ok_eq io args false l hok]
    exact ⟨rfl, _, rfl, rfl⟩
  | remove io args =>
    simp only [Call.run]
    cases hreg : mapGet l.nameToUUID args.ListName with
    | none =>
      left
      simp [Remove, hreg]
    | some u =>
      by_cases hne : listOf l u = []
      · left
        simp [Remove, hreg, hne]
      · right
        rw [Remove_ok_eq_apply io args l u hok hreg hne]
        exact ⟨rfl, _, rfl, rfl⟩

/-! ## Snapshots: capture and reload -/

theorem mapSet_mapSet_same {κ ν : Type} [DecidableEq κ] (m : GoMap κ ν) (k : κ) (v v' : ν) :
    mapSet (mapSet m k v) k v' = mapSet m k v' := by
  induction m with
  | nil => simp [mapSet]
  | cons p m ih =>
    obtain ⟨a, b⟩ := p
    by_cases h : a = k
    · simp [mapSet, h]
    · simp [mapSet, h, ih]

theorem mapKeys_nodup_mapSet {κ ν : Type} [DecidableEq κ] (m : GoMap κ ν) (k : κ) (v : ν)
    (h : (mapKeys m).Nodup) : (mapKeys (mapSet m k v)).Nodup := by
  by_cases hk : k ∈ mapKeys m
  · rw [mapKeys_mapSet_of_mem _ _ _ hk]
    exact h
  · rw [mapSet_of_not_mem _ _ _ hk, mapKeys_append]
    refine List.Nodup.append h (by simp [mapKeys]) ?_
    intro x hx hx'
    simp only [mapKeys, List.map_cons, List.map_nil, List.mem_singleton] at hx'
    exact hk (hx' ▸ hx)

theorem mapKeys_nodup_foldl {α κ ν : Type} [DecidableEq κ] (kf : α → κ) (vf : α → ν)
    (xs : List α) (acc : GoMap κ ν) (h : (mapKeys acc).Nodup) :
    (mapKeys (xs.foldl (fun a p => mapSet a (kf p) (vf p)) acc)).Nodup := by
  induction xs generalizing acc with
  | nil => exact h
  | cons x xs ih => exact ih _ (mapKeys_nodup_mapSet acc _ _ h)

/-- A loop of assignments with pairwise distinct keys: a key reads the value
assigned to it, or what the map held before. -/
theorem mapGet_foldl_mapSet {α κ ν : Type} [DecidableEq κ] (kf : α → κ) (vf : α → ν)
    (xs : List α) (acc : GoMap κ ν) (hnd : (xs.map kf).Nodup) (k : κ) (v : ν) :
    mapGet (xs.foldl (fun a p => mapSet a (kf p) (vf p)) acc) k = some v ↔
      (∃ p ∈ xs, kf p = k ∧ vf p = v) ∨ ((∀ p ∈ xs, kf p ≠ k) ∧ mapGet acc k = some v) := by
  induction xs generalizing acc with
  | nil => simp
  | cons x xs ih =>
    simp only [List.map_cons, List.nodup_cons] at hnd
    simp only [List.foldl_cons]
    rw [ih _ hnd.2, mapGet_mapSet]
    constructor
    · rintro (⟨p, hp, hk, hv⟩ | ⟨hall, hget⟩)
      · exact Or.inl ⟨p, List.mem_cons_of_mem _ hp, hk, hv⟩
      · by_cases hx : kf x = k
        · simp only [hx, if_true, Option.some.injEq] at hget
          exact Or.inl ⟨x, List.mem_cons_self _ _, hx, hget⟩
        · simp only [hx, if_false] at hget
          refine Or.inr ⟨?_, hget⟩
          intro p hp
          rcases List.mem_cons.1 hp with rfl | hp
          · exact hx
          · exact hall p hp
    · rintro (⟨p, hp, hk, hv⟩ | ⟨hall, hget⟩)
      · rcases List.mem_cons.1 hp with rfl | hp
        · by_cases hex : ∃ q ∈ xs, kf q = k
          · obtain ⟨q, hq, hqk⟩ := hex
            exact absurd (List.mem_map.2 ⟨q, hq, hqk.trans hk.symm⟩) hnd.1
          · right
            refine ⟨fun q hq hqk => hex ⟨q, hq, hqk⟩, ?_⟩
            simp [hk, hv]
        · exact Or.inl ⟨p, hp, hk, hv⟩
      · right
        refine ⟨fun q hq => hall q (List.mem_cons_of_mem _ hq), ?_⟩
        have hx : kf x ≠ k := hall x (List.mem_cons_self _ _)
        simp [hx, hget]

theorem mapGet_invertRegistry (l : RemoteList) (h : WF l) (u : UUID) (n : String) :
    mapGet (invertRegistry l.nameToUUID) u = some n ↔ mapGet l.nameToUUID n = some u := by
  unfold invertRegistry
  rw [mapGet_foldl_mapSet (fun p : String × UUID => p.2) (fun p => p.1) _ _ h.2.1]
  constructor
  · rintro (⟨p, hp, hk, hv⟩ | ⟨_, hget⟩)
    · obtain ⟨a, b⟩ := p
      simp only at hk hv
      subst hk hv
      exact mapGet_of_mem _ _ _ h.1 hp
    · simp [mapGet] at hget
  · intro hget
    exact Or.inl ⟨(n, u), mem_of_mapGet _ _ _ hget, rfl, rfl⟩

theorem copyLists_key (l : RemoteList) (h : WF l) (p : UUID × List Int) (hp : p ∈ l.lists) :
    mapGet l.nameToUUID ((mapGet (invertRegistry l.nameToUUID) p.1).getD "") = some p.1 := by
  have hk : p.1 ∈ mapKeys l.lists := List.mem_map.2 ⟨p, hp, rfl⟩
  have hv := (h.2.2.2.2 p.1 hk).1
  obtain ⟨q, hq, hq2⟩ := List.mem_map.1 hv
  obtain ⟨n, u⟩ := q
  simp only at hq2
  have hget : mapGet l.nameToUUID n = some u := mapGet_of_mem _ _ _ h.1 hq
  have hinv := (mapGet_invertRegistry l h u n).2 hget
  rw [← hq2, hinv]
  exact hget

/-- The lists a snapshot stores are, name by name, what clients read. -/
theorem captureSnapshot_lists (now : Int) (l : RemoteList) (h : WF l) (n : String) :
    mapGet (captureSnapshot now l).Lists n = contents l n := by
  have hnd : (l.lists.map
      (fun p : UUID × List Int => (mapGet (invertRegistry l.nameToUUID) p.1).getD "")).Nodup := by
    refine List.Nodup.map_on ?_ (List.Nodup.of_map _ h.2.2.1)
    intro x hx y hy hxy
    have h1 := copyLists_key l h x hx
    have h2 := copyLists_key l h y hy
    rw [hxy, h2] at h1
    exact (List.inj_on_of_nodup_map h.2.2.1 hx hy (Option.some.inj h1).symm)
  apply Option.ext
  intro xs
  simp only [captureSnapshot, copyLists, Option.mem_def]
  rw [mapGet_foldl_mapSet
    (fun p : UUID × List Int => (mapGet (invertRegistry l.nameToUUID) p.1).getD "")
    (fun p => p.2) _ _ hnd, contents_eq_some_iff]
  constructor
  · rintro (⟨p, hp, hk, hv⟩ | ⟨_, hget⟩)
    · have hkey := copyLists_key l h p hp
      rw [hk] at hkey
      refine ⟨p.1, hkey, ?_⟩
      have : mapGet l.lists p.1 = some p.2 := mapGet_of_mem _ _ _ h.2.2.1 hp
      simp [listOf, this, hv]
    · simp [mapGet] at hget
  · rintro ⟨u, hu, hxs⟩
    left
    have hmem : u ∈ mapKeys l.lists := WF_id_mem l h n u hu
    cases hget : mapGet l.lists u with
    | none => exact absurd hmem ((mapGet_eq_none_iff _ _).1 hget)
    | some ys =>
      have hys : ys = xs := by simpa [listOf, hget] using hxs
      subst hys
      refine ⟨(u, ys), mem_of_mapGet _ _ _ hget, ?_, rfl⟩
      simp only
      rw [(mapGet_invertRegistry l h u n).2 hu]
      rfl

theorem captureSnapshot_keys_nodup (now : Int) (l : RemoteList) :
    (mapKeys (captureSnapshot now l).Lists).Nodup := by
  simp only [captureSnapshot, copyLists]
  exact mapKeys_nodup_foldl _ _ _ _ (by simp [mapKeys])

theorem seedFromSnapshot_cons (p : String × List Int) (m : GoMap String (List Int))
    (l : RemoteList) :
    seedFromSnapshot (p :: m) l =
      seedFromSnapshot m
        { l with nameToUUID := mapSet l.nameToUUID p.1 l.nextUUID,
                 lists := mapSet l.lists l.nextUUID p.2,
                 nextUUID := l.nextUUID + 1 } := rfl

/-- Loading the lists of a snapshot into a store that knows none of its names:
the invariant is kept, every name of the snapshot reads what the snapshot
stores, every other name reads as before. -/
theorem seedFromSnapshot_spec (m : GoMap String (List Int)) (l : RemoteList) (h : WF l)
    (hnd : (mapKeys m).Nodup) (hnew : ∀ k ∈ mapKeys m, mapGet l.nameToUUID k = none) :
    WF (seedFromSnapshot m l) ∧
    ∀ n, contents (seedFromSnapshot m l) n =
      match mapGet m n with
      | some xs => some xs
      | none => contents l n := by
  induction m generalizing l with
  | nil => exact ⟨h, fun n => rfl⟩
  | cons p m ih =>
    obtain ⟨k, v⟩ := p
    simp only [mapKeys, List.map_cons, List.nodup_cons] at hnd
    rw [seedFromSnapshot_cons]
    have hk : mapGet l.nameToUUID k = none := hnew k (by simp [mapKeys])
    have hWF1 := WF_of_newList l
      { l with nameToUUID := mapSet l.nameToUUID k l.nextUUID,
               lists := mapSet l.lists l.nextUUID v,
               nextUUID := l.nextUUID + 1 } h k v hk rfl
      (by rw [mapSet_mapSet_same]) rfl
    have hc1 := contents_of_newList l
      { l with nameToUUID := mapSet l.nameToUUID k l.nextUUID,
               lists := mapSet l.lists l.nextUUID v,
               nextUUID := l.nextUUID + 1 } h k v rfl
      (by rw [mapSet_mapSet_same])
    have hnew1 : ∀ k' ∈ mapKeys m, mapGet (mapSet l.nameToUUID k l.nextUUID) k' = none := by
      intro k' hk'
      have hne : k ≠ k' := by
        rintro rfl
        exact hnd.1 hk'
      rw [mapGet_mapSet, if_neg hne]
      exact hnew k' (by simp only [mapKeys, List.map_cons]; exact List.mem_cons_of_mem _ hk')
    obtain ⟨hWF2, hc2⟩ := ih _ hWF1 hnd.2 hnew1
    refine ⟨hWF2, ?_⟩
    intro n
    rw [hc2 n, hc1 n]
    by_cases hn : n = k
    · subst hn
      have : mapGet m n = none := (mapGet_eq_none_iff _ _).2 hnd.1
      simp [this, mapGet]
    · have hn' : ¬ k = n := fun e => hn e.symm
      simp [mapGet, hn, hn']

theorem seedFromSnapshot_walFile (m : GoMap String (List Int)) (l : RemoteList) :
    (seedFromSnapshot m l).walFile = l.walFile := by
  induction m generalizing l with
  | nil => rfl
  | cons p m ih => rw [seedFromSnapshot_cons, ih]

/-- Reloading a snapshot of a store into the empty store gives back what
clients read of that store. -/
theorem reload_capture (now : Int) (l : RemoteList) (h : WF l) (lsn : Nat) :
    WF (seedFromSnapshot (captureSnapshot now l).Lists { emptyStore with currentLSN := lsn }) ∧
    ∀ n, contents
      (seedFromSnapshot (captureSnapshot now l).Lists { emptyStore with currentLSN := lsn }) n =
      contents l n := by
  have hbase : WF { emptyStore with currentLSN := lsn } :=
    WF_congr emptyStore _ WF_emptyStore rfl rfl rfl
  obtain ⟨hWF, hc⟩ := seedFromSnapshot_spec (captureSnapshot now l).Lists _ hbase
    (captureSnapshot_keys_nodup now l) (fun k _ => rfl)
  refine ⟨hWF, ?_⟩
  intro n
  rw [hc n, captureSnapshot_lists now l h n]
  cases contents l n with
  | none => rfl
  | some xs => rfl

/-! ## The durable state determines the live store -/

theorem Recover_eq_recovered (d : DataDir) (newest : Option SnapshotData)
    (wal : List WalItem)
    (hsnap : newestSnapshotFile d = newest.map SnapshotFile.valid)
    (hwal : d.wal = WalFile.present wal) :
    Recover d emptyStore = (recovered newest wal, none) := by
  unfold Recover newestSnapshotFile at *
  cases hf : findLatestSnapshot d with
  | none =>
    rw [hf] at hsnap
    cases newest with
    | some snapshot => simp at hsnap
    | none => simp [recoverWAL, hwal, recovered, snapshotLSNOf, seeded]
  | some f =>
    rw [hf] at hsnap
    cases newest with
    | none => simp at hsnap
    | some snapshot =>
      simp only [Option.map_some', Option.some.injEq] at hsnap
      cases hg : mapGet d.files f with
      | none => simp [hg] at hsnap
      | some file =>
        simp only [hg, Option.getD_some] at hsnap
        subst hsnap
        simp [hg, recoverWAL, hwal, recovered, snapshotLSNOf, seeded]

theorem recovered_append_entry (newest : Option SnapshotData) (wal : List WalItem)
    (e : LogEntry) (hnc : WalItem.corrupt ∉ wal) (hlsn : snapshotLSNOf newest < e.LSN) :
    recovered newest (wal ++ [WalItem.entry e]) = applyEntry e (recovered newest wal) := by
  unfold recovered
  rw [replayWAL_append_entry _ _ _ _ hnc, if_neg (by omega)]

theorem recovered_WF (newest : Option SnapshotData) (wal : List WalItem)
    (h : WF (seeded newest)) : WF (recovered newest wal) :=
  replayWAL_WF _ _ _ h

theorem recovered_skip (newest : Option SnapshotData) (wal : List WalItem)
    (h : ∀ e, WalItem.entry e ∈ wal → e.LSN ≤ snapshotLSNOf newest) :
    recovered newest wal = seeded newest :=
  replayWAL_skip _ _ _ h

/-- A whole `createSnapshot` is its three stages in a row. -/
theorem step_snapshot_eq_stages (sys : System) (now : Int)
    (h : sys.phase = SnapshotPhase.idle) :
    step sys (Event.snapshot now) =
      step (step (step sys (Event.snapshotCopy now)) Event.snapshotPublish)
        Event.snapshotTruncate := by
  simp only [step, h]

theorem SysInv_fresh : SysInv freshSystem := by
  refine ⟨WF_emptyStore, by simp [freshSystem, emptyStore], ?_, Nat.le_refl _, WF_emptyStore,
    fun n => rfl, ?_⟩
  · intro e he
    simp [freshSystem, emptyStore] at he
  · intro snapshot hs
    simp [freshSystem] at hs

/-- A successful call keeps the invariant, as long as the LSN counter does not
wrap. -/
theorem SysInv_call (sys : System) (c : Call) (h : SysInv sys)
    (hok : c.outcome = WalOutcome.ok) (hb : sys.store.currentLSN + 1 < uint64Mod) :
    SysInv (step sys (Event.call c)) ∧
    (step sys (Event.call c)).store.currentLSN ≤ sys.store.currentLSN + 1 := by
  obtain ⟨h1, h2, h3, h4, h5, h6, h7⟩ := h
  rcases Call_run_ok c sys.store hok with ⟨_, hsame⟩ | ⟨_, e, he, hrun⟩
  · have hst : step sys (Event.call c) = sys := by
      simp only [step, hsame]
    rw [hst]
    exact ⟨⟨h1, h2, h3, h4, h5, h6, h7⟩, Nat.le_succ _⟩
  · have hmod : (sys.store.currentLSN + 1) % uint64Mod = sys.store.currentLSN + 1 :=
      Nat.mod_eq_of_lt hb
    rw [hmod] at he
    have hstore : (step sys (Event.call c)).store =
        { applyEntry e sys.store with
            walFile := sys.store.walFile ++ [WalItem.entry e] } := by
      simp only [step, hrun]
    have hnew : (step sys (Event.call c)).newest = sys.newest := rfl
    have hph : (step sys (Event.call c)).phase = sys.phase := rfl
    have hcur : (step sys (Event.call c)).store.currentLSN = sys.store.currentLSN + 1 := by
      rw [hstore]
      exact he
    have hwal : (step sys (Event.call c)).store.walFile =
        sys.store.walFile ++ [WalItem.entry e] := by
      rw [hstore]
    have hcont : ∀ n, contents (step sys (Event.call c)).store n =
        applyView e (contents sys.store) n := by
      intro n
      rw [← applyEntry_contents e sys.store h1 n]
      exact contents_congr _ _ (by rw [hstore]) (by rw [hstore]) n
    refine ⟨⟨?_, ?_, ?_, ?_, ?_, ?_, ?_⟩, Nat.le_of_eq hcur⟩
    · exact WF_congr _ _ (applyEntry_WF e sys.store h1) (by rw [hstore]) (by rw [hstore])
        (by rw [hstore])
    · rw [hwal]
      simp [h2]
    · intro x hx
      rw [hwal, List.mem_append] at hx
      rw [hcur]
      rcases hx with hx | hx
      · exact Nat.le_succ_of_le (h3 x hx)
      · simp only [List.mem_singleton, WalItem.entry.injEq] at hx
        rw [hx, he]
    · rw [hnew, hcur]
      exact Nat.le_succ_of_le h4
    · rw [hnew]
      exact h5
    · intro n
      rw [hnew, hwal, recovered_append_entry _ _ _ h2 (by omega),
        applyEntry_contents e _ (recovered_WF _ _ h5) n, hcont n]
      exact applyView_congr e _ _ h6 n
    · intro snapshot hs
      rw [hph] at hs
      obtain ⟨g1, g2, g3⟩ := h7 snapshot hs
      refine ⟨by rw [hcur]; exact Nat.le_succ_of_le g1, g2, ?_⟩
      intro n
      have hlt : snapshotLSNOf (some snapshot) < e.LSN := by
        simp only [snapshotLSNOf]
        omega
      rw [hwal, recovered_append_entry _ _ _ h2 hlt,
        applyEntry_contents e _ (recovered_WF _ _ g2) n, hcont n]
      exact applyView_congr e _ _ g3 n

/-- Copying, publishing, and a whole `createSnapshot` keep the invariant. -/
theorem SysInv_snapshot (sys : System) (ev : Event) (h : SysInv sys)
    (hev : ev = Event.snapshotPublish ∨ (∃ now, ev = Event.snapshotCopy now) ∨
      ∃ now, ev = Event.snapshot now) :
    SysInv (step sys ev) ∧ (step sys ev).store.currentLSN = sys.store.currentLSN := by
  obtain ⟨h1, h2, h3, h4, h5, h6, h7⟩ := h
  rcases hev with rfl | ⟨now, rfl⟩ | ⟨now, rfl⟩
  · cases hp : sys.phase with
    | idle =>
      have : step sys Event.snapshotPublish = sys := by simp only [step, hp]
      rw [this]
      exact ⟨⟨h1, h2, h3, h4, h5, h6, h7⟩, rfl⟩
    | published =>
      have : step sys Event.snapshotPublish = sys := by simp only [step, hp]
      rw [this]
      exact ⟨⟨h1, h2, h3, h4, h5, h6, h7⟩, rfl⟩
    | copied snapshot =>
      obtain ⟨g1, g2, g3⟩ := h7 snapshot hp
      have hst : step sys Event.snapshotPublish =
          { sys with newest := some snapshot, phase := SnapshotPhase.published } := by
        simp only [step, hp]
      rw [hst]
      refine ⟨⟨h1, h2, h3, g1, g2, g3, ?_⟩, rfl⟩
      intro s hs
      simp at hs
  · cases hp : sys.phase with
    | published =>
      have : step sys (Event.snapshotCopy now) = sys := by simp only [step, hp]
      rw [this]
      exact ⟨⟨h1, h2, h3, h4, h5, h6, h7⟩, rfl⟩
    | copied snapshot =>
      have : step sys (Event.snapshotCopy now) = sys := by simp only [step, hp]
      rw [this]
      exact ⟨⟨h1, h2, h3, h4, h5, h6, h7⟩, rfl⟩
    | idle =>
      have hst : step sys (Event.snapshotCopy now) =
          { sys with phase := SnapshotPhase.copied (captureSnapshot now sys.store) } := by
        simp only [step, hp]
      rw [hst]
      refine ⟨⟨h1, h2, h3, h4, h5, h6, ?_⟩, rfl⟩
      intro s hs
      simp only [SnapshotPhase.copied.injEq] at hs
      subst hs
      obtain ⟨r1, r2⟩ := reload_capture now sys.store h1 sys.store.currentLSN
      refine ⟨Nat.le_refl _, r1, ?_⟩
      intro n
      rw [recovered_skip (some (captureSnapshot now sys.store)) _ (fun e he => h3 e he)]
      exact r2 n
  · cases hp : sys.phase with
    | published =>
      have : step sys (Event.snapshot now) = sys := by simp only [step, hp]
      rw [this]
      exact ⟨⟨h1, h2, h3, h4, h5, h6, h7⟩, rfl⟩
    | copied snapshot =>
      have : step sys (Event.snapshot now) = sys := by simp only [step, hp]
      rw [this]
      exact ⟨⟨h1, h2, h3, h4, h5, h6, h7⟩, rfl⟩
    | idle =>
      have hst : step sys (Event.snapshot now) =
          { store := truncateWAL sys.store, newest := some (captureSnapshot now sys.store),
            phase := SnapshotPhase.idle } := by
        simp only [step, hp]
      rw [hst]
      obtain ⟨r1, r2⟩ := reload_capture now sys.store h1 sys.store.currentLSN
      refine ⟨⟨WF_congr _ _ h1 rfl rfl rfl, by simp [truncateWAL], ?_, Nat.le_refl _, r1, ?_, ?_⟩,
        rfl⟩
      · intro e he
        simp [truncateWAL] at he
      · intro n
        rw [contents_congr sys.store (truncateWAL sys.store) rfl rfl n]
        exact r2 n
      · intro s hs
        simp at hs

theorem SysInv_step (sys : System) (ev : Event) (h : SysInv sys) (hev : ev.safe)
    (hb : sys.store.currentLSN + callCount [ev] < uint64Mod) :
    SysInv (step sys ev) ∧
    (step sys ev).store.currentLSN ≤ sys.store.currentLSN + callCount [ev] := by
  cases ev with
  | call c => exact SysInv_call sys c h hev hb
  | snapshotCopy now =>
    obtain ⟨a, b⟩ := SysInv_snapshot sys _ h (Or.inr (Or.inl ⟨now, rfl⟩))
    exact ⟨a, by rw [b]; exact Nat.le_add_right _ _⟩
  | snapshotPublish =>
    obtain ⟨a, b⟩ := SysInv_snapshot sys _ h (Or.inl rfl)
    exact ⟨a, by rw [b]; exact Nat.le_add_right _ _⟩
  | snapshotTruncate => exact absurd hev (by simp [Event.safe])
  | snapshot now =>
    obtain ⟨a, b⟩ := SysInv_snapshot sys _ h (Or.inr (Or.inr ⟨now, rfl⟩))
    exact ⟨a, by rw [b]; exact Nat.le_add_right _ _⟩

theorem callCount_cons (ev : Event) (evs : List Event) :
    callCount (ev :: evs) = callCount [ev] + callCount evs := by
  cases ev <;> simp [callCount]
  omega

/-- Along every run of safe steps with fewer than `2 ^ 64` calls the durable
state determines the live store. -/
theorem SysInv_run (evs : List Event) (sys : System) (h : SysInv sys)
    (hev : ∀ ev ∈ evs, ev.safe)
    (hb : sys.store.currentLSN + callCount evs < uint64Mod) :
    SysInv (runEvents evs sys) := by
  induction evs generalizing sys with
  | nil => exact h
  | cons ev evs ih =>
    rw [callCount_cons] at hb
    obtain ⟨a, b⟩ := SysInv_step sys ev h (hev ev (List.mem_cons_self _ _)) (by omega)
    exact ih (step sys ev) a (fun x hx => hev x (List.mem_cons_of_mem _ hx)) (by omega)

/-! ## Reading through `contents` -/

theorem Size_eq_contents (name : String) (l : RemoteList) :
    Size { ListName := name } l = ((((contents l name).getD []).length : Int), none) := by
  unfold Size contents
  cases mapGet l.nameToUUID name with
  | none => rfl
  | some u => rfl

theorem Get_of_contents (name : String) (i : Nat) (l : RemoteList) (xs : List Int)
    (h : contents l name = some xs) (hi : i < xs.length) :
    Get { ListName := name, Index := (i : Int) } l = (xs.getD i 0, none) := by
  obtain ⟨u, hu, hxs⟩ := (contents_eq_some_iff l name xs).1 h
  have hcond : ¬ ((i : Int) < 0 ∨ (i : Int) ≥ (xs.length : Int)) := by omega
  simp only [Get, hu, hxs, hcond, if_false, Int.toNat_ofNat]

theorem Call_run_WF (c : Call) (l : RemoteList) (h : WF l) : WF (c.run l).1 := by
  cases c with
  | append io args =>
    obtain ⟨now, outcome⟩ := io
    cases outcome with
    | ok =>
      simp only [Call.run]
      rw [Append_ok_eq _ args false l rfl]
      exact WF_congr _ _ (applyEntry_WF _ l h) rfl rfl rfl
    | marshalFail => exact WF_congr l _ h rfl rfl rfl
    | syncFail => exact WF_congr l _ h rfl rfl rfl
    | writeFail torn => cases torn <;> exact WF_congr l _ h rfl rfl rfl
  | remove io args =>
    simp only [Call.run]
    cases hreg : mapGet l.nameToUUID args.ListName with
    | none => simpa [Remove, hreg] using h
    | some u =>
      by_cases hne : listOf l u = []
      · simpa [Remove, hreg, hne] using h
      · have hlen : (listOf l u).length ≠ 0 := fun e => hne (List.length_eq_zero.1 e)
        obtain ⟨now, outcome⟩ := io
        cases outcome with
        | ok =>
          rw [Remove_ok_eq_apply _ args l u rfl hreg hne]
          exact WF_congr _ _ (applyEntry_WF _ l h) rfl rfl rfl
        | marshalFail =>
          simp only [Remove, hreg, hlen, if_false, writeWAL]
          exact WF_congr l _ h rfl rfl rfl
        | syncFail =>
          simp only [Remove, hreg, hlen, if_false, writeWAL]
          exact WF_congr l _ h rfl rfl rfl
        | writeFail torn =>
          cases torn <;>
          · simp only [Remove, hreg, hlen, if_false, writeWAL]
            exact WF_congr l _ h rfl rfl rfl

theorem Append_ok_contents (io : WalIO) (args : AppendArgs) (reply : Bool) (l : RemoteList)
    (h : WF l) (hio : io.outcome = WalOutcome.ok) (n : String) :
    contents (Append io args reply l).1 n =
      if n = args.ListName then some ((contents l n).getD [] ++ [args.Value])
      else contents l n := by
  rw [Append_ok_eq io args reply l hio]
  have := applyEntry_contents
    { LSN := (l.currentLSN + 1) % uint64Mod, Timestamp := io.now, Operation := "APPEND",
      ListName := args.ListName, Value := args.Value } l h n
  simp only [applyView, if_true] at this
  rw [← this]
  exact contents_congr _ _ rfl rfl n

theorem runCalls_cons (c : Call) (cs : List Call) (l : RemoteList) :
    runCalls (c :: cs) l = runCalls cs (c.run l).1 := rfl

theorem runCalls_append (cs cs' : List Call) (l : RemoteList) :
    runCalls (cs ++ cs') l = runCalls cs' (runCalls cs l) := by
  simp [runCalls, List.foldl_append]

theorem runCalls_WF (cs : List Call) (l : RemoteList) (h : WF l) : WF (runCalls cs l) := by
  induction cs generalizing l with
  | nil => exact h
  | cons c cs ih => exact ih _ (Call_run_WF c l h)

/-- Appending values to one name in order puts them, in order, at the tail of
its list. -/
theorem appendCalls_contents (name : String) (tvs : List (Int × Int)) (l : RemoteList)
    (h : WF l) :
    contents (runCalls (appendCalls name tvs) l) name =
      if tvs = [] then contents l name
      else some ((contents l name).getD [] ++ tvs.map Prod.snd) := by
  induction tvs generalizing l with
  | nil => rfl
  | cons p tvs ih =>
    have hWF := Call_run_WF (Call.append { now := p.1, outcome := WalOutcome.ok }
      { ListName := name, Value := p.2 }) l h
    have hc := Append_ok_contents { now := p.1, outcome := WalOutcome.ok }
      { ListName := name, Value := p.2 } false l h rfl name
    simp only [if_true] at hc
    simp only [appendCalls, List.map_cons, runCalls_cons] at *
    rw [ih _ hWF]
    simp only [Call.run, hc]
    by_cases ht : tvs = []
    · subst ht
      simp
    · simp [ht]

theorem runEvents_cons (ev : Event) (evs : List Event) (sys : System) :
    runEvents (ev :: evs) sys = runEvents evs (step sys ev) := rfl

theorem runEvents_append (evs evs' : List Event) (sys : System) :
    runEvents (evs ++ evs') sys = runEvents evs' (runEvents evs sys) := by
  simp [runEvents, List.foldl_append]

theorem runEvents_calls (cs : List Call) (sys : System) :
    runEvents (cs.map Event.call) sys = { sys with store := runCalls cs sys.store } := by
  induction cs generalizing sys with
  | nil => rfl
  | cons c cs ih =>
    simp only [List.map_cons, runEvents_cons, runCalls_cons]
    rw [ih]
    rfl

theorem replayWAL_dropSubsumed (s : Nat) (items : List WalItem) (l : RemoteList) :
    replayWAL s (dropSubsumed s items) l = replayWAL s items l := by
  induction items generalizing l with
  | nil => rfl
  | cons a items ih =>
    cases a with
    | corrupt => simp [dropSubsumed, replayWAL]
    | entry x =>
      by_cases hx : x.LSN ≤ s
      · have hx' : ¬ s < x.LSN := by omega
        have hd : dropSubsumed s (WalItem.entry x :: items) = dropSubsumed s items := by
          simp [dropSubsumed, hx']
        rw [hd, ih]
        simp only [replayWAL, hx, if_true]
      · have hx' : s < x.LSN := by omega
        have hd : dropSubsumed s (WalItem.entry x :: items) =
            WalItem.entry x :: dropSubsumed s items := by
          simp [dropSubsumed, hx']
        rw [hd]
        simp only [replayWAL, hx, if_false]
        exact ih _

/-! ## The operations, one call at a time -/

/-- C4: an `Append` whose log write fails (marshal, write or sync error)
returns the WAL error and mutates nothing: the name registry and the list
table are those before the call, so every name reads as before (an
unregistered name stays unregistered), and the reply is not written. -/
theorem append_log_failure_no_mutation (io : WalIO) (args : AppendArgs) (reply : Bool)
    (l : RemoteList) (hfail : io.outcome ≠ WalOutcome.ok) :
    (Append io args reply l).2.2 = some RpcError.walWrite ∧
    (Append io args reply l).1.nameToUUID = l.nameToUUID ∧
    (Append io args reply l).1.lists = l.lists ∧
    (∀ name, contents (Append io args reply l).1 name = contents l name) ∧
    (Append io args reply l).2.1 = reply := by
  obtain ⟨now, outcome⟩ := io
  cases outcome with
  | ok => exact absurd rfl hfail
  | marshalFail =>
    exact ⟨by simp [Append, writeWAL], by simp [Append, writeWAL], by simp [Append, writeWAL],
      fun name => contents_congr _ _ (by simp [Append, writeWAL]) (by simp [Append, writeWAL]) name,
      by simp [Append, writeWAL]⟩
  | syncFail =>
    exact ⟨by simp [Append, writeWAL], by simp [Append, writeWAL], by simp [Append, writeWAL],
      fun name => contents_congr _ _ (by simp [Append, writeWAL]) (by simp [Append, writeWAL]) name,
      by simp [Append, writeWAL]⟩
  | writeFail torn =>
    cases torn <;>
    exact ⟨by simp [Append, writeWAL], by simp [Append, writeWAL], by simp [Append, writeWAL],
      fun name => contents_congr _ _ (by simp [Append, writeWAL]) (by simp [Append, writeWAL]) name,
      by simp [Append, writeWAL]⟩

/-- Witness of C4: a torn write on a store that already holds a list. -/
theorem append_log_failure_no_mutation_witness :
    (Append ⟨7, .writeFail true⟩ ⟨"y", 3⟩ false
        (Append ⟨6, .ok⟩ ⟨"x", 1⟩ false emptyStore).1).2.2 = some RpcError.walWrite ∧
    (Append ⟨7, .writeFail true⟩ ⟨"y", 3⟩ false
        (Append ⟨6, .ok⟩ ⟨"x", 1⟩ false emptyStore).1).1.nameToUUID = [("x", 0)] :=
  ⟨(append_log_failure_no_mutation ⟨7, .writeFail true⟩ ⟨"y", 3⟩ false
      (Append ⟨6, .ok⟩ ⟨"x", 1⟩ false emptyStore).1 (by decide)).1,
    by decide⟩

/-- C6: `Remove` fails with "list not found" exactly when the name is not
registered and with "empty list" exactly when it is registered and its list is
empty; in both cases the reply is 0 and the whole store (registry, lists,
current LSN, log) is untouched.  A list emptied by a successful `Remove` of its
only element answers the next `Remove` with "empty list". -/
theorem remove_error_kinds (io : WalIO) (args : RemoveArgs) (l : RemoteList) :
    ((Remove io args l).2.2 = some RpcError.listNotFound ↔
      contents l args.ListName = none) ∧
    ((Remove io args l).2.2 = some RpcError.emptyList ↔
      contents l args.ListName = some []) ∧
    ((Remove io args l).2.2 = some RpcError.listNotFound ∨
      (Remove io args l).2.2 = some RpcError.emptyList →
      (Remove io args l).2.1 = 0 ∧ (Remove io args l).1 = l) ∧
    (∀ (v : Int) (io2 : WalIO), contents l args.ListName = some [v] →
      io.outcome = WalOutcome.ok →
      (Remove io2 args (Remove io args l).1).2.2 = some RpcError.emptyList) := by
  unfold contents
  cases hreg : mapGet l.nameToUUID args.ListName with
  | none => simp [Remove, hreg]
  | some u =>
    cases hxs : listOf l u with
    | nil => simp [Remove, hreg, hxs]
    | cons x xs =>
      obtain ⟨now, outcome⟩ := io
      refine ⟨?_, ?_, ?_, ?_⟩
      · cases outcome <;> simp [Remove, hreg, hxs, writeWAL]
      · cases outcome <;> simp [Remove, hreg, hxs, writeWAL]
      · cases outcome <;> simp [Remove, hreg, hxs, writeWAL]
      · intro v io2 hv hok
        rw [Remove_ok_eq _ args l u (x :: xs) hok hreg hxs (by simp)]
        rw [Option.map_some', hxs] at hv
        simp only [Option.some.injEq, List.cons.injEq] at hv
        obtain ⟨rfl, rfl⟩ := hv
        simp only [Remove, hreg]
        rw [listOf_mapSet_self _ l.lists u [] rfl]
        simp

/-- C7: on a registered name whose list `xs` is not empty, a `Remove` whose
log write succeeds returns no error and the last element of `xs`, leaves the
list equal to `xs` without its last element, and appends to the log exactly
one record: a REMOVE for that name whose value is the returned element. -/
theorem remove_success (io : WalIO) (args : RemoveArgs) (l : RemoteList) (xs : List Int)
    (hio : io.outcome = WalOutcome.ok) (hreg : contents l args.ListName = some xs)
    (hne : xs ≠ []) :
    (Remove io args l).2.2 = none ∧
    some (Remove io args l).2.1 = xs.getLast? ∧
    contents (Remove io args l).1 args.ListName = some xs.dropLast ∧
    (Remove io args l).1.walFile = l.walFile ++
      [WalItem.entry { LSN := (l.currentLSN + 1) % uint64Mod, Timestamp := io.now,
                       Operation := "REMOVE", ListName := args.ListName,
                       Value := (Remove io args l).2.1 }] := by
  obtain ⟨u, hu, hxs⟩ := (contents_eq_some_iff l args.ListName xs).1 hreg
  rw [Remove_ok_eq io args l u xs hio hu hxs hne]
  refine ⟨rfl, getD_pred_eq_getLast xs hne, ?_, rfl⟩
  rw [contents_eq_some_iff]
  exact ⟨u, hu, by rw [List.dropLast_eq_take]; exact listOf_mapSet_self _ l.lists u _ rfl⟩

/-- Witness of C7: removing from the list 10, 20, 30. -/
theorem remove_success_witness :
    (Remove ⟨9, .ok⟩ ⟨"x"⟩
        { emptyStore with nameToUUID := [("x", 0)], lists := [(0, [10, 20, 30])],
                          nextUUID := 1 }).2.2 = none ∧
    some (Remove ⟨9, .ok⟩ ⟨"x"⟩
        { emptyStore with nameToUUID := [("x", 0)], lists := [(0, [10, 20, 30])],
                          nextUUID := 1 }).2.1 = some 30 :=
  ⟨(remove_success ⟨9, .ok⟩ ⟨"x"⟩
      { emptyStore with nameToUUID := [("x", 0)], lists := [(0, [10, 20, 30])],
                        nextUUID := 1 } [10, 20, 30] rfl (by decide) (by decide)).1,
   (remove_success ⟨9, .ok⟩ ⟨"x"⟩
      { emptyStore with nameToUUID := [("x", 0)], lists := [(0, [10, 20, 30])],
                        nextUUID := 1 } [10, 20, 30] rfl (by decide) (by decide)).2.1⟩

/-- C8: `Get` returns "list not found" exactly when the name is not
registered, "index out of bounds" exactly when the name is registered and the
index is negative or not below the length of the list, and otherwise no error
and the element at that index; whenever it returns an error the reply is 0. -/
theorem get_results (args : GetArgs) (l : RemoteList) :
    ((Get args l).2 = some RpcError.listNotFound ↔ contents l args.ListName = none) ∧
    ((Get args l).2 = some RpcError.indexOutOfBounds ↔
      ∃ xs, contents l args.ListName = some xs ∧
        (args.Index < 0 ∨ args.Index ≥ (xs.length : Int))) ∧
    (∀ xs, contents l args.ListName = some xs → 0 ≤ args.Index →
      args.Index < (xs.length : Int) →
      (Get args l).2 = none ∧ xs[args.Index.toNat]? = some (Get args l).1) ∧
    ((Get args l).2 ≠ none → (Get args l).1 = 0) := by
  unfold contents
  cases hreg : mapGet l.nameToUUID args.ListName with
  | none => simp [Get, hreg]
  | some u =>
    by_cases hidx : args.Index < 0 ∨ args.Index ≥ ((listOf l u).length : Int)
    · refine ⟨by simp [Get, hreg, hidx], by simp [Get, hreg, hidx], ?_, by simp [Get, hreg, hidx]⟩
      intro xs hxs h0 hlt
      simp only [Option.map_some', Option.some.injEq] at hxs
      subst hxs
      omega
    · refine ⟨by simp [Get, hreg, hidx], by simp [Get, hreg, hidx], ?_, by simp [Get, hreg, hidx]⟩
      intro xs hxs h0 hlt
      simp only [Option.map_some', Option.some.injEq] at hxs
      subst hxs
      have hlt' : args.Index.toNat < (listOf l u).length := by omega
      simp [Get, hreg, hidx, List.getD_eq_getElem?_getD, List.getElem?_eq_getElem hlt']

/-- C10: `Size` never returns an error; it answers 0 for a name that is not
registered and the length of the list for a registered name.  (`Size` only
reads the store, so it registers nothing.) -/
theorem size_results (args : SizeArgs) (l : RemoteList) :
    (Size args l).2 = none ∧
    (contents l args.ListName = none → (Size args l).1 = 0) ∧
    (∀ xs, contents l args.ListName = some xs → (Size args l).1 = (xs.length : Int)) := by
  unfold contents
  cases hreg : mapGet l.nameToUUID args.ListName with
  | none => simp [Size, hreg]
  | some u =>
    refine ⟨by simp [Size, hreg], by simp, ?_⟩
    intro xs hxs
    simp only [Option.map_some', Option.some.injEq] at hxs
    subst hxs
    simp [Size, hreg]

/-- C9: on a well-formed store an `Append` whose log write succeeds answers
`true` with no error, leaves the named list equal to its previous elements
followed by the value (the one-element list when the name was not registered)
and leaves every other name as it was; so appending values in order to an
unregistered name gives a list whose `Size` is their number and whose `Get` at
every position is the value appended at that position. -/
theorem append_grows_tail (io : WalIO) (args : AppendArgs) (reply : Bool) (l : RemoteList)
    (hWF : WF l) (hio : io.outcome = WalOutcome.ok) :
    (Append io args reply l).2 = (true, none) ∧
    contents (Append io args reply l).1 args.ListName =
      some ((contents l args.ListName).getD [] ++ [args.Value]) ∧
    (∀ other, other ≠ args.ListName →
      contents (Append io args reply l).1 other = contents l other) ∧
    WF (Append io args reply l).1 ∧
    (∀ tvs : List (Int × Int), contents l args.ListName = none →
      Size { ListName := args.ListName } (runCalls (appendCalls args.ListName tvs) l) =
        ((tvs.length : Int), none) ∧
      ∀ i, i < tvs.length →
        Get { ListName := args.ListName, Index := (i : Int) }
            (runCalls (appendCalls args.ListName tvs) l) =
          ((tvs.map Prod.snd).getD i 0, none)) := by
  refine ⟨?_, ?_, ?_, ?_, ?_⟩
  · rw [Append_ok_eq io args reply l hio]
  · rw [Append_ok_contents io args reply l hWF hio, if_pos rfl]
  · intro other hne
    rw [Append_ok_contents io args reply l hWF hio, if_neg hne]
  · have := Call_run_WF (Call.append io args) l hWF
    simp only [Call.run] at this
    rw [Append_ok_eq io args false l hio] at this
    rw [Append_ok_eq io args reply l hio]
    exact this
  · intro tvs hnone
    have hc := appendCalls_contents args.ListName tvs l hWF
    rw [hnone] at hc
    refine ⟨?_, ?_⟩
    · rw [Size_eq_contents, hc]
      by_cases ht : tvs = []
      · subst ht
        simp
      · simp [ht]
    · intro i hi
      have ht : tvs ≠ [] := by
        rintro rfl
        simp at hi
      rw [if_neg ht] at hc
      simp only [Option.getD_none, List.nil_append] at hc
      exact Get_of_contents _ i _ _ hc (by simpa using hi)

/-- Witness of C9: the values 10, 20, 30 appended to a new name of the empty
store. -/
theorem append_grows_tail_witness :
    Size { ListName := "x" }
        (runCalls (appendCalls "x" [(1, 10), (2, 20), (3, 30)]) emptyStore) = (3, none) ∧
    Get { ListName := "x", Index := 1 }
        (runCalls (appendCalls "x" [(1, 10), (2, 20), (3, 30)]) emptyStore) = (20, none) :=
  ⟨((append_grows_tail ⟨0, .ok⟩ ⟨"x", 0⟩ false emptyStore WF_emptyStore rfl).2.2.2.2
      [(1, 10), (2, 20), (3, 30)] rfl).1,
   ((append_grows_tail ⟨0, .ok⟩ ⟨"x", 0⟩ false emptyStore WF_emptyStore rfl).2.2.2.2
      [(1, 10), (2, 20), (3, 30)] rfl).2 1 (by decide)⟩

/-! ## Recovery -/

/-- C1: run any sequence of `Append`/`Remove` calls whose log writes succeed
and of whole snapshots (copy, publish and truncation with no call in between)
on a freshly started empty store, with fewer than `2 ^ 64` calls; then
`Recover`, run on the empty store over a directory whose newest snapshot file
is the last snapshot taken (none if none was taken) and whose log is the live
log, returns no error and a store in which every name reads exactly as in the
live store, and so has the same `Size`. -/
theorem recovery_fidelity (evs : List Event) (d : DataDir)
    (hevs : ∀ ev ∈ evs, ev.atomicOk)
    (hlen : callCount evs < uint64Mod)
    (hsnap : newestSnapshotFile d =
      (runEvents evs freshSystem).newest.map SnapshotFile.valid)
    (hwal : d.wal = WalFile.present (runEvents evs freshSystem).store.walFile) :
    (Recover d emptyStore).2 = none ∧
    ∀ name,
      contents (Recover d emptyStore).1 name =
        contents (runEvents evs freshSystem).store name ∧
      Size { ListName := name } (Recover d emptyStore).1 =
        Size { ListName := name } (runEvents evs freshSystem).store := by
  have hsafe : ∀ ev ∈ evs, ev.safe := by
    intro ev hev
    have := hevs ev hev
    cases ev <;> simp_all [Event.atomicOk, Event.safe]
  have hinv := SysInv_run evs freshSystem SysInv_fresh hsafe
    (by simpa [freshSystem, emptyStore] using hlen)
  rw [Recover_eq_recovered d _ _ hsnap hwal]
  refine ⟨rfl, ?_⟩
  intro name
  have hc := hinv.2.2.2.2.2.1 name
  refine ⟨hc, ?_⟩
  rw [Size_eq_contents, Size_eq_contents]
  simp only at hc
  rw [hc]

/-- Witness of C1: two appends, a snapshot, a third append, then a restart on
the snapshot and the log. -/
theorem recovery_fidelity_witness :
    (Recover ⟨[("snapshot_100.json", .valid ⟨2, 100, [("x", [10, 20])]⟩)],
        .present [.entry ⟨3, 3, "APPEND", "x", 30⟩]⟩ emptyStore).2 = none ∧
    Size { ListName := "x" }
      (Recover ⟨[("snapshot_100.json", .valid ⟨2, 100, [("x", [10, 20])]⟩)],
        .present [.entry ⟨3, 3, "APPEND", "x", 30⟩]⟩ emptyStore).1 = (3, none) :=
  ⟨(recovery_fidelity
      [.call (.append ⟨1, .ok⟩ ⟨"x", 10⟩), .call (.append ⟨2, .ok⟩ ⟨"x", 20⟩),
       .snapshot 100, .call (.append ⟨3, .ok⟩ ⟨"x", 30⟩)]
      ⟨[("snapshot_100.json", .valid ⟨2, 100, [("x", [10, 20])]⟩)],
        .present [.entry ⟨3, 3, "APPEND", "x", 30⟩]⟩
      (by intro ev hev; simp at hev; rcases hev with rfl | rfl | rfl | rfl <;> trivial)
      (by decide) (by decide) (by decide)).1,
   ((recovery_fidelity
      [.call (.append ⟨1, .ok⟩ ⟨"x", 10⟩), .call (.append ⟨2, .ok⟩ ⟨"x", 20⟩),
       .snapshot 100, .call (.append ⟨3, .ok⟩ ⟨"x", 30⟩)]
      ⟨[("snapshot_100.json", .valid ⟨2, 100, [("x", [10, 20])]⟩)],
        .present [.entry ⟨3, 3, "APPEND", "x", 30⟩]⟩
      (by intro ev hev; simp at hev; rcases hev with rfl | rfl | rfl | rfl <;> trivial)
      (by decide) (by decide) (by decide)).2 "x").2.trans (by decide)⟩

theorem Recover_valid (d : DataDir) (l : RemoteList) (snapshot : SnapshotData)
    (items : List WalItem)
    (hsnap : newestSnapshotFile d = some (SnapshotFile.valid snapshot))
    (hwal : d.wal = WalFile.present items) :
    Recover d l =
      (replayWAL snapshot.LSN items
        (seedFromSnapshot snapshot.Lists { l with currentLSN := snapshot.LSN }), none) := by
  unfold Recover newestSnapshotFile at *
  cases hf : findLatestSnapshot d with
  | none => simp [hf] at hsnap
  | some f =>
    rw [hf] at hsnap
    simp only [Option.some.injEq] at hsnap
    cases hg : mapGet d.files f with
    | none => simp [hg] at hsnap
    | some file =>
      simp only [hg, Option.getD_some] at hsnap
      subst hsnap
      simp [hg, recoverWAL, hwal]

theorem appendCalls_walFile_length (name : String) (tvs : List (Int × Int))
    (l : RemoteList) :
    (runCalls (appendCalls name tvs) l).walFile.length = l.walFile.length + tvs.length := by
  induction tvs generalizing l with
  | nil => rfl
  | cons p tvs ih =>
    simp only [appendCalls, List.map_cons, runCalls_cons] at *
    rw [ih]
    simp only [Call.run]
    rw [Append_ok_eq _ _ false l rfl]
    simp
    omega

theorem appendCalls_append (name : String) (tvs tvs' : List (Int × Int)) :
    appendCalls name (tvs ++ tvs') = appendCalls name tvs ++ appendCalls name tvs' := by
  simp [appendCalls]

theorem snapshotThenTwoAppends_store (name : String) (tvs : List (Int × Int)) (now : Int)
    (p q : Int × Int) :
    (runEvents (snapshotThenTwoAppends name tvs now p q) freshSystem).store =
      runCalls (appendCalls name (tvs ++ [p, q])) emptyStore := by
  unfold snapshotThenTwoAppends
  rw [runEvents_append, runEvents_calls, runEvents_append, appendCalls_append, runCalls_append]
  simp only [runEvents, List.foldl_cons, List.foldl_nil, step, freshSystem]
  have := runEvents_calls (appendCalls name [p, q])
    { store := runCalls (appendCalls name tvs) emptyStore, newest :=
        some (captureSnapshot now (runCalls (appendCalls name tvs) emptyStore)),
      phase := SnapshotPhase.published }
  simp only [runEvents] at this
  rw [this]

theorem callCount_calls (cs : List Call) : callCount (cs.map Event.call) = cs.length := by
  induction cs with
  | nil => rfl
  | cons c cs ih => simp [callCount, ih]

theorem callCount_append (evs evs' : List Event) :
    callCount (evs ++ evs') = callCount evs + callCount evs' := by
  induction evs with
  | nil => simp [callCount]
  | cons ev evs ih =>
    rw [List.cons_append, callCount_cons, callCount_cons ev evs, ih]
    omega

/-- C3: over a snapshot with LSN `s` and any log, `Recover` applies, in file
order, exactly the decodable records whose LSN is greater than `s`; deleting
from the log the records with LSN at most `s` changes nothing of what `Recover`
returns (lists, names, current LSN).  In scenario E (k appends, a snapshot
published but the log not truncated, two more appends; fewer than `2 ^ 64`
calls) the log holds all k + 2 records and recovery gives the k + 2 values. -/
theorem replay_applies_only_newer_records (d : DataDir) (l : RemoteList)
    (snapshot : SnapshotData) (items : List WalItem)
    (hsnap : newestSnapshotFile d = some (SnapshotFile.valid snapshot))
    (hwal : d.wal = WalFile.present items) :
    Recover d l =
      (((decodablePrefix items).filter (fun e => decide (snapshot.LSN < e.LSN))).foldl
          (fun acc e => applyEntry e acc)
          (seedFromSnapshot snapshot.Lists { l with currentLSN := snapshot.LSN }), none) ∧
    Recover { d with wal := WalFile.present (dropSubsumed snapshot.LSN items) } l =
      Recover d l ∧
    (∀ (name : String) (tvs : List (Int × Int)) (now : Int) (p q : Int × Int)
        (d' : DataDir),
      tvs.length + 2 < uint64Mod →
      newestSnapshotFile d' =
        (runEvents (snapshotThenTwoAppends name tvs now p q) freshSystem).newest.map
          SnapshotFile.valid →
      d'.wal = WalFile.present
        (runEvents (snapshotThenTwoAppends name tvs now p q) freshSystem).store.walFile →
      (runEvents (snapshotThenTwoAppends name tvs now p q) freshSystem).store.walFile.length =
        tvs.length + 2 ∧
      contents (Recover d' emptyStore).1 name = some (tvs.map Prod.snd ++ [p.2, q.2]) ∧
      Size { ListName := name } (Recover d' emptyStore).1 =
        (((tvs.length + 2 : Nat) : Int), none)) := by
  refine ⟨?_, ?_, ?_⟩
  · rw [Recover_valid d l snapshot items hsnap hwal, replayWAL_eq_foldl]
  · rw [Recover_valid d l snapshot items hsnap hwal,
      Recover_valid { d with wal := WalFile.present (dropSubsumed snapshot.LSN items) } l
        snapshot (dropSubsumed snapshot.LSN items) hsnap rfl,
      replayWAL_dropSubsumed]
  · intro name tvs now p q d' hlen hs hw
    have hstore := snapshotThenTwoAppends_store name tvs now p q
    have hsafe : ∀ ev ∈ snapshotThenTwoAppends name tvs now p q, ev.safe := by
      intro ev hev
      simp only [snapshotThenTwoAppends, appendCalls, List.mem_append, List.mem_map,
        List.mem_cons, List.mem_singleton, List.not_mem_nil, or_false] at hev
      rcases hev with ⟨c, ⟨x, _, rfl⟩, rfl⟩ | (rfl | rfl) | ⟨c, ⟨x, _, rfl⟩, rfl⟩ <;> trivial
    have hcount : callCount (snapshotThenTwoAppends name tvs now p q) = tvs.length + 2 := by
      simp only [snapshotThenTwoAppends, callCount_append, callCount_calls, appendCalls,
        List.length_map, callCount, List.length_cons, List.length_nil]
    have hinv := SysInv_run _ freshSystem SysInv_fresh hsafe
      (by rw [hcount]; simpa [freshSystem, emptyStore] using hlen)
    have hlive := appendCalls_contents name (tvs ++ [p, q]) emptyStore WF_emptyStore
    rw [if_neg (by simp)] at hlive
    have hrec : contents (Recover d' emptyStore).1 name =
        some (tvs.map Prod.snd ++ [p.2, q.2]) := by
      rw [Recover_eq_recovered d' _ _ hs hw]
      have hc := hinv.2.2.2.2.2.1 name
      simp only at hc
      rw [hc, hstore, hlive]
      simp [contents, emptyStore, mapGet]
    refine ⟨?_, hrec, ?_⟩
    · rw [hstore, appendCalls_walFile_length]
      simp [emptyStore]
    · rw [Size_eq_contents, hrec]
      simp

/-- Witness of C3: a snapshot at LSN 2 next to a log that still holds the
records 1 to 4, as scenario E leaves them. -/
theorem replay_applies_only_newer_records_witness :
    (Recover ⟨[("snapshot_100.json", .valid ⟨2, 100, [("x", [10, 20])]⟩)],
        .present [.entry ⟨1, 1, "APPEND", "x", 10⟩, .entry ⟨2, 2, "APPEND", "x", 20⟩,
                  .entry ⟨3, 3, "APPEND", "x", 30⟩, .entry ⟨4, 4, "APPEND", "x", 40⟩]⟩
        emptyStore).1.lists = [(0, [10, 20, 30, 40])] ∧
    Size { ListName := "x" }
      (Recover ⟨[("snapshot_100.json", .valid ⟨2, 100, [("x", [10, 20])]⟩)],
        .present [.entry ⟨1, 1, "APPEND", "x", 10⟩, .entry ⟨2, 2, "APPEND", "x", 20⟩,
                  .entry ⟨3, 3, "APPEND", "x", 30⟩, .entry ⟨4, 4, "APPEND", "x", 40⟩]⟩
        emptyStore).1 = (4, none) :=
  ⟨(congrArg (fun r => r.1.lists)
    (replay_applies_only_newer_records
      ⟨[("snapshot_100.json", .valid ⟨2, 100, [("x", [10, 20])]⟩)],
        .present [.entry ⟨1, 1, "APPEND", "x", 10⟩, .entry ⟨2, 2, "APPEND", "x", 20⟩,
                  .entry ⟨3, 3, "APPEND", "x", 30⟩, .entry ⟨4, 4, "APPEND", "x", 40⟩]⟩
      emptyStore ⟨2, 100, [("x", [10, 20])]⟩ _ (by decide) rfl).1).trans (by decide),
   ((replay_applies_only_newer_records
      ⟨[("snapshot_100.json", .valid ⟨2, 100, [("x", [10, 20])]⟩)],
        .present [.entry ⟨1, 1, "APPEND", "x", 10⟩, .entry ⟨2, 2, "APPEND", "x", 20⟩,
                  .entry ⟨3, 3, "APPEND", "x", 30⟩, .entry ⟨4, 4, "APPEND", "x", 40⟩]⟩
      emptyStore ⟨2, 100, [("x", [10, 20])]⟩ _ (by decide) rfl).2.2
      "x" [(1, 10), (2, 20)] 100 (3, 30) (4, 40)
      ⟨[("snapshot_100.json", .valid ⟨2, 100, [("x", [10, 20])]⟩)],
        .present [.entry ⟨1, 1, "APPEND", "x", 10⟩, .entry ⟨2, 2, "APPEND", "x", 20⟩,
                  .entry ⟨3, 3, "APPEND", "x", 30⟩, .entry ⟨4, 4, "APPEND", "x", 40⟩]⟩
      (by decide) (by decide) (by decide)).2.2⟩

/-- C2, evaluated where the code breaks it: an `Append` acknowledged between
the copy and the truncation of a snapshot is in the live store, but neither in
the published snapshot nor in the truncated log, so `Recover` does not bring it
back. -/
theorem truncation_drops_acknowledged_append :
    (runEvents
        [.call (.append ⟨1, .ok⟩ ⟨"x", 1⟩), .snapshotCopy 100,
         .call (.append ⟨2, .ok⟩ ⟨"x", 2⟩), .snapshotPublish, .snapshotTruncate]
        freshSystem) =
      { store := { nameToUUID := [("x", 0)], lists := [(0, [1, 2])], currentLSN := 2,
                   walFile := [], nextUUID := 1 },
        newest := some ⟨1, 100, [("x", [1])]⟩, phase := .idle } ∧
    contents
      (Recover ⟨[("snapshot_100.json", .valid ⟨1, 100, [("x", [1])]⟩)], .present []⟩
        emptyStore).1 "x" = some [1] ∧
    contents
      (runEvents
        [.call (.append ⟨1, .ok⟩ ⟨"x", 1⟩), .snapshotCopy 100,
         .call (.append ⟨2, .ok⟩ ⟨"x", 2⟩), .snapshotPublish, .snapshotTruncate]
        freshSystem).store "x" = some [1, 2] := by
  decide

/-! ## Log sequence numbers -/

theorem Call_run_fail (c : Call) (l : RemoteList) (hfail : c.outcome ≠ WalOutcome.ok) :
    (c.run l).2 ≠ none ∧
    ((c.run l).1.currentLSN = l.currentLSN ∨
      (c.run l).1.currentLSN = (l.currentLSN + 1) % uint64Mod) := by
  cases c with
  | append io args =>
    obtain ⟨now, outcome⟩ := io
    cases outcome with
    | ok => exact absurd rfl hfail
    | marshalFail => exact ⟨by simp [Call.run, Append, writeWAL], Or.inr rfl⟩
    | syncFail => exact ⟨by simp [Call.run, Append, writeWAL], Or.inr rfl⟩
    | writeFail torn =>
      cases torn <;> exact ⟨by simp [Call.run, Append, writeWAL], Or.inr rfl⟩
  | remove io args =>
    simp only [Call.run]
    cases hreg : mapGet l.nameToUUID args.ListName with
    | none => simp [Remove, hreg]
    | some u =>
      by_cases hne : listOf l u = []
      · simp [Remove, hreg, hne]
      · have hlen : (listOf l u).length ≠ 0 := fun e => hne (List.length_eq_zero.1 e)
        obtain ⟨now, outcome⟩ := io
        cases outcome with
        | ok => exact absurd rfl hfail
        | marshalFail => simp [Remove, hreg, hlen, writeWAL]
        | syncFail => simp [Remove, hreg, hlen, writeWAL]
        | writeFail torn => cases torn <;> simp [Remove, hreg, hlen, writeWAL]

/-- One call and the LSN counter, while the counter does not wrap: a call that
succeeds adds one record to the log, carrying the old LSN plus one, which is
the new current LSN; a call that fails leaves the current LSN as it was or one
higher, and as it was if its log write was not the failure. -/
theorem Call_run_lsn (c : Call) (l : RemoteList) (hb : l.currentLSN + 1 < uint64Mod) :
    ((c.run l).2 = none →
      (c.run l).1.currentLSN = l.currentLSN + 1 ∧
      recordLSNs ((c.run l).1.walFile.drop l.walFile.length) = [l.currentLSN + 1]) ∧
    ((c.run l).1.currentLSN = l.currentLSN ∨ (c.run l).1.currentLSN = l.currentLSN + 1) ∧
    (c.outcome = WalOutcome.ok → (c.run l).2 ≠ none →
      (c.run l).1.currentLSN = l.currentLSN) := by
  have hmod : (l.currentLSN + 1) % uint64Mod = l.currentLSN + 1 := Nat.mod_eq_of_lt hb
  by_cases hok : c.outcome = WalOutcome.ok
  · rcases Call_run_ok c l hok with ⟨herr, hsame⟩ | ⟨herr, e, he, hrun⟩
    · refine ⟨fun h => absurd h herr, Or.inl (by rw [hsame]), fun _ _ => by rw [hsame]⟩
    · rw [hmod] at he
      have hcur : (c.run l).1.currentLSN = l.currentLSN + 1 := by
        rw [hrun]
        exact he
      refine ⟨fun _ => ⟨hcur, ?_⟩, Or.inr hcur, fun _ h => absurd herr h⟩
      rw [hrun]
      simp [recordLSNs, he]
  · obtain ⟨herr, hcur⟩ := Call_run_fail c l hok
    rw [hmod] at hcur
    exact ⟨fun h => absurd h herr, hcur, fun h => absurd h hok⟩

theorem successLSNs_spec (calls : List Call) (l : RemoteList)
    (hb : l.currentLSN + calls.length < uint64Mod) :
    (∀ x ∈ successLSNs calls l, l.currentLSN < x) ∧
    (successLSNs calls l).Pairwise (fun a b => a < b) ∧
    (successLSNs calls l).length = successCount calls l ∧
    ((∀ c ∈ calls, c.outcome = WalOutcome.ok) →
      successLSNs calls l = List.range' (l.currentLSN + 1) (successCount calls l)) := by
  induction calls generalizing l with
  | nil => simp [successLSNs, successCount]
  | cons c cs ih =>
    simp only [List.length_cons] at hb
    obtain ⟨h1, h2, h3⟩ := Call_run_lsn c l (by omega)
    obtain ⟨i1, i2, i3, i4⟩ := ih (c.run l).1 (by rcases h2 with h | h <;> omega)
    cases herr : (c.run l).2 with
    | none =>
      obtain ⟨hcur, hrec⟩ := h1 herr
      have hs : successLSNs (c :: cs) l =
          (l.currentLSN + 1) :: successLSNs cs (c.run l).1 := by
        simp only [successLSNs, herr, hrec, List.singleton_append]
      have hn : successCount (c :: cs) l = 1 + successCount cs (c.run l).1 := by
        simp only [successCount, herr, if_true]
      rw [hs, hn]
      refine ⟨?_, ?_, ?_, ?_⟩
      · intro x hx
        rcases List.mem_cons.1 hx with rfl | hx
        · exact Nat.lt_succ_self _
        · have := i1 x hx
          omega
      · refine List.Pairwise.cons ?_ i2
        intro x hx
        have := i1 x hx
        omega
      · simp only [List.length_cons, i3]
        omega
      · intro hall
        have := i4 (fun c' hc' => hall c' (List.mem_cons_of_mem _ hc'))
        rw [this, hcur, Nat.add_comm 1, List.range'_succ]
    | some err =>
      have hs : successLSNs (c :: cs) l = successLSNs cs (c.run l).1 := by
        simp only [successLSNs, herr]
      have hn : successCount (c :: cs) l = successCount cs (c.run l).1 := by
        simp [successCount, herr]
      rw [hs, hn]
      refine ⟨?_, i2, i3, ?_⟩
      · intro x hx
        have := i1 x hx
        rcases h2 with h | h <;> omega
      · intro hall
        have hsame := h3 (hall c (List.mem_cons_self _ _)) (by rw [herr]; simp)
        have := i4 (fun c' hc' => hall c' (List.mem_cons_of_mem _ hc'))
        rw [this, hsame]

/-- C5 as stated fails: an `Append` whose log write fails uses up LSN 1, so the
only successful call of the sequence carries LSN 2, not 1. -/
theorem lsn_gap_after_failed_write :
    successLSNs [.append ⟨1, .writeFail false⟩ ⟨"x", 7⟩, .append ⟨2, .ok⟩ ⟨"x", 7⟩]
        emptyStore = [2] ∧
    successCount [.append ⟨1, .writeFail false⟩ ⟨"x", 7⟩, .append ⟨2, .ok⟩ ⟨"x", 7⟩]
        emptyStore = 1 ∧
    successLSNs [.append ⟨1, .writeFail false⟩ ⟨"x", 7⟩, .append ⟨2, .ok⟩ ⟨"x", 7⟩]
        emptyStore ≠
      List.range' 1 (successCount
        [.append ⟨1, .writeFail false⟩ ⟨"x", 7⟩, .append ⟨2, .ok⟩ ⟨"x", 7⟩] emptyStore) := by
  decide

/-- C5, amended: for every sequence of fewer than `2 ^ 64` `Append`/`Remove`
calls on a store started from empty durable state, whatever calls fail, the
LSNs carried by the records of the successful calls are at least 1 and strictly
increasing in call order (none is used twice), one per successful call; and
when no log write fails (calls fail only by `Remove` on an unknown or empty
list) they are exactly 1, 2, ..., N, N being the number of successful calls. -/
theorem lsn_sequencing (calls : List Call) (hlen : calls.length < uint64Mod) :
    (∀ x ∈ successLSNs calls emptyStore, 1 ≤ x) ∧
    (successLSNs calls emptyStore).Pairwise (fun a b => a < b) ∧
    (successLSNs calls emptyStore).length = successCount calls emptyStore ∧
    ((∀ c ∈ calls, c.outcome = WalOutcome.ok) →
      successLSNs calls emptyStore = List.range' 1 (successCount calls emptyStore)) := by
  obtain ⟨h1, h2, h3, h4⟩ := successLSNs_spec calls emptyStore
    (by simpa [emptyStore] using hlen)
  exact ⟨fun x hx => h1 x hx, h2, h3, h4⟩

/-- Witness of C5 amended: an append, a `Remove` of an unknown name, two
removes of which the second finds the list empty, and an append. -/
theorem lsn_sequencing_witness :
    successLSNs [.append ⟨1, .ok⟩ ⟨"x", 7⟩, .remove ⟨2, .ok⟩ ⟨"y"⟩, .remove ⟨3, .ok⟩ ⟨"x"⟩,
        .remove ⟨4, .ok⟩ ⟨"x"⟩, .append ⟨5, .ok⟩ ⟨"x", 8⟩] emptyStore = [1, 2, 3] :=
  ((lsn_sequencing [.append ⟨1, .ok⟩ ⟨"x", 7⟩, .remove ⟨2, .ok⟩ ⟨"y"⟩, .remove ⟨3, .ok⟩ ⟨"x"⟩,
        .remove ⟨4, .ok⟩ ⟨"x"⟩, .append ⟨5, .ok⟩ ⟨"x", 8⟩] (by decide)).2.2.2
      (by decide)).trans (by decide)

/-! ## Torn records -/

theorem replayWAL_stops_at_corrupt (s : Nat) (pre rest : List WalItem) (l : RemoteList) :
    replayWAL s (pre ++ WalItem.corrupt :: rest) l = replayWAL s (pre ++ [WalItem.corrupt]) l := by
  induction pre generalizing l with
  | nil => rfl
  | cons a pre ih =>
    cases a with
    | corrupt => rfl
    | entry x =>
      by_cases hx : x.LSN ≤ s
      · simp only [List.cons_append, replayWAL, hx, if_true]
        exact ih l
      · simp only [List.cons_append, replayWAL, hx, if_false]
        exact ih _

theorem replayWAL_entries_then_corrupt (s : Nat) (es : List LogEntry) (rest : List WalItem)
    (l : RemoteList) :
    replayWAL s (es.map WalItem.entry ++ WalItem.corrupt :: rest) l =
      replayWAL s (es.map WalItem.entry) l := by
  induction es generalizing l with
  | nil => rfl
  | cons x es ih =>
    by_cases hx : x.LSN ≤ s
    · simp only [List.map_cons, List.cons_append, replayWAL, hx, if_true]
      exact ih l
    · simp only [List.map_cons, List.cons_append, replayWAL, hx, if_false]
      exact ih _

theorem Recover_wal_congr (files : List (String × SnapshotFile)) (w w' : WalFile)
    (l : RemoteList) (h : ∀ s l', recoverWAL s w l' = recoverWAL s w' l') :
    Recover { files := files, wal := w } l = Recover { files := files, wal := w' } l := by
  have hf : findLatestSnapshot { files := files, wal := w } =
      findLatestSnapshot { files := files, wal := w' } := rfl
  unfold Recover
  rw [hf]
  cases findLatestSnapshot { files := files, wal := w' } with
  | none => exact h 0 l
  | some f =>
    simp only
    cases mapGet files f with
    | none => rfl
    | some file =>
      cases file with
      | unreadable => rfl
      | undecodable => rfl
      | valid snapshot => exact h _ _

theorem Recover_no_snapshot (d : DataDir) (l : RemoteList) (items : List WalItem)
    (hsnap : newestSnapshotFile d = none) (hwal : d.wal = WalFile.present items) :
    Recover d l = (replayWAL 0 items l, none) := by
  unfold Recover newestSnapshotFile at *
  cases hf : findLatestSnapshot d with
  | none => simp [recoverWAL, hwal]
  | some f => simp [hf] at hsnap

/-- C12: a record that does not decode ends the log without an error.  Over a
log made of decodable records, then an undecodable one, then anything,
`Recover` returns exactly what it returns over the decodable records alone:
the same store (names, lists, current LSN) and the same error status; the
replay of the log itself never reports an error, and `Recover` returns none
when there is no snapshot file or the newest one decodes. -/
theorem corrupt_record_is_end_of_log (files : List (String × SnapshotFile))
    (es : List LogEntry) (rest : List WalItem) (l : RemoteList) :
    Recover ⟨files, WalFile.present (es.map WalItem.entry ++ WalItem.corrupt :: rest)⟩ l =
      Recover ⟨files, WalFile.present (es.map WalItem.entry)⟩ l ∧
    (∀ s, (recoverWAL s
      (WalFile.present (es.map WalItem.entry ++ WalItem.corrupt :: rest)) l).2 = none) ∧
    ((newestSnapshotFile
          ⟨files, WalFile.present (es.map WalItem.entry ++ WalItem.corrupt :: rest)⟩ = none ∨
      ∃ snapshot, newestSnapshotFile
          ⟨files, WalFile.present (es.map WalItem.entry ++ WalItem.corrupt :: rest)⟩ =
        some (SnapshotFile.valid snapshot)) →
      (Recover ⟨files, WalFile.present (es.map WalItem.entry ++ WalItem.corrupt :: rest)⟩
        l).2 = none) := by
  refine ⟨?_, fun s => rfl, ?_⟩
  · apply Recover_wal_congr
    intro s l'
    simp only [recoverWAL, replayWAL_entries_then_corrupt]
  · rintro (h | ⟨snapshot, h⟩)
    · rw [Recover_no_snapshot _ l _ h rfl]
    · rw [Recover_valid _ l snapshot _ h rfl]

/-- C11, evaluated where the code breaks it: the log holds one record and a
torn record; the server starts on it and acknowledges `Append(x, 2)`, whose
record lands after the torn one; at the next start the replay stops at the torn
record, and the store holds `x = [1]` instead of the live `x = [1, 2]`. -/
theorem append_after_torn_record_is_lost :
    NewRemoteList ⟨[], WalFile.present
        [WalItem.entry ⟨1, 10, "APPEND", "x", 1⟩, WalItem.corrupt]⟩ =
      some ⟨[("x", 0)], [(0, [1])], 1,
        [WalItem.entry ⟨1, 10, "APPEND", "x", 1⟩, WalItem.corrupt], 1⟩ ∧
    Append ⟨20, WalOutcome.ok⟩ ⟨"x", 2⟩ false
        ⟨[("x", 0)], [(0, [1])], 1,
          [WalItem.entry ⟨1, 10, "APPEND", "x", 1⟩, WalItem.corrupt], 1⟩ =
      (⟨[("x", 0)], [(0, [1, 2])], 2,
         [WalItem.entry ⟨1, 10, "APPEND", "x", 1⟩, WalItem.corrupt,
          WalItem.entry ⟨2, 20, "APPEND", "x", 2⟩], 1⟩, true, none) ∧
    (NewRemoteList ⟨[], WalFile.present
        [WalItem.entry ⟨1, 10, "APPEND", "x", 1⟩, WalItem.corrupt,
         WalItem.entry ⟨2, 20, "APPEND", "x", 2⟩]⟩).map (fun l => contents l "x") =
      some (some [1]) := by
  decide

/-! ## Snapshot round trip -/

theorem names_iff_of_contents (l l' : RemoteList)
    (h : ∀ n, contents l n = contents l' n) (n : String) :
    n ∈ mapKeys l.nameToUUID ↔ n ∈ mapKeys l'.nameToUUID := by
  rw [← not_iff_not, ← mapGet_eq_none_iff, ← mapGet_eq_none_iff,
    ← contents_eq_none_iff, ← contents_eq_none_iff, h n]

theorem seedFromSnapshot_currentLSN (m : GoMap String (List Int)) (l : RemoteList) :
    (seedFromSnapshot m l).currentLSN = l.currentLSN := by
  induction m generalizing l with
  | nil => rfl
  | cons p m ih => rw [seedFromSnapshot_cons, ih]

/-- C14: take any store reached from a fresh start by `Append`/`Remove` calls
(whatever their outcome), and the snapshot `createSnapshot` captures of it;
`Recover`, run on the empty store over that snapshot and an empty log, returns
no error and a store with the same registered names, the same elements under
every name, and the same current LSN. -/
theorem snapshot_round_trip (calls : List Call) (now : Int) (d : DataDir)
    (hsnap : newestSnapshotFile d =
      some (SnapshotFile.valid (captureSnapshot now (runCalls calls emptyStore))))
    (hwal : d.wal = WalFile.present []) :
    (Recover d emptyStore).2 = none ∧
    (∀ name, contents (Recover d emptyStore).1 name =
      contents (runCalls calls emptyStore) name) ∧
    (∀ name, name ∈ (ListAll (Recover d emptyStore).1).1.ListNames ↔
      name ∈ (ListAll (runCalls calls emptyStore)).1.ListNames) ∧
    (Recover d emptyStore).1.currentLSN = (runCalls calls emptyStore).currentLSN := by
  have hWF := runCalls_WF calls emptyStore WF_emptyStore
  obtain ⟨_, hc⟩ := reload_capture now (runCalls calls emptyStore) hWF
    (runCalls calls emptyStore).currentLSN
  rw [Recover_valid d emptyStore _ [] hsnap hwal]
  refine ⟨rfl, hc, ?_, ?_⟩
  · exact fun name => names_iff_of_contents _ _ hc name
  · show (seedFromSnapshot _ _).currentLSN = _
    rw [seedFromSnapshot_currentLSN]
    rfl

/-- Witness of C14: the store after two appends and a remove, captured and
reloaded. -/
theorem snapshot_round_trip_witness :
    (Recover ⟨[("snapshot_100.json", .valid ⟨3, 100, [("x", [10]), ("y", [])]⟩)],
        .present []⟩ emptyStore).2 = none ∧
    (Recover ⟨[("snapshot_100.json", .valid ⟨3, 100, [("x", [10]), ("y", [])]⟩)],
        .present []⟩ emptyStore).1.currentLSN = 3 :=
  ⟨(snapshot_round_trip
      [.append ⟨1, .ok⟩ ⟨"x", 10⟩, .append ⟨2, .ok⟩ ⟨"y", 20⟩, .remove ⟨3, .ok⟩ ⟨"y"⟩] 100
      ⟨[("snapshot_100.json", .valid ⟨3, 100, [("x", [10]), ("y", [])]⟩)], .present []⟩
      (by decide) rfl).1,
   (snapshot_round_trip
      [.append ⟨1, .ok⟩ ⟨"x", 10⟩, .append ⟨2, .ok⟩ ⟨"y", 20⟩, .remove ⟨3, .ok⟩ ⟨"y"⟩] 100
      ⟨[("snapshot_100.json", .valid ⟨3, 100, [("x", [10]), ("y", [])]⟩)], .present []⟩
      (by decide) rfl).2.2.2.trans (by decide)⟩

/-! ## Stores with lists that no name refers to -/

theorem RegOK_of_WF (l : RemoteList) (h : WF l) : RegOK l :=
  ⟨h.2.1, fun u hu => (h.2.2.2.2 u (h.2.2.2.1 u hu)).2⟩

theorem RegOK_congr (l l' : RemoteList) (h : RegOK l) (h1 : l'.nameToUUID = l.nameToUUID)
    (h3 : l'.nextUUID = l.nextUUID) : RegOK l' := by
  unfold RegOK at *
  rw [h1, h3]
  exact h

theorem RegOK_inj (l : RemoteList) (h : RegOK l) (n1 n2 : String) (u : UUID)
    (h1 : mapGet l.nameToUUID n1 = some u) (h2 : mapGet l.nameToUUID n2 = some u) :
    n1 = n2 := by
  have m1 := mem_of_mapGet _ _ _ h1
  have m2 := mem_of_mapGet _ _ _ h2
  have := List.inj_on_of_nodup_map h.1 m1 m2 rfl
  exact (Prod.mk.injEq _ _ _ _ ▸ this).1

theorem values_mapSet_mem {κ ν : Type} [DecidableEq κ] (m : GoMap κ ν) (k : κ) (v x : ν)
    (h : x ∈ (mapSet m k v).map Prod.snd) : x ∈ m.map Prod.snd ∨ x = v := by
  induction m with
  | nil =>
    simp only [mapSet, List.map_cons, List.map_nil, List.mem_singleton] at h
    exact Or.inr h
  | cons p m ih =>
    obtain ⟨a, b⟩ := p
    by_cases hk : a = k
    · simp only [mapSet, hk, if_true, List.map_cons, List.mem_cons] at h
      rcases h with h | h
      · exact Or.inr h
      · exact Or.inl (List.mem_cons_of_mem _ h)
    · simp only [mapSet, hk, if_false, List.map_cons, List.mem_cons] at h
      rcases h with h | h
      · exact Or.inl (by simp [h])
      · rcases ih h with h' | h'
        · exact Or.inl (List.mem_cons_of_mem _ h')
        · exact Or.inr h'

theorem values_nodup_mapSet {κ ν : Type} [DecidableEq κ] (m : GoMap κ ν) (k : κ) (v : ν)
    (hnd : (m.map Prod.snd).Nodup) (hv : v ∉ m.map Prod.snd) :
    ((mapSet m k v).map Prod.snd).Nodup := by
  induction m with
  | nil => simp [mapSet]
  | cons p m ih =>
    obtain ⟨a, b⟩ := p
    simp only [List.map_cons, List.nodup_cons, List.mem_cons, not_or] at hnd hv
    by_cases hk : a = k
    · simp only [mapSet, hk, if_true, List.map_cons, List.nodup_cons]
      exact ⟨hv.2, hnd.2⟩
    · simp only [mapSet, hk, if_false, List.map_cons, List.nodup_cons]
      refine ⟨?_, ih hnd.2 hv.2⟩
      intro hb
      rcases values_mapSet_mem m k v b hb with h' | h'
      · exact hnd.1 h'
      · exact hv.1 h'.symm

theorem mem_mapKeys_mapSet {κ ν : Type} [DecidableEq κ] (m : GoMap κ ν) (k : κ) (v : ν)
    (x : κ) : x ∈ mapKeys (mapSet m k v) ↔ x ∈ mapKeys m ∨ x = k := by
  by_cases hk : k ∈ mapKeys m
  · rw [mapKeys_mapSet_of_mem _ _ _ hk]
    constructor
    · exact Or.inl
    · rintro (h | rfl)
      · exact h
      · exact hk
  · rw [mapSet_of_not_mem _ _ _ hk, mapKeys_append]
    simp [mapKeys]

/-- Assigning to the list of a registered name, on a store whose registry is
sound, changes what that name reads and nothing else. -/
theorem contents_setList_reg (l l' : RemoteList) (h : RegOK l) (name : String) (u : UUID)
    (X : List Int) (hu : mapGet l.nameToUUID name = some u)
    (h1 : l'.nameToUUID = l.nameToUUID) (h2 : l'.lists = mapSet l.lists u X) (n : String) :
    contents l' n = if n = name then some X else contents l n := by
  unfold contents
  rw [h1]
  by_cases hn : n = name
  · subst hn
    simp [hu, listOf, h2, mapGet_mapSet]
  · simp only [hn, if_false]
    cases hn' : mapGet l.nameToUUID n with
    | none => rfl
    | some u' =>
      have hne : u ≠ u' := by
        rintro rfl
        exact hn (RegOK_inj l h _ _ _ hn' hu)
      simp [listOf, h2, mapGet_mapSet, hne]

/-- Binding a name to a fresh identifier keeps the registry sound, whether the
name was registered or not. -/
theorem RegOK_bind_fresh (l l' : RemoteList) (h : RegOK l) (name : String)
    (h1 : l'.nameToUUID = mapSet l.nameToUUID name l.nextUUID)
    (h3 : l'.nextUUID = l.nextUUID + 1) : RegOK l' := by
  have hv : l.nextUUID ∉ l.nameToUUID.map Prod.snd := fun hm => Nat.lt_irrefl _ (h.2 _ hm)
  refine ⟨?_, ?_⟩
  · rw [h1]
    exact values_nodup_mapSet _ _ _ h.1 hv
  · intro u hu
    rw [h1] at hu
    rw [h3]
    rcases values_mapSet_mem _ _ _ _ hu with h' | h'
    · exact Nat.lt_succ_of_lt (h.2 u h')
    · rw [h']
      exact Nat.lt_succ_self _

/-- Binding a name to a fresh identifier whose list is `X` changes what that
name reads and nothing else. -/
theorem contents_bind_fresh (l l' : RemoteList) (h : RegOK l) (name : String) (X : List Int)
    (h1 : l'.nameToUUID = mapSet l.nameToUUID name l.nextUUID)
    (h2 : ∀ u, mapGet l'.lists u = if l.nextUUID = u then some X else mapGet l.lists u)
    (n : String) :
    contents l' n = if n = name then some X else contents l n := by
  unfold contents
  rw [h1, mapGet_mapSet]
  by_cases hn : n = name
  · subst hn
    simp [listOf, h2]
  · simp only [hn, Ne.symm hn, if_false]
    cases hn' : mapGet l.nameToUUID n with
    | none => rfl
    | some u' =>
      have hne : l.nextUUID ≠ u' :=
        fun e => Nat.lt_irrefl _ (e ▸ h.2 u' (value_mem_of_mapGet _ _ _ hn'))
      simp [listOf, h2, hne]

theorem applyEntry_RegOK (e : LogEntry) (l : RemoteList) (h : RegOK l) :
    RegOK (applyEntry e l) := by
  by_cases hop : e.Operation = "APPEND"
  · cases hreg : mapGet l.nameToUUID e.ListName with
    | none =>
      rw [applyEntry_append_none e l hop hreg]
      exact RegOK_bind_fresh l _ h e.ListName rfl rfl
    | some u =>
      rw [applyEntry_append_some e l u hop hreg]
      exact RegOK_congr l _ h rfl rfl
  · by_cases hop2 : e.Operation = "REMOVE"
    · cases hreg : mapGet l.nameToUUID e.ListName with
      | none =>
        rw [applyEntry_noop e l (Or.inr (Or.inl ⟨hop2, hreg⟩))]
        exact RegOK_congr l _ h rfl rfl
      | some u =>
        by_cases hne : (listOf l u).length > 0
        · rw [applyEntry_remove_some e l u hop2 hreg hne]
          exact RegOK_congr l _ h rfl rfl
        · have hnil : listOf l u = [] := List.length_eq_zero.1 (by omega)
          rw [applyEntry_noop e l (Or.inr (Or.inr ⟨hop2, u, hreg, hnil⟩))]
          exact RegOK_congr l _ h rfl rfl
    · rw [applyEntry_noop e l (Or.inl ⟨hop, hop2⟩)]
      exact RegOK_congr l _ h rfl rfl

/-- Replaying one record on a store whose registry is sound acts on what
clients read as `applyView` says. -/
theorem applyEntry_contents_reg (e : LogEntry) (l : RemoteList) (h : RegOK l) (n : String) :
    contents (applyEntry e l) n = applyView e (contents l) n := by
  by_cases hop : e.Operation = "APPEND"
  · simp only [applyView, hop, if_true]
    cases hreg : mapGet l.nameToUUID e.ListName with
    | none =>
      have hEq := applyEntry_append_none e l hop hreg
      rw [contents_bind_fresh l (applyEntry e l) h e.ListName [e.Value]
        (by rw [hEq]) (by intro u; rw [hEq]; simp only [mapGet_mapSet]; split_ifs <;> rfl) n]
      by_cases hn : n = e.ListName
      · subst hn
        simp [contents, hreg]
      · simp [hn]
    | some u =>
      have hEq := applyEntry_append_some e l u hop hreg
      rw [contents_setList_reg l (applyEntry e l) h e.ListName u (listOf l u ++ [e.Value]) hreg
        (by rw [hEq]) (by rw [hEq]) n]
      by_cases hn : n = e.ListName
      · subst hn
        simp [contents, hreg]
      · simp [hn]
  · by_cases hop2 : e.Operation = "REMOVE"
    · simp only [applyView, hop, if_false, hop2, if_true]
      cases hreg : mapGet l.nameToUUID e.ListName with
      | none =>
        have hEq := applyEntry_noop e l (Or.inr (Or.inl ⟨hop2, hreg⟩))
        rw [contents_congr l (applyEntry e l) (by rw [hEq]) (by rw [hEq]) n]
        by_cases hn : n = e.ListName
        · subst hn
          simp [contents, hreg]
        · simp [hn]
      | some u =>
        by_cases hne : (listOf l u).length > 0
        · have hEq := applyEntry_remove_some e l u hop2 hreg hne
          rw [contents_setList_reg l (applyEntry e l) h e.ListName u
            ((listOf l u).take ((listOf l u).length - 1)) hreg (by rw [hEq]) (by rw [hEq]) n]
          by_cases hn : n = e.ListName
          · subst hn
            simp [contents, hreg, List.dropLast_eq_take]
          · simp [hn]
        · have hnil : listOf l u = [] := List.length_eq_zero.1 (by omega)
          have hEq := applyEntry_noop e l (Or.inr (Or.inr ⟨hop2, u, hreg, hnil⟩))
          rw [contents_congr l (applyEntry e l) (by rw [hEq]) (by rw [hEq]) n]
          by_cases hn : n = e.ListName
          · subst hn
            simp [contents, hreg, hnil]
          · simp [hn]
    · simp only [applyView, hop, hop2, if_false]
      have hEq := applyEntry_noop e l (Or.inl ⟨hop, hop2⟩)
      exact contents_congr l (applyEntry e l) (by rw [hEq]) (by rw [hEq]) n

theorem applyEntry_nameToUUID (e : LogEntry) (l : RemoteList) :
    (applyEntry e l).nameToUUID =
      if e.Operation = "APPEND" ∧ mapGet l.nameToUUID e.ListName = none then
        mapSet l.nameToUUID e.ListName l.nextUUID
      else l.nameToUUID := by
  by_cases hop : e.Operation = "APPEND"
  · cases hreg : mapGet l.nameToUUID e.ListName with
    | none => rw [applyEntry_append_none e l hop hreg]; simp [hop]
    | some u => rw [applyEntry_append_some e l u hop hreg]; simp
  · rw [if_neg (fun h => hop h.1)]
    by_cases hop2 : e.Operation = "REMOVE"
    · cases hreg : mapGet l.nameToUUID e.ListName with
      | none => rw [applyEntry_noop e l (Or.inr (Or.inl ⟨hop2, hreg⟩))]
      | some u =>
        by_cases hne : (listOf l u).length > 0
        · rw [applyEntry_remove_some e l u hop2 hreg hne]
        · have hnil : listOf l u = [] := List.length_eq_zero.1 (by omega)
          rw [applyEntry_noop e l (Or.inr (Or.inr ⟨hop2, u, hreg, hnil⟩))]
    · rw [applyEntry_noop e l (Or.inl ⟨hop, hop2⟩)]

theorem applyEntry_names_mono (e : LogEntry) (l : RemoteList) (x : String)
    (h : x ∈ mapKeys l.nameToUUID) : x ∈ mapKeys (applyEntry e l).nameToUUID := by
  rw [applyEntry_nameToUUID]
  split_ifs
  · exact (mem_mapKeys_mapSet _ _ _ _).2 (Or.inl h)
  · exact h

theorem applyEntry_names_append (e : LogEntry) (l : RemoteList)
    (hop : e.Operation = "APPEND") : e.ListName ∈ mapKeys (applyEntry e l).nameToUUID := by
  rw [applyEntry_nameToUUID]
  split_ifs with h
  · exact (mem_mapKeys_mapSet _ _ _ _).2 (Or.inr rfl)
  · have hne : mapGet l.nameToUUID e.ListName ≠ none := fun hn => h ⟨hop, hn⟩
    by_contra hc
    exact hne ((mapGet_eq_none_iff _ _).2 hc)

theorem applyEntry_names_same (e : LogEntry) (l : RemoteList)
    (h : e.Operation = "APPEND" → e.ListName ∈ mapKeys l.nameToUUID) :
    (applyEntry e l).nameToUUID = l.nameToUUID := by
  rw [applyEntry_nameToUUID]
  split_ifs with hc
  · exact absurd (h hc.1) ((mapGet_eq_none_iff _ _).1 hc.2)
  · rfl

theorem foldl_applyEntry_RegOK (es : List LogEntry) (l : RemoteList) (h : RegOK l) :
    RegOK (es.foldl (fun acc e => applyEntry e acc) l) := by
  induction es generalizing l with
  | nil => exact h
  | cons e es ih => exact ih _ (applyEntry_RegOK e l h)

theorem seedFromSnapshot_RegOK (m : GoMap String (List Int)) (l : RemoteList) (h : RegOK l) :
    RegOK (seedFromSnapshot m l) := by
  induction m generalizing l with
  | nil => exact h
  | cons p m ih =>
    rw [seedFromSnapshot_cons]
    exact ih _ (RegOK_bind_fresh l _ h p.1 rfl rfl)

theorem replayWAL_eq_applied (s : Nat) (items : List WalItem) (l : RemoteList) :
    replayWAL s items l =
      (appliedRecords s items).foldl (fun acc e => applyEntry e acc) l :=
  replayWAL_eq_foldl s items l

theorem seeded_RegOK (newest : Option SnapshotData) : RegOK (seeded newest) := by
  cases newest with
  | none => exact RegOK_of_WF _ WF_emptyStore
  | some snapshot =>
    exact seedFromSnapshot_RegOK _ _ (RegOK_congr emptyStore _ (by decide) rfl rfl)

theorem recovered_RegOK (newest : Option SnapshotData) (items : List WalItem) :
    RegOK (recovered newest items) := by
  unfold recovered
  rw [replayWAL_eq_applied]
  exact foldl_applyEntry_RegOK _ _ (seeded_RegOK newest)

/-- C20: let the newest snapshot decode (or be missing) and the log consist of
decodable records followed by a REMOVE record `e` newer than the snapshot.
`Recover` of the empty store returns no error, ends with `e.LSN` as current
LSN, and registers no name for `e`.  If the list of `e` is not registered or is
empty at that point, the registry and all lists are exactly those recovered
from the log without `e`.  Otherwise the list of `e` loses its last element,
whatever `e.Value` is, and every other name reads as without `e`. -/
theorem lenient_remove_replay (files : List (String × SnapshotFile))
    (newest : Option SnapshotData) (items : List WalItem) (e : LogEntry)
    (hop : e.Operation = "REMOVE")
    (hsnap : newestSnapshotFile ⟨files, WalFile.present items⟩ =
      newest.map SnapshotFile.valid)
    (hnc : WalItem.corrupt ∉ items)
    (hlsn : snapshotLSNOf newest < e.LSN) :
    (Recover ⟨files, WalFile.present (items ++ [WalItem.entry e])⟩ emptyStore).2 = none ∧
    (Recover ⟨files, WalFile.present (items ++ [WalItem.entry e])⟩
      emptyStore).1.currentLSN = e.LSN ∧
    (Recover ⟨files, WalFile.present (items ++ [WalItem.entry e])⟩
      emptyStore).1.nameToUUID =
      (Recover ⟨files, WalFile.present items⟩ emptyStore).1.nameToUUID ∧
    ((contents (Recover ⟨files, WalFile.present items⟩ emptyStore).1 e.ListName = none ∨
      contents (Recover ⟨files, WalFile.present items⟩ emptyStore).1 e.ListName = some []) →
      (Recover ⟨files, WalFile.present (items ++ [WalItem.entry e])⟩ emptyStore).1.lists =
        (Recover ⟨files, WalFile.present items⟩ emptyStore).1.lists) ∧
    (∀ xs, contents (Recover ⟨files, WalFile.present items⟩ emptyStore).1 e.ListName =
        some xs →
      contents (Recover ⟨files, WalFile.present (items ++ [WalItem.entry e])⟩
        emptyStore).1 e.ListName = some xs.dropLast) ∧
    (∀ other, other ≠ e.ListName →
      contents (Recover ⟨files, WalFile.present (items ++ [WalItem.entry e])⟩
        emptyStore).1 other =
      contents (Recover ⟨files, WalFile.present items⟩ emptyStore).1 other) := by
  have hsnap' : newestSnapshotFile ⟨files, WalFile.present (items ++ [WalItem.entry e])⟩ =
      newest.map SnapshotFile.valid := hsnap
  rw [Recover_eq_recovered _ newest items hsnap rfl,
    Recover_eq_recovered _ newest (items ++ [WalItem.entry e]) hsnap' rfl,
    recovered_append_entry newest items e hnc hlsn]
  have hReg := recovered_RegOK newest items
  have hnames : (applyEntry e (recovered newest items)).nameToUUID =
      (recovered newest items).nameToUUID := by
    apply applyEntry_names_same
    intro h
    rw [hop] at h
    exact absurd h (by decide)
  have hview : ∀ n, contents (applyEntry e (recovered newest items)) n =
      if n = e.ListName then (contents (recovered newest items) n).map List.dropLast
      else contents (recovered newest items) n := by
    intro n
    have hra : ¬ ("REMOVE" : String) = "APPEND" := by decide
    rw [applyEntry_contents_reg e _ hReg n]
    simp only [applyView, hop, hra, if_false, if_true]
  refine ⟨rfl, rfl, hnames, ?_, ?_, ?_⟩
  · rintro (h | h)
    · rw [applyEntry_noop e _
        (Or.inr (Or.inl ⟨hop, (contents_eq_none_iff _ _).1 h⟩))]
    · obtain ⟨u, hu, hxs⟩ := (contents_eq_some_iff _ _ _).1 h
      rw [applyEntry_noop e _ (Or.inr (Or.inr ⟨hop, u, hu, hxs⟩))]
  · intro xs hxs
    show contents (applyEntry e (recovered newest items)) e.ListName = _
    rw [hview, if_pos rfl]
    show Option.map List.dropLast (contents (recovered newest items) e.ListName) = _
    rw [hxs]
    rfl
  · intro other hne
    show contents (applyEntry e (recovered newest items)) other = _
    rw [hview, if_neg hne]

/-- Witness of C20: a REMOVE for an emptied list, then one for a list with two
elements whose value field names neither. -/
theorem lenient_remove_replay_witness :
    (Recover ⟨[], .present [.entry ⟨1, 1, "APPEND", "x", 10⟩, .entry ⟨2, 2, "REMOVE", "x", 10⟩,
        .entry ⟨3, 3, "REMOVE", "x", 10⟩]⟩ emptyStore).1.lists = [(0, [])] ∧
    contents (Recover ⟨[("snapshot_100.json", .valid ⟨2, 100, [("y", [5, 6])]⟩)],
        .present [.entry ⟨3, 3, "REMOVE", "y", 77⟩]⟩ emptyStore).1 "y" = some [5] :=
  ⟨((lenient_remove_replay [] none
        [.entry ⟨1, 1, "APPEND", "x", 10⟩, .entry ⟨2, 2, "REMOVE", "x", 10⟩]
        ⟨3, 3, "REMOVE", "x", 10⟩ rfl (by decide) (by decide) (by decide)).2.2.2.1
      (Or.inr (by decide))).trans (by decide),
   (lenient_remove_replay [("snapshot_100.json", .valid ⟨2, 100, [("y", [5, 6])]⟩)]
        (some ⟨2, 100, [("y", [5, 6])]⟩) [] ⟨3, 3, "REMOVE", "y", 77⟩ rfl (by decide)
        (by decide) (by decide)).2.2.2.2.1 [5, 6] (by decide)⟩

/-! ## The registry only grows -/

theorem Append_success_ok (io : WalIO) (args : AppendArgs) (reply : Bool) (l : RemoteList)
    (h : (Append io args reply l).2.2 = none) : io.outcome = WalOutcome.ok := by
  obtain ⟨now, outcome⟩ := io
  cases outcome with
  | ok => rfl
  | marshalFail => simp [Append, writeWAL] at h
  | syncFail => simp [Append, writeWAL] at h
  | writeFail torn => cases torn <;> simp [Append, writeWAL] at h

theorem Append_fail_maps (io : WalIO) (args : AppendArgs) (reply : Bool) (l : RemoteList)
    (h : io.outcome ≠ WalOutcome.ok) :
    (Append io args reply l).2.2 ≠ none ∧
    (Append io args reply l).1.nameToUUID = l.nameToUUID ∧
    (Append io args reply l).1.lists = l.lists := by
  obtain ⟨now, outcome⟩ := io
  cases outcome with
  | ok => exact absurd rfl h
  | marshalFail => simp [Append, writeWAL]
  | syncFail => simp [Append, writeWAL]
  | writeFail torn => cases torn <;> simp [Append, writeWAL]

theorem Append_ok_nameToUUID (io : WalIO) (args : AppendArgs) (reply : Bool) (l : RemoteList)
    (h : io.outcome = WalOutcome.ok) :
    (Append io args reply l).1.nameToUUID =
      (applyEntry { LSN := (l.currentLSN + 1) % uint64Mod, Timestamp := io.now,
                    Operation := "APPEND", ListName := args.ListName,
                    Value := args.Value } l).nameToUUID := by
  rw [Append_ok_eq io args reply l h]

theorem Remove_nameToUUID (io : WalIO) (args : RemoveArgs) (l : RemoteList) :
    (Remove io args l).1.nameToUUID = l.nameToUUID := by
  cases hreg : mapGet l.nameToUUID args.ListName with
  | none => simp [Remove, hreg]
  | some u =>
    by_cases hne : listOf l u = []
    · simp [Remove, hreg, hne]
    · have hlen : (listOf l u).length ≠ 0 := fun e => hne (List.length_eq_zero.1 e)
      obtain ⟨now, outcome⟩ := io
      cases outcome with
      | ok => simp [Remove, hreg, hlen, writeWAL]
      | marshalFail => simp [Remove, hreg, hlen, writeWAL]
      | syncFail => simp [Remove, hreg, hlen, writeWAL]
      | writeFail torn => cases torn <;> simp [Remove, hreg, hlen, writeWAL]

theorem Request_run_names (r : Request) (l : RemoteList) :
    (∀ n ∈ mapKeys l.nameToUUID, n ∈ mapKeys (r.run l).nameToUUID) ∧
    ((mapKeys l.nameToUUID).Nodup → (mapKeys (r.run l).nameToUUID).Nodup) := by
  cases r with
  | append io args =>
    by_cases hok : io.outcome = WalOutcome.ok
    · simp only [Request.run]
      rw [Append_ok_nameToUUID io args false l hok]
      refine ⟨fun n hn => applyEntry_names_mono _ l n hn, ?_⟩
      intro hnd
      rw [applyEntry_nameToUUID]
      split_ifs
      · exact mapKeys_nodup_mapSet _ _ _ hnd
      · exact hnd
    · simp only [Request.run]
      rw [(Append_fail_maps io args false l hok).2.1]
      exact ⟨fun n hn => hn, fun h => h⟩
  | remove io args =>
    simp only [Request.run]
    rw [Remove_nameToUUID]
    exact ⟨fun n hn => hn, fun h => h⟩
  | get args => exact ⟨fun n hn => hn, fun h => h⟩
  | size args => exact ⟨fun n hn => hn, fun h => h⟩
  | listAll => exact ⟨fun n hn => hn, fun h => h⟩

theorem runRequests_names (reqs : List Request) (l : RemoteList) :
    (∀ n ∈ mapKeys l.nameToUUID, n ∈ mapKeys (runRequests reqs l).nameToUUID) ∧
    ((mapKeys l.nameToUUID).Nodup → (mapKeys (runRequests reqs l).nameToUUID).Nodup) := by
  induction reqs generalizing l with
  | nil => exact ⟨fun n hn => hn, fun h => h⟩
  | cons r rs ih =>
    obtain ⟨a, b⟩ := Request_run_names r l
    obtain ⟨a', b'⟩ := ih (r.run l)
    exact ⟨fun n hn => a' n (a n hn), fun h => b' (b h)⟩

theorem appendedNames_registered (reqs : List Request) (l : RemoteList) :
    ∀ n ∈ appendedNames reqs l, n ∈ mapKeys (runRequests reqs l).nameToUUID := by
  induction reqs generalizing l with
  | nil => intro n hn; simp [appendedNames] at hn
  | cons r rs ih =>
    intro n hn
    cases r with
    | append io args =>
      simp only [appendedNames, List.mem_append] at hn
      rcases hn with hn | hn
      · by_cases hs : (Append io args false l).2.2 = none
        · simp only [hs, if_true, List.mem_singleton] at hn
          subst hn
          have hok := Append_success_ok io args false l hs
          apply (runRequests_names rs _).1
          simp only [Request.run]
          rw [Append_ok_nameToUUID io args false l hok]
          exact applyEntry_names_append _ l rfl
        · simp [hs] at hn
      · exact ih _ n hn
    | remove io args => exact ih _ n hn
    | get args => exact ih _ n hn
    | size args => exact ih _ n hn
    | listAll => exact ih _ n hn

/-- C15: no request removes a name from the registry.  After any sequence of
`Append`, `Remove`, `Get`, `Size` and `ListAll` requests, `ListAll` returns no
error, every name it returned before the sequence, and every name that an
`Append` of the sequence succeeded on, whatever its list holds by then; and it
returns no name twice if it did not before (as on the empty store). -/
theorem names_never_unregistered (reqs : List Request) (l : RemoteList) :
    (ListAll (runRequests reqs l)).2 = none ∧
    (∀ n ∈ (ListAll l).1.ListNames, n ∈ (ListAll (runRequests reqs l)).1.ListNames) ∧
    (∀ n ∈ appendedNames reqs l, n ∈ (ListAll (runRequests reqs l)).1.ListNames) ∧
    ((ListAll l).1.ListNames.Nodup → (ListAll (runRequests reqs l)).1.ListNames.Nodup) ∧
    (ListAll (runRequests reqs emptyStore)).1.ListNames.Nodup ∧
    (∀ (io1 io2 : WalIO) (name : String) (v : Int),
      io1.outcome = WalOutcome.ok → io2.outcome = WalOutcome.ok →
      contents l name = none →
      name ∈ (ListAll (runRequests
        [Request.append io1 ⟨name, v⟩, Request.remove io2 ⟨name⟩] l)).1.ListNames ∧
      (Size ⟨name⟩ (runRequests
        [Request.append io1 ⟨name, v⟩, Request.remove io2 ⟨name⟩] l)).1 = 0) := by
  refine ⟨rfl, (runRequests_names reqs l).1, appendedNames_registered reqs l,
    (runRequests_names reqs l).2, (runRequests_names reqs emptyStore).2 (by decide), ?_⟩
  intro io1 io2 name v h1 h2 hnone
  have hreg := (contents_eq_none_iff _ _).1 hnone
  have hA : (Append io1 ⟨name, v⟩ false l).2.2 = none := by
    rw [Append_ok_eq io1 ⟨name, v⟩ false l h1]
  refine ⟨?_, ?_⟩
  · apply appendedNames_registered
    simp [appendedNames, hA]
  · have hEq := Append_ok_eq io1 ⟨name, v⟩ false l h1
    rw [applyEntry_append_none _ l rfl hreg] at hEq
    have hu : mapGet (Append io1 ⟨name, v⟩ false l).1.nameToUUID name = some l.nextUUID := by
      rw [hEq]
      exact mapGet_mapSet_self _ _ _
    have hl : listOf (Append io1 ⟨name, v⟩ false l).1 l.nextUUID = [v] := by
      rw [hEq]
      exact listOf_mapSet_self _ _ _ _ rfl
    have hR := Remove_ok_eq io2 ⟨name⟩ (Append io1 ⟨name, v⟩ false l).1 l.nextUUID [v] h2 hu hl
      (by simp)
    simp only [runRequests, List.foldl_cons, List.foldl_nil, Request.run]
    rw [hR, Size_eq_contents]
    have hc : contents
        { (Append io1 ⟨name, v⟩ false l).1 with
          currentLSN := ((Append io1 ⟨name, v⟩ false l).1.currentLSN + 1) % uint64Mod,
          walFile := (Append io1 ⟨name, v⟩ false l).1.walFile ++
            [WalItem.entry { LSN := ((Append io1 ⟨name, v⟩ false l).1.currentLSN + 1) %
                                uint64Mod,
                             Timestamp := io2.now, Operation := "REMOVE", ListName := name,
                             Value := [v].getD ([v].length - 1) 0 }],
          lists := mapSet (Append io1 ⟨name, v⟩ false l).1.lists l.nextUUID
            ([v].take ([v].length - 1)) } name = some [] := by
      rw [contents_eq_some_iff]
      exact ⟨l.nextUUID, hu, listOf_mapSet_self _ _ _ _ rfl⟩
    simp only at hc ⊢
    rw [hc]
    rfl

/-! ## Counting elements -/

theorem Remove_fail_maps (io : WalIO) (args : RemoveArgs) (l : RemoteList)
    (h : io.outcome ≠ WalOutcome.ok) :
    (Remove io args l).2.2 ≠ none ∧
    (Remove io args l).1.nameToUUID = l.nameToUUID ∧
    (Remove io args l).1.lists = l.lists := by
  cases hreg : mapGet l.nameToUUID args.ListName with
  | none => simp [Remove, hreg]
  | some u =>
    by_cases hne : listOf l u = []
    · simp [Remove, hreg, hne]
    · have hlen : (listOf l u).length ≠ 0 := fun e => hne (List.length_eq_zero.1 e)
      obtain ⟨now, outcome⟩ := io
      cases outcome with
      | ok => exact absurd rfl h
      | marshalFail => simp [Remove, hreg, hlen, writeWAL]
      | syncFail => simp [Remove, hreg, hlen, writeWAL]
      | writeFail torn => cases torn <;> simp [Remove, hreg, hlen, writeWAL]

theorem sizeOf_congr (l l' : RemoteList) (h1 : l'.nameToUUID = l.nameToUUID)
    (h2 : l'.lists = l.lists) (name : String) : sizeOf l' name = sizeOf l name := by
  unfold sizeOf
  rw [contents_congr l l' h1 h2 name]

theorem Size_eq_sizeOf (name : String) (l : RemoteList) :
    Size { ListName := name } l = ((sizeOf l name : Int), none) :=
  Size_eq_contents name l

/-- On any store, a replayed APPEND puts its value at the tail of its own
list. -/
theorem applyEntry_append_self (e : LogEntry) (l : RemoteList)
    (hop : e.Operation = "APPEND") :
    contents (applyEntry e l) e.ListName =
      some ((contents l e.ListName).getD [] ++ [e.Value]) := by
  cases hreg : mapGet l.nameToUUID e.ListName with
  | none =>
    rw [applyEntry_append_none e l hop hreg, contents_eq_some_iff]
    refine ⟨l.nextUUID, mapGet_mapSet_self _ _ _, ?_⟩
    rw [listOf_mapSet_self _ _ _ _ rfl]
    simp [contents, hreg]
  | some u =>
    rw [applyEntry_append_some e l u hop hreg, contents_eq_some_iff]
    refine ⟨u, hreg, ?_⟩
    rw [listOf_mapSet_self _ _ _ _ rfl]
    simp [contents, hreg]

theorem append_size (io : WalIO) (args : AppendArgs) (l : RemoteList) :
    sizeOf (Call.run (Call.append io args) l).1 args.ListName =
      sizeOf l args.ListName +
        (if (Call.run (Call.append io args) l).2 = none then 1 else 0) := by
  simp only [Call.run]
  by_cases hok : io.outcome = WalOutcome.ok
  · have hEq := Append_ok_eq io args false l hok
    have herr : (Append io args false l).2.2 = none := by rw [hEq]
    have hc : contents (Append io args false l).1 args.ListName =
        some ((contents l args.ListName).getD [] ++ [args.Value]) := by
      rw [hEq]
      exact (contents_congr (applyEntry _ l) _ rfl rfl _).trans
        (applyEntry_append_self
          { LSN := (l.currentLSN + 1) % uint64Mod, Timestamp := io.now,
            Operation := "APPEND", ListName := args.ListName, Value := args.Value } l rfl)
    rw [if_pos herr]
    unfold sizeOf
    rw [hc]
    simp
  · obtain ⟨herr, h1, h2⟩ := Append_fail_maps io args false l hok
    rw [if_neg herr, sizeOf_congr l _ h1 h2]
    rfl

theorem remove_size (io : WalIO) (args : RemoveArgs) (l : RemoteList) :
    sizeOf (Call.run (Call.remove io args) l).1 args.ListName +
        (if (Call.run (Call.remove io args) l).2 = none then 1 else 0) =
      sizeOf l args.ListName := by
  simp only [Call.run]
  by_cases hok : io.outcome = WalOutcome.ok
  · cases hreg : mapGet l.nameToUUID args.ListName with
    | none => simp [Remove, hreg]
    | some u =>
      by_cases hne : listOf l u = []
      · simp [Remove, hreg, hne]
      · have hEq := Remove_ok_eq io args l u (listOf l u) hok hreg rfl hne
        have herr : (Remove io args l).2.2 = none := by rw [hEq]
        have hc : contents (Remove io args l).1 args.ListName =
            some ((listOf l u).take ((listOf l u).length - 1)) := by
          rw [hEq, contents_eq_some_iff]
          exact ⟨u, hreg, listOf_mapSet_self _ _ _ _ rfl⟩
        have hl : contents l args.ListName = some (listOf l u) := by
          rw [contents_eq_some_iff]
          exact ⟨u, hreg, rfl⟩
        have hpos : 0 < (listOf l u).length := List.length_pos.2 hne
        rw [if_pos herr]
        unfold sizeOf
        rw [hc, hl]
        simp only [Option.getD_some, List.length_take]
        omega
  · obtain ⟨herr, h1, h2⟩ := Remove_fail_maps io args l hok
    rw [if_neg herr, sizeOf_congr l _ h1 h2]
    rfl

/-- Along calls on one name, the elements gained are the successful appends
and the elements lost the successful removes. -/
theorem sizeOf_runCalls (name : String) (calls : List Call) (l : RemoteList)
    (h : ∀ c ∈ calls, c.listName = name) :
    sizeOf (runCalls calls l) name + removeSuccesses calls l =
      sizeOf l name + appendSuccesses calls l := by
  induction calls generalizing l with
  | nil => rfl
  | cons c cs ih =>
    have hc : c.listName = name := h c (List.mem_cons_self _ _)
    have ih' := ih (c.run l).1 (fun x hx => h x (List.mem_cons_of_mem _ hx))
    rw [runCalls_cons]
    cases c with
    | append io args =>
      simp only [Call.listName] at hc
      have := append_size io args l
      rw [hc] at this
      simp only [appendSuccesses, removeSuccesses]
      omega
    | remove io args =>
      simp only [Call.listName] at hc
      have := remove_size io args l
      rw [hc] at this
      simp only [appendSuccesses, removeSuccesses]
      omega

/-- C18: for every store and every sequence of `Append` and `Remove` calls that
all name the same list, `Size` of that list after the sequence is `Size` before
it, plus the number of `Append` calls that returned no error, minus the number
of `Remove` calls that returned no error. -/
theorem size_accounting (name : String) (calls : List Call) (l : RemoteList)
    (h : ∀ c ∈ calls, c.listName = name) :
    (Size { ListName := name } (runCalls calls l)).2 = none ∧
    (Size { ListName := name } (runCalls calls l)).1 =
      (Size { ListName := name } l).1 + (appendSuccesses calls l : Int) -
        (removeSuccesses calls l : Int) := by
  have hs := sizeOf_runCalls name calls l h
  rw [Size_eq_sizeOf, Size_eq_sizeOf]
  refine ⟨rfl, ?_⟩
  show (sizeOf (runCalls calls l) name : Int) = _
  omega

/-- Witness of C18: three appends and two removes on a new list leave one
element. -/
theorem size_accounting_witness :
    (Size { ListName := "stress" }
      (runCalls [.append ⟨1, .ok⟩ ⟨"stress", 1⟩, .append ⟨2, .ok⟩ ⟨"stress", 2⟩,
        .append ⟨3, .ok⟩ ⟨"stress", 3⟩, .remove ⟨4, .ok⟩ ⟨"stress"⟩,
        .remove ⟨5, .ok⟩ ⟨"stress"⟩] emptyStore)).1 = 1 :=
  (size_accounting "stress"
      [.append ⟨1, .ok⟩ ⟨"stress", 1⟩, .append ⟨2, .ok⟩ ⟨"stress", 2⟩,
        .append ⟨3, .ok⟩ ⟨"stress", 3⟩, .remove ⟨4, .ok⟩ ⟨"stress"⟩,
        .remove ⟨5, .ok⟩ ⟨"stress"⟩] emptyStore (by decide)).2.trans (by decide)

/-! ## Calls of several callers -/

theorem sum_lengths_of_all_nil (threads : List (List Call)) (h : ∀ t ∈ threads, t = []) :
    (threads.map List.length).sum = 0 := by
  induction threads with
  | nil => rfl
  | cons t ts ih =>
    have ht : t = [] := h t (List.mem_cons_self _ _)
    simp only [List.map_cons, List.sum_cons, ht, List.length_nil, Nat.zero_add]
    exact ih (fun x hx => h x (List.mem_cons_of_mem _ hx))

theorem Interleaving_length (threads : List (List Call)) (calls : List Call)
    (h : Interleaving threads calls) : calls.length = (threads.map List.length).sum := by
  induction h with
  | done threads h => rw [sum_lengths_of_all_nil threads h]; rfl
  | step pre post c t rest _ ih =>
    simp only [List.length_cons, ih, List.map_append, List.map_cons, List.sum_append,
      List.sum_cons]
    omega

theorem Interleaving_mem (threads : List (List Call)) (calls : List Call)
    (h : Interleaving threads calls) : ∀ c ∈ calls, ∃ t ∈ threads, c ∈ t := by
  induction h with
  | done threads h => intro c hc; simp at hc
  | step pre post c t rest _ ih =>
    intro x hx
    rcases List.mem_cons.1 hx with rfl | hx
    · exact ⟨x :: t, by simp, List.mem_cons_self _ _⟩
    · obtain ⟨t', ht', hxt'⟩ := ih x hx
      rcases List.mem_append.1 ht' with hp | hp
      · exact ⟨t', List.mem_append.2 (Or.inl hp), hxt'⟩
      · rcases List.mem_cons.1 hp with rfl | hp
        · exact ⟨c :: t', by simp, List.mem_cons_of_mem _ hxt'⟩
        · exact ⟨t', List.mem_append.2 (Or.inr (List.mem_cons_of_mem _ hp)), hxt'⟩

theorem sum_lengths_of_all_eq (threads : List (List Call)) (M : Nat)
    (h : ∀ t ∈ threads, t.length = M) : (threads.map List.length).sum = threads.length * M := by
  induction threads with
  | nil => simp
  | cons t ts ih =>
    simp only [List.map_cons, List.sum_cons, List.length_cons,
      h t (List.mem_cons_self _ _), ih (fun x hx => h x (List.mem_cons_of_mem _ hx))]
    rw [Nat.succ_mul]
    omega

/-- Successful appends to one name, in any number and order, each add one
element. -/
theorem sizeOf_successful_appends (name : String) (calls : List Call) (l : RemoteList)
    (h : ∀ c ∈ calls, ∃ now v, c = Call.append ⟨now, WalOutcome.ok⟩ ⟨name, v⟩) :
    sizeOf (runCalls calls l) name = sizeOf l name + calls.length := by
  induction calls generalizing l with
  | nil => rfl
  | cons c cs ih =>
    obtain ⟨now, v, rfl⟩ := h c (List.mem_cons_self _ _)
    rw [runCalls_cons, ih _ (fun x hx => h x (List.mem_cons_of_mem _ hx))]
    have hs := append_size ⟨now, WalOutcome.ok⟩ ⟨name, v⟩ l
    have herr : (Call.run (Call.append ⟨now, WalOutcome.ok⟩ ⟨name, v⟩) l).2 = none := by
      simp only [Call.run]
      rw [Append_ok_eq _ _ false l rfl]
    rw [if_pos herr] at hs
    simp only at hs
    rw [hs, List.length_cons]
    omega

/-- Whole calls served one at a time: let K callers each issue M `Append`
calls to the same list, every log write succeeding.  In whatever order whole
calls are served (each caller's calls in the caller's order), `Size` of the
list afterwards is `Size` before plus K times M. -/
theorem serialized_appends_all_counted (name : String) (threads : List (List Call))
    (M : Nat) (calls : List Call) (l : RemoteList)
    (hthreads : ∀ t ∈ threads, t.length = M ∧
      ∀ c ∈ t, ∃ now v, c = Call.append ⟨now, WalOutcome.ok⟩ ⟨name, v⟩)
    (hserve : Interleaving threads calls) :
    Size { ListName := name } (runCalls calls l) =
      ((Size { ListName := name } l).1 + ((threads.length * M : Nat) : Int), none) := by
  have hall : ∀ c ∈ calls, ∃ now v, c = Call.append ⟨now, WalOutcome.ok⟩ ⟨name, v⟩ := by
    intro c hc
    obtain ⟨t, ht, hct⟩ := Interleaving_mem threads calls hserve c hc
    exact (hthreads t ht).2 c hct
  have hlen : calls.length = threads.length * M := by
    rw [Interleaving_length threads calls hserve]
    exact sum_lengths_of_all_eq threads M (fun t ht => (hthreads t ht).1)
  rw [Size_eq_sizeOf, Size_eq_sizeOf, sizeOf_successful_appends name calls l hall, hlen]
  simp

/-! ## Snapshot files -/

theorem stringLE_total (a b : String) : stringLE a b ∨ stringLE b a :=
  le_total a.data b.data

theorem stringLE_trans (a b c : String) (h1 : stringLE a b) (h2 : stringLE b c) :
    stringLE a c :=
  le_trans (α := List Char) h1 h2

theorem stringLE_antisymm (a b : String) (h1 : stringLE a b) (h2 : stringLE b a) : a = b := by
  have : a.data = b.data := le_antisymm (α := List Char) h1 h2
  cases a
  cases b
  simp only at this
  rw [this]

theorem sortStrings_perm (names : List String) : (sortStrings names).Perm names :=
  List.perm_insertionSort stringLE names

theorem sortStrings_sorted (names : List String) :
    (sortStrings names).Pairwise stringLE :=
  @List.sorted_insertionSort String stringLE _ ⟨stringLE_total⟩ ⟨stringLE_trans⟩ names

theorem snapshotsToRemove_subset (keepCount : Nat) (names : List String) (r : String)
    (h : r ∈ snapshotsToRemove keepCount names) : r ∈ snapshotNames names := by
  unfold snapshotsToRemove at h
  simp only at h
  split_ifs at h
  · simp at h
  · exact (sortStrings_perm _).subset (List.mem_of_mem_take h)

theorem snapshotNames_clean (keepCount : Nat) (names : List String) :
    snapshotNames (cleanOldSnapshots keepCount names) =
      (snapshotNames names).filter
        (fun name => decide (name ∉ snapshotsToRemove keepCount names)) := by
  simp only [snapshotNames, cleanOldSnapshots, List.filter_filter]
  congr 1
  funext x
  exact Bool.and_comm _ _

theorem snapshotsToRemove_eq_take (keepCount : Nat) (names : List String) :
    snapshotsToRemove keepCount names =
      (sortStrings (snapshotNames names)).take ((snapshotNames names).length - keepCount) := by
  unfold snapshotsToRemove
  simp only
  split_ifs with h
  · rw [Nat.sub_eq_zero_of_le h, List.take_zero]
  · rfl

theorem filter_not_mem_take (S : List String) (k : Nat) (hS : S.Nodup) :
    S.filter (fun name => decide (name ∉ S.take k)) = S.drop k := by
  have hsplit := List.take_append_drop k S
  generalize S.take k = T at hsplit
  generalize S.drop k = D at hsplit
  subst hsplit
  have hdisj := (List.nodup_append.1 hS).2.2
  rw [List.filter_append]
  have h1 : List.filter (fun name => decide (name ∉ T)) T = [] := by
    rw [List.filter_eq_nil_iff]
    intro x hx
    simp [hx]
  have h2 : List.filter (fun name => decide (name ∉ T)) D = D := by
    rw [List.filter_eq_self]
    intro x hx
    simp only [decide_eq_true_eq]
    exact fun hx' => hdisj hx' hx
  rw [h1, h2, List.nil_append]

/-- On a listing without repeated names the snapshot files left by the cleanup
are, in sorted order, the last `keepCount` of the sorted snapshot names. -/
theorem sortStrings_clean (keepCount : Nat) (names : List String) (hnd : names.Nodup) :
    sortStrings (snapshotNames (cleanOldSnapshots keepCount names)) =
      (sortStrings (snapshotNames names)).drop ((snapshotNames names).length - keepCount) := by
  have hS : (sortStrings (snapshotNames names)).Nodup :=
    (sortStrings_perm _).nodup_iff.2 (hnd.filter _)
  have hfilter : (sortStrings (snapshotNames names)).filter
      (fun name => decide (name ∉ snapshotsToRemove keepCount names)) =
      (sortStrings (snapshotNames names)).drop ((snapshotNames names).length - keepCount) := by
    rw [snapshotsToRemove_eq_take]
    exact filter_not_mem_take _ _ hS
  have hperm : (sortStrings (snapshotNames (cleanOldSnapshots keepCount names))).Perm
      ((sortStrings (snapshotNames names)).drop ((snapshotNames names).length - keepCount)) := by
    rw [← hfilter, snapshotNames_clean]
    exact (sortStrings_perm _).trans ((sortStrings_perm (snapshotNames names)).filter _).symm
  have hsorted : ((sortStrings (snapshotNames names)).drop
      ((snapshotNames names).length - keepCount)).Pairwise stringLE :=
    (sortStrings_sorted _).sublist (List.drop_sublist _ _)
  exact @List.eq_of_perm_of_sorted String stringLE ⟨stringLE_antisymm⟩ _ _ hperm
    (sortStrings_sorted _) hsorted

/-- C16: on every listing of `data/`, after `cleanOldSnapshots(3)` with all
removals succeeding, at most 3 snapshot files are left; what was removed are
snapshot files, each of which sorts, as a file name, at or before every
snapshot file that is left; nothing is removed when there are 3 snapshot files
or fewer; and a file whose name is not `snapshot_*.json` is never removed.
The files removed are those among the first `n - 3` of the `n` snapshot names
in sorted order and no file is added; on a listing without repeated names, as
a directory gives, the snapshot files left are the last 3 of the sorted
snapshot names (all of them when there are fewer), so exactly
`min 3 n` are left. -/
theorem snapshot_retention (names : List String) :
    (snapshotNames (cleanOldSnapshots 3 names)).length ≤ 3 ∧
    (∀ r ∈ snapshotsToRemove 3 names, ∀ k ∈ snapshotNames (cleanOldSnapshots 3 names),
      stringLE r k) ∧
    (∀ n ∈ names, n ∉ cleanOldSnapshots 3 names ↔ n ∈ snapshotsToRemove 3 names) ∧
    (∀ r ∈ snapshotsToRemove 3 names, r ∈ snapshotNames names) ∧
    ((snapshotNames names).length ≤ 3 → cleanOldSnapshots 3 names = names) ∧
    (∀ n ∈ names, (hasPrefix n "snapshot_" && hasSuffix n ".json") = false →
      n ∈ cleanOldSnapshots 3 names) ∧
    (cleanOldSnapshots 3 names).Sublist names ∧
    (∀ n ∈ names, n ∉ cleanOldSnapshots 3 names ↔
      n ∈ (sortStrings (snapshotNames names)).take ((snapshotNames names).length - 3)) ∧
    (∀ r ∈ names, r ∉ cleanOldSnapshots 3 names →
      r ∈ snapshotNames names ∧
      ∀ k ∈ snapshotNames (cleanOldSnapshots 3 names), stringLE r k) ∧
    (names.Nodup →
      sortStrings (snapshotNames (cleanOldSnapshots 3 names)) =
        (sortStrings (snapshotNames names)).drop ((snapshotNames names).length - 3)) ∧
    (names.Nodup →
      (snapshotNames (cleanOldSnapshots 3 names)).length =
        min 3 (snapshotNames names).length) := by
  have hmem : ∀ n ∈ names, n ∉ cleanOldSnapshots 3 names ↔ n ∈ snapshotsToRemove 3 names := by
    intro n hn
    simp [cleanOldSnapshots, hn]
  have hord : ∀ r ∈ snapshotsToRemove 3 names,
      ∀ k ∈ snapshotNames (cleanOldSnapshots 3 names), stringLE r k := by
    intro r hr k hk
    rw [snapshotNames_clean, List.mem_filter] at hk
    have hk2 : k ∉ snapshotsToRemove 3 names := by simpa using hk.2
    rw [snapshotsToRemove_eq_take] at hr hk2
    have hkS : k ∈ sortStrings (snapshotNames names) :=
      (sortStrings_perm _).symm.subset hk.1
    rw [← List.take_append_drop ((snapshotNames names).length - 3)
      (sortStrings (snapshotNames names)), List.mem_append] at hkS
    have hkD : k ∈ (sortStrings (snapshotNames names)).drop
        ((snapshotNames names).length - 3) := by
      rcases hkS with h | h
      · exact absurd h hk2
      · exact h
    have hs := sortStrings_sorted (snapshotNames names)
    rw [← List.take_append_drop ((snapshotNames names).length - 3)
      (sortStrings (snapshotNames names)), List.pairwise_append] at hs
    exact hs.2.2 r hr k hkD
  have hlen : (snapshotNames (cleanOldSnapshots 3 names)).length ≤ 3 := by
    rw [snapshotNames_clean]
    have hperm := ((sortStrings_perm (snapshotNames names)).filter
      (fun name => decide (name ∉ snapshotsToRemove 3 names))).length_eq
    rw [← hperm]
    have hsplit := List.take_append_drop ((snapshotNames names).length - 3)
      (sortStrings (snapshotNames names))
    rw [← hsplit, List.filter_append]
    have hnil : List.filter (fun name => decide (name ∉ snapshotsToRemove 3 names))
        (List.take ((snapshotNames names).length - 3)
          (sortStrings (snapshotNames names))) = [] := by
      rw [List.filter_eq_nil_iff]
      intro x hx
      rw [snapshotsToRemove_eq_take]
      simp [hx]
    rw [hnil, List.nil_append]
    refine le_trans (List.length_filter_le _ _) ?_
    rw [List.length_drop, (sortStrings_perm _).length_eq]
    omega
  refine ⟨hlen, hord, hmem, snapshotsToRemove_subset 3 names, ?_, ?_, ?_, ?_, ?_, ?_, ?_⟩
  · intro hle
    have hT : snapshotsToRemove 3 names = [] := by
      simp only [snapshotsToRemove, hle, if_true]
    simp [cleanOldSnapshots, hT]
  · intro n hn hnot
    simp only [cleanOldSnapshots, List.mem_filter, hn, true_and, decide_eq_true_eq]
    intro hr
    have := snapshotsToRemove_subset 3 names n hr
    simp only [snapshotNames, List.mem_filter] at this
    rw [hnot] at this
    exact absurd this.2 (by simp)
  · exact List.filter_sublist _
  · intro n hn
    rw [hmem n hn, snapshotsToRemove_eq_take]
  · intro r hr hnot
    have hrem := (hmem r hr).1 hnot
    exact ⟨snapshotsToRemove_subset 3 names r hrem, hord r hrem⟩
  · exact sortStrings_clean 3 names
  · intro hnd
    have h := congrArg List.length (sortStrings_clean 3 names hnd)
    rw [(sortStrings_perm _).length_eq, List.length_drop, (sortStrings_perm _).length_eq] at h
    rw [h]
    omega

/-- Witness of C16: of five snapshot files, listed out of order beside the log
and a temporary file, the two oldest are removed. -/
theorem snapshot_retention_witness :
    cleanOldSnapshots 3 ["snapshot_5.json", "snapshot_2.json", "wal.log", "snapshot_4.json",
        "snapshot_9.json.tmp", "snapshot_1.json", "snapshot_3.json"] =
      ["snapshot_5.json", "wal.log", "snapshot_4.json", "snapshot_9.json.tmp",
        "snapshot_3.json"] ∧
    (snapshotNames (cleanOldSnapshots 3 ["snapshot_5.json", "snapshot_2.json", "wal.log",
        "snapshot_4.json", "snapshot_9.json.tmp", "snapshot_1.json",
        "snapshot_3.json"])).length = 3 :=
  ⟨by decide,
    ((snapshot_retention ["snapshot_5.json", "snapshot_2.json", "wal.log",
        "snapshot_4.json", "snapshot_9.json.tmp", "snapshot_1.json",
        "snapshot_3.json"]).2.2.2.2.2.2.2.2.2.2 (by decide)).trans (by decide)⟩

/-! ## Snapshot names and creation times -/

theorem toDigitsCore_eq_fixed (w : Nat) : ∀ (fuel n : Nat) (ds : List Char),
    w < fuel → 10 ^ w ≤ n → n < 10 ^ (w + 1) →
    Nat.toDigitsCore 10 fuel n ds = fixedDigits (w + 1) n ++ ds := by
  induction w with
  | zero =>
    intro fuel n ds hf hlo hhi
    obtain ⟨f, rfl⟩ : ∃ f, fuel = f + 1 := ⟨fuel - 1, by omega⟩
    have h0 : n / 10 = 0 := by omega
    simp [Nat.toDigitsCore, h0, fixedDigits]
  | succ w ih =>
    intro fuel n ds hf hlo hhi
    obtain ⟨f, rfl⟩ : ∃ f, fuel = f + 1 := ⟨fuel - 1, by omega⟩
    have hlo' : 10 ^ w ≤ n / 10 := by
      rw [Nat.le_div_iff_mul_le (by decide)]
      calc 10 ^ w * 10 = 10 ^ (w + 1) := by ring
        _ ≤ n := hlo
    have hhi' : n / 10 < 10 ^ (w + 1) := by
      rw [Nat.div_lt_iff_lt_mul (by decide)]
      calc n < 10 ^ (w + 1 + 1) := hhi
        _ = 10 ^ (w + 1) * 10 := by ring
    have hne : n / 10 ≠ 0 := by
      have : 0 < 10 ^ w := by positivity
      omega
    rw [Nat.toDigitsCore]
    simp only [hne, if_false]
    rw [ih f (n / 10) _ (by omega) hlo' hhi']
    conv_rhs => rw [fixedDigits]
    simp

theorem toDigits_eq_fixed (w n : Nat) (hlo : 10 ^ w ≤ n) (hhi : n < 10 ^ (w + 1)) :
    Nat.toDigits 10 n = fixedDigits (w + 1) n := by
  have hw : w < 10 ^ w := Nat.lt_pow_self (by decide) w
  rw [Nat.toDigits, toDigitsCore_eq_fixed w (n + 1) n [] (by omega) hlo hhi, List.append_nil]

theorem fixedDigits_length (w n : Nat) : (fixedDigits w n).length = w := by
  induction w generalizing n with
  | zero => rfl
  | succ w ih => simp [fixedDigits, ih]

theorem lex_append_of_lex {α : Type} (r : α → α → Prop) (xs ys : List α)
    (h : List.Lex r xs ys) (hlen : xs.length = ys.length) (s t : List α) :
    List.Lex r (xs ++ s) (ys ++ t) := by
  induction h with
  | nil => simp at hlen
  | cons _ ih =>
    simp only [List.length_cons, Nat.add_right_cancel_iff] at hlen
    exact List.Lex.cons (ih hlen)
  | rel hr => exact List.Lex.rel hr

theorem digitChar_lt (x y : Nat) (hy : y < 10) (h : x < y) :
    Nat.digitChar x < Nat.digitChar y := by
  have key : ∀ d e : Fin 10, d < e → Nat.digitChar d.val < Nat.digitChar e.val := by decide
  exact key ⟨x, by omega⟩ ⟨y, hy⟩ h

theorem fixedDigits_lt (w : Nat) : ∀ a b : Nat, a < b → b < 10 ^ w →
    List.Lex (fun x y : Char => x < y) (fixedDigits w a) (fixedDigits w b) := by
  induction w with
  | zero =>
    intro a b hab hb
    simp at hb
    omega
  | succ w ih =>
    intro a b hab hb
    have hb' : b / 10 < 10 ^ w := by
      rw [Nat.div_lt_iff_lt_mul (by decide)]
      calc b < 10 ^ (w + 1) := hb
        _ = 10 ^ w * 10 := by ring
    simp only [fixedDigits]
    by_cases hq : a / 10 < b / 10
    · exact lex_append_of_lex _ _ _ (ih _ _ hq hb')
        (by rw [fixedDigits_length, fixedDigits_length]) _ _
    · have heq : a / 10 = b / 10 := by omega
      have hr : a % 10 < b % 10 := by omega
      rw [heq]
      exact List.Lex.append_left _
        ((List.Lex.singleton_iff _ _).2 (digitChar_lt _ _ (Nat.mod_lt _ (by decide)) hr)) _

theorem snapshotFileName_data (n : Nat) :
    (snapshotFileName (n : Int)).data =
      "snapshot_".data ++ (Nat.toDigits 10 n ++ ".json".data) := by
  simp [snapshotFileName, String.data_append, toString, Int.repr, Nat.repr, List.asString]

theorem snapshotFileName_le (w a b : Nat) (ha : 10 ^ w ≤ a) (hab : a ≤ b)
    (hb : b < 10 ^ (w + 1)) :
    stringLE (snapshotFileName (a : Int)) (snapshotFileName (b : Int)) := by
  unfold stringLE
  rw [snapshotFileName_data, snapshotFileName_data,
    toDigits_eq_fixed w a ha (by omega), toDigits_eq_fixed w b (by omega) hb]
  rcases Nat.eq_or_lt_of_le hab with rfl | hlt
  · exact le_refl _
  · apply le_of_lt
    show List.Lex (fun x y : Char => x < y) _ _
    exact List.Lex.append_left _
      (lex_append_of_lex _ _ _ (fixedDigits_lt (w + 1) a b hlt hb)
        (by rw [fixedDigits_length, fixedDigits_length]) _ _) _

theorem snapshotFileName_isSnapshot (t : Int) :
    (hasPrefix (snapshotFileName t) "snapshot_" &&
      hasSuffix (snapshotFileName t) ".json") = true := by
  have h1 : hasPrefix (snapshotFileName t) "snapshot_" = true := by
    unfold hasPrefix
    rw [List.isPrefixOf_iff_prefix]
    simp only [snapshotFileName, String.data_append, List.append_assoc]
    exact List.prefix_append _ _
  have h2 : hasSuffix (snapshotFileName t) ".json" = true := by
    unfold hasSuffix
    rw [List.isSuffixOf_iff_suffix]
    simp only [snapshotFileName, String.data_append]
    exact List.suffix_append _ _
  rw [h1, h2]
  rfl

theorem le_getLast_of_pairwise {α : Type} (R : α → α → Prop) (hrefl : ∀ a, R a a)
    (L : List α) (hne : L ≠ []) (hs : L.Pairwise R) : ∀ x ∈ L, R x (L.getLast hne) := by
  intro x hx
  have hsplit := List.dropLast_append_getLast hne
  rw [← hsplit, List.pairwise_append] at hs
  rw [← hsplit, List.mem_append] at hx
  rcases hx with hx | hx
  · exact hs.2.2 x hx _ (by simp)
  · simp only [List.mem_singleton] at hx
    rw [hx]
    exact hrefl _

theorem snapshotFileName_le_int (w : Nat) (a b : Int) (ha : (10 : Int) ^ w ≤ a)
    (hab : a ≤ b) (hb : b < (10 : Int) ^ (w + 1)) :
    stringLE (snapshotFileName a) (snapshotFileName b) := by
  have hpos : (0 : Int) ≤ (10 : Int) ^ w := by positivity
  obtain ⟨m, rfl⟩ := Int.eq_ofNat_of_zero_le (le_trans hpos ha)
  obtain ⟨n, rfl⟩ := Int.eq_ofNat_of_zero_le (le_trans (le_trans hpos ha) hab)
  exact snapshotFileName_le w m n (by exact_mod_cast ha) (by exact_mod_cast hab)
    (by exact_mod_cast hb)

/-- C17 as stated fails: of the snapshots created at Unix times 999999999 and
1000000000, `findLatestSnapshot` returns the older one, whose name is the
greater string. -/
theorem shorter_numeral_sorts_last :
    findLatestSnapshot
      ⟨[(snapshotFileName 999999999, SnapshotFile.undecodable),
        (snapshotFileName 1000000000, SnapshotFile.undecodable)], WalFile.absent⟩ =
      some (snapshotFileName 999999999) ∧
    snapshotFileName 999999999 ≠ snapshotFileName 1000000000 := by
  decide

/-- C17, amended: for every directory whose snapshot files are named
`snapshot_<t>.json` after creation times `t`, at least one, that all have the
same number of decimal digits (all lie between `10 ^ w` and `10 ^ (w + 1)`, as
the Unix times from September 2001 to November 2286 do for `w = 9`),
`findLatestSnapshot` returns the file with the greatest `t`. -/
theorem newest_snapshot_by_name (d : DataDir) (ts : List Int) (w : Nat)
    (hfiles : snapshotNames (d.files.map Prod.fst) = ts.map snapshotFileName)
    (hrange : ∀ t ∈ ts, (10 : Int) ^ w ≤ t ∧ t < (10 : Int) ^ (w + 1))
    (t : Int) (ht : t ∈ ts) (hmax : ∀ t' ∈ ts, t' ≤ t) :
    findLatestSnapshot d = some (snapshotFileName t) := by
  have hmem : snapshotFileName t ∈ ts.map snapshotFileName := List.mem_map.2 ⟨t, ht, rfl⟩
  have hne : sortStrings (ts.map snapshotFileName) ≠ [] := by
    intro h
    have := (sortStrings_perm (ts.map snapshotFileName)).symm.subset hmem
    rw [h] at this
    simp at this
  have hlen : ¬ (ts.map snapshotFileName).length = 0 := by
    intro h
    rw [List.length_eq_zero] at h
    rw [h] at hmem
    simp at hmem
  unfold findLatestSnapshot
  simp only [hfiles, hlen, if_false]
  rw [List.getLast?_eq_getLast _ hne]
  congr 1
  have hg := List.getLast_mem hne
  obtain ⟨t', ht', hgt⟩ :=
    List.mem_map.1 ((sortStrings_perm (ts.map snapshotFileName)).subset hg)
  apply stringLE_antisymm
  · rw [← hgt]
    exact snapshotFileName_le_int w t' t (hrange t' ht').1 (hmax t' ht') (hrange t ht).2
  · exact le_getLast_of_pairwise stringLE (fun a => le_refl a.data) _ hne
      (sortStrings_sorted _) _ ((sortStrings_perm _).symm.subset hmem)

/-- Witness of C17 amended: three snapshots with ten-digit creation times next
to a temporary file. -/
theorem newest_snapshot_by_name_witness :
    findLatestSnapshot
      ⟨[(snapshotFileName 1700000120, SnapshotFile.undecodable),
        (snapshotFileName 1700000360, SnapshotFile.undecodable),
        ("snapshot_1700000480.json.tmp", SnapshotFile.undecodable),
        (snapshotFileName 1700000240, SnapshotFile.undecodable)], WalFile.absent⟩ =
      some (snapshotFileName 1700000360) :=
  newest_snapshot_by_name _ [1700000120, 1700000360, 1700000240] 9 (by decide)
    (by decide) 1700000360 (by decide) (by decide)


/-! ## The current LSN after recovery -/

theorem foldl_applyEntry_currentLSN_last (es : List LogEntry) (l : RemoteList) :
    (es.foldl (fun acc e => applyEntry e acc) l).currentLSN =
      match es.getLast? with
      | some e => e.LSN
      | none => l.currentLSN := by
  induction es generalizing l with
  | nil => rfl
  | cons e es ih =>
    simp only [List.foldl_cons]
    rw [ih]
    cases es with
    | nil => rfl
    | cons e' es' =>
      rw [List.getLast?_cons_cons, List.getLast?_eq_getLast (e' :: es') (by simp)]

theorem Recover_currentLSN (d : DataDir) (newest : Option SnapshotData)
    (items : List WalItem) (l : RemoteList)
    (hsnap : newestSnapshotFile d = newest.map SnapshotFile.valid)
    (hwal : d.wal = WalFile.present items) (hl : l.currentLSN = 0) :
    (Recover d l).2 = none ∧
    (Recover d l).1.currentLSN =
      match (appliedRecords (snapshotLSNOf newest) items).getLast? with
      | some e => e.LSN
      | none => snapshotLSNOf newest := by
  cases newest with
  | none =>
    rw [Recover_no_snapshot d l items hsnap hwal, replayWAL_eq_applied]
    refine ⟨rfl, ?_⟩
    exact (foldl_applyEntry_currentLSN_last _ _).trans (by rw [hl]; rfl)
  | some snapshot =>
    rw [Recover_valid d l snapshot items hsnap hwal, replayWAL_eq_applied]
    refine ⟨rfl, ?_⟩
    exact (foldl_applyEntry_currentLSN_last _ _).trans
      (by rw [seedFromSnapshot_currentLSN]; rfl)

theorem writeWAL_ok_record (io : WalIO) (operation listName : String) (value : Int)
    (l : RemoteList) (hio : io.outcome = WalOutcome.ok) :
    writeWAL io operation listName value l =
      ({ l with
          currentLSN := (l.currentLSN + 1) % uint64Mod,
          walFile := l.walFile ++
            [WalItem.entry { LSN := (l.currentLSN + 1) % uint64Mod, Timestamp := io.now,
                             Operation := operation, ListName := listName,
                             Value := value }] }, true) := by
  obtain ⟨now, outcome⟩ := io
  simp only at hio
  subst hio
  rfl

/-- C21 as stated fails at the end of the `uint64` range: a log whose two
records carry the LSNs 0 and 2^64 - 1, in increasing order, is recovered to the
current LSN 2^64 - 1, and the increment in `writeWAL` wraps, so the first write
after recovery is logged with LSN 0, the LSN of the first record of the log. -/
theorem first_write_reuses_lsn_at_uint64_end :
    (decodablePrefix [.entry ⟨0, 1, "APPEND", "x", 10⟩,
        .entry ⟨18446744073709551615, 2, "APPEND", "x", 20⟩]).Pairwise
      (fun a b => a.LSN < b.LSN) ∧
    (Recover ⟨[], .present [.entry ⟨0, 1, "APPEND", "x", 10⟩,
        .entry ⟨18446744073709551615, 2, "APPEND", "x", 20⟩]⟩ emptyStore).2 = none ∧
    (Recover ⟨[], .present [.entry ⟨0, 1, "APPEND", "x", 10⟩,
        .entry ⟨18446744073709551615, 2, "APPEND", "x", 20⟩]⟩ emptyStore).1.currentLSN =
      18446744073709551615 ∧
    (writeWAL ⟨3, .ok⟩ "APPEND" "x" 30
      (Recover ⟨[], .present [.entry ⟨0, 1, "APPEND", "x", 10⟩,
        .entry ⟨18446744073709551615, 2, "APPEND", "x", 20⟩]⟩ emptyStore).1).1.walFile =
      [.entry ⟨0, 3, "APPEND", "x", 30⟩] := by
  decide

/-- C21, amended: let the newest snapshot decode (or be missing) and the log be
readable, and run `Recover` on a store whose current LSN is 0, as
`NewRemoteList` builds it.  `Recover` returns no error and the current LSN is
the LSN of the last replayed record, or the LSN of the snapshot when no record
is replayed, or 0 when there is no snapshot either.  If the LSNs of the
decodable records increase strictly, the current LSN is at least the LSN of
the snapshot and the LSN of every decodable record; so, when the current LSN
is below the last `uint64` value, the record of the next log write carries the
current LSN plus one, which is greater than all of them. -/
theorem lsn_after_recovery (d : DataDir) (newest : Option SnapshotData)
    (items : List WalItem) (l : RemoteList)
    (hsnap : newestSnapshotFile d = newest.map SnapshotFile.valid)
    (hwal : d.wal = WalFile.present items) (hl : l.currentLSN = 0) :
    (Recover d l).2 = none ∧
    ((Recover d l).1.currentLSN =
      match (appliedRecords (snapshotLSNOf newest) items).getLast? with
      | some e => e.LSN
      | none => snapshotLSNOf newest) ∧
    (newest = none → appliedRecords 0 items = [] → (Recover d l).1.currentLSN = 0) ∧
    ((decodablePrefix items).Pairwise (fun a b => a.LSN < b.LSN) →
      snapshotLSNOf newest ≤ (Recover d l).1.currentLSN ∧
      (∀ e ∈ decodablePrefix items, e.LSN ≤ (Recover d l).1.currentLSN) ∧
      ((Recover d l).1.currentLSN + 1 < uint64Mod →
        ∀ (io : WalIO) (operation listName : String) (value : Int),
          io.outcome = WalOutcome.ok →
          (writeWAL io operation listName value (Recover d l).1).1.walFile =
            (Recover d l).1.walFile ++
              [WalItem.entry { LSN := (Recover d l).1.currentLSN + 1, Timestamp := io.now,
                               Operation := operation, ListName := listName,
                               Value := value }] ∧
          snapshotLSNOf newest < (Recover d l).1.currentLSN + 1 ∧
          ∀ e ∈ decodablePrefix items, e.LSN < (Recover d l).1.currentLSN + 1)) := by
  obtain ⟨herr, hcur⟩ := Recover_currentLSN d newest items l hsnap hwal hl
  refine ⟨herr, hcur, ?_, ?_⟩
  · intro hn hA
    subst hn
    rw [hcur]
    show (match (appliedRecords 0 items).getLast? with
      | some e => e.LSN
      | none => 0) = 0
    rw [hA]
    rfl
  · intro hinc
    have hge : snapshotLSNOf newest ≤ (Recover d l).1.currentLSN ∧
        ∀ e ∈ decodablePrefix items, e.LSN ≤ (Recover d l).1.currentLSN := by
      rw [hcur]
      by_cases hA : appliedRecords (snapshotLSNOf newest) items = []
      · rw [hA]
        refine ⟨Nat.le_refl _, ?_⟩
        intro e he
        by_contra hlt
        have hmem : e ∈ appliedRecords (snapshotLSNOf newest) items := by
          unfold appliedRecords
          rw [List.mem_filter]
          exact ⟨he, by simpa using Nat.lt_of_not_le hlt⟩
        rw [hA] at hmem
        simp at hmem
      · rw [List.getLast?_eq_getLast _ hA]
        have hlast := List.getLast_mem hA
        have hlast' := hlast
        unfold appliedRecords at hlast'
        rw [List.mem_filter] at hlast'
        have hs : snapshotLSNOf newest <
            ((appliedRecords (snapshotLSNOf newest) items).getLast hA).LSN :=
          of_decide_eq_true hlast'.2
        have hsorted : (appliedRecords (snapshotLSNOf newest) items).Pairwise
            (fun a b => a.LSN ≤ b.LSN) := by
          unfold appliedRecords
          exact (hinc.imp (fun h => Nat.le_of_lt h)).filter _
        refine ⟨Nat.le_of_lt hs, ?_⟩
        intro e he
        by_cases hlt : snapshotLSNOf newest < e.LSN
        · have hmem : e ∈ appliedRecords (snapshotLSNOf newest) items := by
            unfold appliedRecords
            rw [List.mem_filter]
            exact ⟨he, by simpa using hlt⟩
          exact le_getLast_of_pairwise (fun a b : LogEntry => a.LSN ≤ b.LSN)
            (fun a => Nat.le_refl _) _ hA hsorted e hmem
        · exact Nat.le_trans (Nat.le_of_not_lt hlt) (Nat.le_of_lt hs)
    refine ⟨hge.1, hge.2, ?_⟩
    intro hb io operation listName value hio
    refine ⟨?_, Nat.lt_succ_of_le hge.1, fun e he => Nat.lt_succ_of_le (hge.2 e he)⟩
    rw [writeWAL_ok_record io operation listName value _ hio, Nat.mod_eq_of_lt hb]

/-- Witness of C21: a snapshot at LSN 2 and a log holding the records 2 to 4;
the current LSN after recovery is 4 and the next write is record 5. -/
theorem lsn_after_recovery_witness :
    (Recover ⟨[("snapshot_100.json", .valid ⟨2, 100, [("x", [10, 20])]⟩)],
        .present [.entry ⟨2, 2, "APPEND", "x", 20⟩, .entry ⟨3, 3, "APPEND", "x", 30⟩,
                  .entry ⟨4, 4, "REMOVE", "x", 30⟩]⟩ emptyStore).1.currentLSN = 4 ∧
    (writeWAL ⟨5, .ok⟩ "APPEND" "x" 7
      (Recover ⟨[("snapshot_100.json", .valid ⟨2, 100, [("x", [10, 20])]⟩)],
        .present [.entry ⟨2, 2, "APPEND", "x", 20⟩, .entry ⟨3, 3, "APPEND", "x", 30⟩,
                  .entry ⟨4, 4, "REMOVE", "x", 30⟩]⟩ emptyStore).1).1.walFile =
      [.entry ⟨5, 5, "APPEND", "x", 7⟩] :=
  have h := lsn_after_recovery
      ⟨[("snapshot_100.json", .valid ⟨2, 100, [("x", [10, 20])]⟩)],
        .present [.entry ⟨2, 2, "APPEND", "x", 20⟩, .entry ⟨3, 3, "APPEND", "x", 30⟩,
                  .entry ⟨4, 4, "REMOVE", "x", 30⟩]⟩
      (some ⟨2, 100, [("x", [10, 20])]⟩) _ emptyStore (by decide) rfl rfl
  ⟨h.2.1.trans (by decide),
    (((h.2.2.2 (by decide)).2.2 (by decide)) ⟨5, .ok⟩ "APPEND" "x" 7 rfl).1.trans
      (by decide)⟩


/-! ## The registry and the list table stay consistent -/

theorem recoverWAL_WF (s : Nat) (wal : WalFile) (l : RemoteList) (h : WF l) :
    WF (recoverWAL s wal l).1 := by
  cases wal with
  | absent => exact h
  | unreadable => exact h
  | present items => exact replayWAL_WF s items l h

/-- The store `Recover` leaves satisfies the invariant when it starts from a
consistent store with no registered name and every snapshot holds each name
once, as a decoded Go map does. -/
theorem Recover_WF (d : DataDir) (l : RemoteList) (h : WF l) (hempty : l.nameToUUID = [])
    (hmaps : ∀ f s, (f, SnapshotFile.valid s) ∈ d.files → (mapKeys s.Lists).Nodup) :
    WF (Recover d l).1 := by
  unfold Recover
  cases findLatestSnapshot d with
  | none => exact recoverWAL_WF 0 d.wal l h
  | some snapshotFile =>
    simp only []
    cases hg : mapGet d.files snapshotFile with
    | none => exact h
    | some file =>
      cases file with
      | unreadable => exact h
      | undecodable => exact h
      | valid snapshot =>
        simp only []
        apply recoverWAL_WF
        refine (seedFromSnapshot_spec snapshot.Lists { l with currentLSN := snapshot.LSN }
          (WF_congr l _ h rfl rfl rfl) (hmaps _ _ (mem_of_mapGet _ _ _ hg)) ?_).1
        intro k _
        show mapGet l.nameToUUID k = none
        rw [hempty]
        rfl

theorem NewRemoteList_WF (d : DataDir) (l0 : RemoteList)
    (hmaps : ∀ f s, (f, SnapshotFile.valid s) ∈ d.files → (mapKeys s.Lists).Nodup)
    (hnew : NewRemoteList d = some l0) : WF l0 := by
  unfold NewRemoteList at hnew
  cases hw : d.wal with
  | unreadable => simp [hw] at hnew
  | absent =>
    simp only [hw] at hnew
    have hwf := Recover_WF { d with wal := WalFile.present [] } emptyStore WF_emptyStore rfl
      hmaps
    cases hR : Recover { d with wal := WalFile.present [] } emptyStore with
    | mk l e =>
      rw [hR] at hnew hwf
      cases e with
      | none =>
        simp only [Option.some.injEq] at hnew
        rw [← hnew]
        exact hwf
      | some err => simp at hnew
  | present items =>
    simp only [hw] at hnew
    have hwf := Recover_WF d { emptyStore with walFile := items }
      (WF_congr emptyStore _ WF_emptyStore rfl rfl rfl) rfl hmaps
    cases hR : Recover d { emptyStore with walFile := items } with
    | mk l e =>
      rw [hR] at hnew hwf
      cases e with
      | none =>
        simp only [Option.some.injEq] at hnew
        rw [← hnew]
        exact hwf
      | some err => simp at hnew

theorem Request_run_WF (r : Request) (l : RemoteList) (h : WF l) : WF (r.run l) := by
  cases r with
  | append io args => exact Call_run_WF (Call.append io args) l h
  | remove io args => exact Call_run_WF (Call.remove io args) l h
  | get args => exact h
  | size args => exact h
  | listAll => exact h

theorem runRequests_WF (reqs : List Request) (l : RemoteList) (h : WF l) :
    WF (runRequests reqs l) := by
  induction reqs generalizing l with
  | nil => exact h
  | cons r rs ih => exact ih (r.run l) (Request_run_WF r l h)

/-- C22: let `NewRemoteList` return a store, every snapshot file holding each
name once as a decoded Go map does, identifiers being generated fresh (the
counter `nextUUID`).  After any sequence of `Append`, `Remove`, `Get`, `Size`
and `ListAll` requests the store satisfies `WF`; in particular no identifier is
bound to two names, the identifiers of the registry are exactly the keys of
the list table, every registered name has a list under its identifier, which
is a single entry of the table, and every list of the table belongs to a
registered name. -/
theorem registry_store_consistency (d : DataDir) (l0 : RemoteList) (reqs : List Request)
    (hmaps : ∀ f s, (f, SnapshotFile.valid s) ∈ d.files → (mapKeys s.Lists).Nodup)
    (hnew : NewRemoteList d = some l0) :
    WF (runRequests reqs l0) ∧
    (∀ n1 n2 u, mapGet (runRequests reqs l0).nameToUUID n1 = some u →
      mapGet (runRequests reqs l0).nameToUUID n2 = some u → n1 = n2) ∧
    (∀ u, u ∈ (runRequests reqs l0).nameToUUID.map Prod.snd ↔
      u ∈ mapKeys (runRequests reqs l0).lists) ∧
    (mapKeys (runRequests reqs l0).lists).Nodup ∧
    (∀ n u, mapGet (runRequests reqs l0).nameToUUID n = some u →
      ∃ xs, mapGet (runRequests reqs l0).lists u = some xs) ∧
    (∀ u xs, mapGet (runRequests reqs l0).lists u = some xs →
      ∃ n, mapGet (runRequests reqs l0).nameToUUID n = some u) := by
  have hwf := runRequests_WF reqs l0 (NewRemoteList_WF d l0 hmaps hnew)
  refine ⟨hwf, WF_inj _ hwf, fun u => ⟨hwf.2.2.2.1 u, fun hu => (hwf.2.2.2.2 u hu).1⟩,
    hwf.2.2.1, ?_, ?_⟩
  · intro n u hn
    have hmem := WF_id_mem _ hwf n u hn
    cases hget : mapGet (runRequests reqs l0).lists u with
    | none => exact absurd hmem ((mapGet_eq_none_iff _ _).1 hget)
    | some xs => exact ⟨xs, rfl⟩
  · intro u xs hu
    have hval := (hwf.2.2.2.2 u (key_mem_of_mapGet _ _ _ hu)).1
    obtain ⟨p, hp, hpu⟩ := List.mem_map.1 hval
    obtain ⟨n, v⟩ := p
    simp only at hpu
    subst hpu
    exact ⟨n, mapGet_of_mem _ _ _ hwf.1 hp⟩

/-- Witness of C22: a start from a snapshot holding the list x and a log that
adds the list y, followed by requests of all five kinds, one of them an
`Append` whose log write fails. -/
theorem registry_store_consistency_witness :
    NewRemoteList ⟨[("snapshot_100.json", .valid ⟨1, 100, [("x", [10])]⟩)],
        .present [.entry ⟨1, 1, "APPEND", "x", 10⟩, .entry ⟨2, 2, "APPEND", "y", 5⟩]⟩ =
      some ⟨[("x", 0), ("y", 1)], [(0, [10]), (1, [5])], 2,
        [.entry ⟨1, 1, "APPEND", "x", 10⟩, .entry ⟨2, 2, "APPEND", "y", 5⟩], 2⟩ ∧
    WF (runRequests [.append ⟨3, .ok⟩ ⟨"z", 7⟩, .remove ⟨4, .ok⟩ ⟨"x"⟩, .get ⟨"y", 0⟩,
        .size ⟨"q"⟩, .listAll, .append ⟨5, .writeFail true⟩ ⟨"w", 1⟩]
      ⟨[("x", 0), ("y", 1)], [(0, [10]), (1, [5])], 2,
        [.entry ⟨1, 1, "APPEND", "x", 10⟩, .entry ⟨2, 2, "APPEND", "y", 5⟩], 2⟩) :=
  ⟨by decide,
    (registry_store_consistency
      ⟨[("snapshot_100.json", .valid ⟨1, 100, [("x", [10])]⟩)],
        .present [.entry ⟨1, 1, "APPEND", "x", 10⟩, .entry ⟨2, 2, "APPEND", "y", 5⟩]⟩
      ⟨[("x", 0), ("y", 1)], [(0, [10]), (1, [5])], 2,
        [.entry ⟨1, 1, "APPEND", "x", 10⟩, .entry ⟨2, 2, "APPEND", "y", 5⟩], 2⟩
      [.append ⟨3, .ok⟩ ⟨"z", 7⟩, .remove ⟨4, .ok⟩ ⟨"x"⟩, .get ⟨"y", 0⟩,
        .size ⟨"q"⟩, .listAll, .append ⟨5, .writeFail true⟩ ⟨"w", 1⟩]
      (by
        intro f s h
        simp only [List.mem_singleton, Prod.mk.injEq, SnapshotFile.valid.injEq] at h
        rw [h.2]
        decide)
      (by decide)).1⟩


/-! ## Concurrent callers of `Append` -/

theorem sizeOf_of_contents (l l' : RemoteList) (name : String)
    (h : contents l' name = contents l name) : sizeOf l' name = sizeOf l name := by
  unfold sizeOf
  rw [h]

/-- What one step of a goroutine does to its caller, the lock and the store. -/
theorem Caller_step_spec (name : String) (store : RemoteList) (mu : Bool) (c : Caller)
    (store1 : RemoteList) (mu1 : Bool) (c1 : Caller)
    (hpend : ∀ p ∈ c.pending, p.2.ListName = name) (hfit : c.pc.fits name store)
    (hmu : c.pc ≠ AppendPC.idle → mu = true)
    (h : c.step store mu = some (store1, mu1, c1)) :
    (c.pc = AppendPC.idle → mu = false) ∧
    (∀ p ∈ c1.pending, p ∈ c.pending) ∧
    c1.pc.fits name store1 ∧
    (c1.pc ≠ AppendPC.idle ↔ mu1 = true) ∧
    sizeOf store1 name + c1.owed = sizeOf store name + c.owed ∧
    c1.stepsLeft + 1 = c.stepsLeft := by
  obtain ⟨pending, pc⟩ := c
  cases pc with
  | idle =>
    cases pending with
    | nil => simp [Caller.step] at h
    | cons p rest =>
      obtain ⟨io, args⟩ := p
      cases mu with
      | true => simp [Caller.step] at h
      | false =>
        simp only [Caller.step, Bool.false_eq_true, if_false, Option.some.injEq,
          Prod.mk.injEq] at h
        obtain ⟨rfl, rfl, rfl⟩ := h
        refine ⟨fun _ => rfl, fun p hp => List.mem_cons_of_mem _ hp, ?_, by simp, ?_, ?_⟩
        · exact hpend (io, args) (List.mem_cons_self _ _)
        · by_cases hok : io.outcome = WalOutcome.ok <;>
            simp [Caller.owed, AppendPC.owed, List.filter_cons, hok]
        · by_cases hok : io.outcome = WalOutcome.ok <;>
            simp [Caller.stepsLeft, AppendPC.stepsLeft, hok] <;> omega
  | atWriteWAL io args =>
    have hm : mu = true := hmu (by simp)
    obtain ⟨now, outcome⟩ := io
    cases outcome with
    | ok =>
      simp only [Caller.step, writeWAL, Option.some.injEq, Prod.mk.injEq] at h
      obtain ⟨rfl, rfl, rfl⟩ := h
      refine ⟨by simp, fun p hp => hp, hfit, by simp [hm], ?_, ?_⟩
      · simp only [Caller.owed, AppendPC.owed, if_true, if_false, reduceCtorEq,
          Nat.add_left_inj, Nat.add_zero]
        exact sizeOf_of_contents store _ name (contents_congr _ _ rfl rfl name)
      · simp [Caller.stepsLeft, AppendPC.stepsLeft]
    | marshalFail =>
      simp only [Caller.step, writeWAL, Option.some.injEq, Prod.mk.injEq] at h
      obtain ⟨rfl, rfl, rfl⟩ := h
      refine ⟨by simp, fun p hp => hp, trivial, by simp [hm], ?_, ?_⟩
      · simp only [Caller.owed, AppendPC.owed, if_true, if_false, reduceCtorEq,
          Nat.add_left_inj, Nat.add_zero]
        exact sizeOf_of_contents store _ name (contents_congr _ _ rfl rfl name)
      · simp [Caller.stepsLeft, AppendPC.stepsLeft]
    | syncFail =>
      simp only [Caller.step, writeWAL, Option.some.injEq, Prod.mk.injEq] at h
      obtain ⟨rfl, rfl, rfl⟩ := h
      refine ⟨by simp, fun p hp => hp, trivial, by simp [hm], ?_, ?_⟩
      · simp only [Caller.owed, AppendPC.owed, if_true, if_false, reduceCtorEq,
          Nat.add_left_inj, Nat.add_zero]
        exact sizeOf_of_contents store _ name (contents_congr _ _ rfl rfl name)
      · simp [Caller.stepsLeft, AppendPC.stepsLeft]
    | writeFail torn =>
      simp only [Caller.step, writeWAL, Option.some.injEq, Prod.mk.injEq] at h
      obtain ⟨rfl, rfl, rfl⟩ := h
      refine ⟨by simp, fun p hp => hp, trivial, by simp [hm], ?_, ?_⟩
      · simp only [Caller.owed, AppendPC.owed, if_true, if_false, reduceCtorEq,
          Nat.add_left_inj, Nat.add_zero]
        exact sizeOf_of_contents store _ name
          (contents_congr _ _ (by cases torn <;> rfl) (by cases torn <;> rfl) name)
      · simp [Caller.stepsLeft, AppendPC.stepsLeft]
  | atGetUUID args =>
    have hm : mu = true := hmu (by simp)
    have hname : args.ListName = name := hfit
    cases hg : mapGet store.nameToUUID args.ListName with
    | some u =>
      simp only [Caller.step, getOrCreateListUUID, hg, Option.some.injEq,
        Prod.mk.injEq] at h
      obtain ⟨rfl, rfl, rfl⟩ := h
      refine ⟨by simp, fun p hp => hp, ?_, by simp [hm], ?_, ?_⟩
      · show mapGet store.nameToUUID name = some u
        rw [← hname, hg]
      · simp [Caller.owed, AppendPC.owed]
      · simp [Caller.stepsLeft, AppendPC.stepsLeft]
    | none =>
      simp only [Caller.step, getOrCreateListUUID, hg, Option.some.injEq,
        Prod.mk.injEq] at h
      obtain ⟨rfl, rfl, rfl⟩ := h
      refine ⟨by simp, fun p hp => hp, ?_, by simp [hm], ?_, ?_⟩
      · show mapGet (mapSet store.nameToUUID args.ListName store.nextUUID) name = _
        rw [hname, mapGet_mapSet_self]
      · have h0 : sizeOf store name = 0 := by
          unfold sizeOf
          rw [(contents_eq_none_iff store name).2 (by rw [← hname, hg])]
          rfl
        have h1 : sizeOf { store with
            nameToUUID := mapSet store.nameToUUID args.ListName store.nextUUID,
            lists := mapSet store.lists store.nextUUID [],
            nextUUID := store.nextUUID + 1 } name = 0 := by
          unfold sizeOf
          rw [(contents_eq_some_iff _ name []).2 ⟨store.nextUUID, by
            show mapGet (mapSet store.nameToUUID args.ListName store.nextUUID) name = _
            rw [hname, mapGet_mapSet_self], listOf_mapSet_self _ store.lists _ _ rfl⟩]
          rfl
        rw [h0, h1]
        simp [Caller.owed, AppendPC.owed]
      · simp [Caller.stepsLeft, AppendPC.stepsLeft]
  | atRead args u =>
    have hm : mu = true := hmu (by simp)
    simp only [Caller.step, Option.some.injEq, Prod.mk.injEq] at h
    obtain ⟨rfl, rfl, rfl⟩ := h
    refine ⟨by simp, fun p hp => hp, ⟨hfit, by simp⟩, by simp [hm], ?_, ?_⟩
    · simp [Caller.owed, AppendPC.owed]
    · simp [Caller.stepsLeft, AppendPC.stepsLeft]
  | atStore u list =>
    have hm : mu = true := hmu (by simp)
    simp only [Caller.step, Option.some.injEq, Prod.mk.injEq] at h
    obtain ⟨rfl, rfl, rfl⟩ := h
    obtain ⟨hreg, hlen⟩ := hfit
    refine ⟨by simp, fun p hp => hp, trivial, by simp [hm], ?_, ?_⟩
    · have h0 : sizeOf store name = (listOf store u).length := by
        unfold sizeOf
        rw [(contents_eq_some_iff store name _).2 ⟨u, hreg, rfl⟩]
        rfl
      have h1 : sizeOf { store with lists := mapSet store.lists u list } name =
          list.length := by
        unfold sizeOf
        rw [(contents_eq_some_iff { store with lists := mapSet store.lists u list } name list).2
          ⟨u, hreg, listOf_mapSet_self { store with lists := mapSet store.lists u list }
            store.lists u list rfl⟩]
        rfl
      rw [h0, h1, hlen]
      simp [Caller.owed, AppendPC.owed]
      omega
    · simp [Caller.stepsLeft, AppendPC.stepsLeft]
  | atUnlock err =>
    simp only [Caller.step, Option.some.injEq, Prod.mk.injEq] at h
    obtain ⟨rfl, rfl, rfl⟩ := h
    refine ⟨by simp, fun p hp => hp, trivial, by simp, ?_, ?_⟩
    · simp [Caller.owed, AppendPC.owed]
    · simp [Caller.stepsLeft, AppendPC.stepsLeft]

theorem sum_map_set {α : Type} (f : α → Nat) (cs : List α) (i : Nat) (c c1 : α)
    (h : cs[i]? = some c) : ((cs.set i c1).map f).sum + f c = (cs.map f).sum + f c1 := by
  induction cs generalizing i with
  | nil => simp at h
  | cons x xs ih =>
    cases i with
    | zero =>
      simp only [List.getElem?_cons_zero, Option.some.injEq] at h
      subst h
      simp only [List.set_cons_zero, List.map_cons, List.sum_cons]
      omega
    | succ i =>
      simp only [List.getElem?_cons_succ] at h
      have := ih i h
      simp only [List.set_cons_succ, List.map_cons, List.sum_cons]
      omega

/-- A goroutine inside `Append` can always take its next step: only `Lock`
waits. -/
theorem Caller_step_active (store : RemoteList) (mu : Bool) (c : Caller)
    (h : c.pc ≠ AppendPC.idle) : (c.step store mu).isSome := by
  obtain ⟨pending, pc⟩ := c
  cases pc with
  | idle => exact absurd rfl h
  | atWriteWAL io args =>
    obtain ⟨now, outcome⟩ := io
    cases outcome <;> rfl
  | atGetUUID args =>
    simp only [Caller.step, getOrCreateListUUID]
    cases mapGet store.nameToUUID args.ListName <;> rfl
  | atRead args u => rfl
  | atStore u list => rfl
  | atUnlock err => rfl

/-- One scheduled step keeps the invariant, keeps the sum of the size of the
list and of what the callers still owe, and uses up one step. -/
theorem Server_step_spec (name : String) (s s1 : Server) (i : Nat) (hinv : s.Inv name)
    (h : s.step i = some s1) :
    s1.Inv name ∧
    sizeOf s1.store name + (s1.callers.map Caller.owed).sum =
      sizeOf s.store name + (s.callers.map Caller.owed).sum ∧
    (s1.callers.map Caller.stepsLeft).sum + 1 = (s.callers.map Caller.stepsLeft).sum ∧
    s1.callers.length = s.callers.length := by
  unfold Server.step at h
  cases hc : s.callers[i]? with
  | none => simp [hc] at h
  | some c =>
    cases hstep : c.step s.store s.mu with
    | none => simp [hc, hstep] at h
    | some r =>
      obtain ⟨store1, mu1, c1⟩ := r
      simp only [hc, hstep, Option.some.injEq] at h
      subst h
      obtain ⟨hpend, hfit, hmu⟩ := hinv.1 i c hc
      obtain ⟨hA, hB, hC, hD, hE, hF⟩ :=
        Caller_step_spec name s.store s.mu c store1 mu1 c1 hpend hfit hmu hstep
      have hi : i < s.callers.length := (List.getElem?_eq_some.1 hc).1
      have hothers : ∀ (j : Nat) (cj : Caller), j ≠ i → s.callers[j]? = some cj →
          cj.pc = AppendPC.idle := by
        intro j cj hji hj
        by_contra hne
        by_cases hci : c.pc = AppendPC.idle
        · have h1 := hA hci
          have h2 := (hinv.1 j cj hj).2.2 hne
          rw [h1] at h2
          exact absurd h2 (by decide)
        · exact hji (hinv.2.1 j i cj c hj hc hne hci)
      have hget : ∀ (j : Nat) (cj : Caller), (s.callers.set i c1)[j]? = some cj →
          (j = i ∧ cj = c1) ∨ (j ≠ i ∧ s.callers[j]? = some cj) := by
        intro j cj hj
        by_cases hji : j = i
        · subst hji
          rw [List.getElem?_set_self hi] at hj
          exact Or.inl ⟨rfl, (Option.some.inj hj).symm⟩
        · rw [List.getElem?_set_ne (Ne.symm hji)] at hj
          exact Or.inr ⟨hji, hj⟩
      refine ⟨⟨?_, ?_, ?_⟩, ?_, ?_, List.length_set _ _ _⟩
      · intro j cj hj
        rcases hget j cj hj with ⟨_, rfl⟩ | ⟨hji, hj'⟩
        · exact ⟨fun p hp => hpend p (hB p hp), hC, hD.1⟩
        · have hidle := hothers j cj hji hj'
          refine ⟨(hinv.1 j cj hj').1, ?_, fun hne => absurd hidle hne⟩
          rw [hidle]
          trivial
      · intro j k cj ck hj hk hnj hnk
        have hji : j = i := by
          rcases hget j cj hj with ⟨h1, _⟩ | ⟨hji, hj'⟩
          · exact h1
          · exact absurd (hothers j cj hji hj') hnj
        have hki : k = i := by
          rcases hget k ck hk with ⟨h1, _⟩ | ⟨hki, hk'⟩
          · exact h1
          · exact absurd (hothers k ck hki hk') hnk
        rw [hji, hki]
      · intro hm
        exact ⟨i, c1, List.getElem?_set_self hi, hD.2 hm⟩
      · have hsum := sum_map_set Caller.owed s.callers i c c1 hc
        show sizeOf store1 name + ((s.callers.set i c1).map Caller.owed).sum = _
        omega
      · have hsum := sum_map_set Caller.stepsLeft s.callers i c c1 hc
        show ((s.callers.set i c1).map Caller.stepsLeft).sum + 1 = _
        omega

theorem Server_run_spec (name : String) (sched : List Nat) (s s1 : Server)
    (hinv : s.Inv name) (h : Server.run sched s = some s1) :
    s1.Inv name ∧
    sizeOf s1.store name + (s1.callers.map Caller.owed).sum =
      sizeOf s.store name + (s.callers.map Caller.owed).sum ∧
    sched.length + (s1.callers.map Caller.stepsLeft).sum =
      (s.callers.map Caller.stepsLeft).sum ∧
    s1.callers.length = s.callers.length := by
  induction sched generalizing s with
  | nil =>
    simp only [Server.run, Option.some.injEq] at h
    subst h
    exact ⟨hinv, rfl, by simp, rfl⟩
  | cons i rest ih =>
    simp only [Server.run] at h
    cases hs : s.step i with
    | none => simp [hs] at h
    | some s2 =>
      simp only [hs] at h
      obtain ⟨h1, h2, h3, h4⟩ := Server_step_spec name s s2 i hinv hs
      obtain ⟨k1, k2, k3, k4⟩ := ih s2 h1 h
      refine ⟨k1, by omega, ?_, by omega⟩
      simp only [List.length_cons]
      omega

/-- While a call is outstanding some goroutine can step: the lock never leaves
every caller waiting. -/
theorem Server_progress (name : String) (s : Server) (hinv : s.Inv name)
    (hnf : ¬ s.finished) : ∃ i, (s.step i).isSome := by
  by_cases hmu : s.mu = true
  · obtain ⟨i, c, hc, hne⟩ := hinv.2.2 hmu
    refine ⟨i, ?_⟩
    have := Caller_step_active s.store s.mu c hne
    unfold Server.step
    rw [hc]
    cases hstep : c.step s.store s.mu with
    | none => simp [hstep] at this
    | some r => simp [hstep]
  · unfold Server.finished at hnf
    push_neg at hnf
    obtain ⟨c, hcmem, hc⟩ := hnf
    obtain ⟨i, hi⟩ := List.getElem?_of_mem hcmem
    have hidle : c.pc = AppendPC.idle := by
      by_contra hne
      exact hmu ((hinv.1 i c hi).2.2 hne)
    have hpen : c.pending ≠ [] := fun hp => hc hp hidle
    refine ⟨i, ?_⟩
    obtain ⟨pending, pc⟩ := c
    simp only at hidle hpen
    subst hidle
    cases pending with
    | nil => exact absurd rfl hpen
    | cons p rest =>
      obtain ⟨io, args⟩ := p
      have hm : s.mu = false := by
        cases hs : s.mu with
        | true => exact absurd hs hmu
        | false => rfl
      unfold Server.step
      rw [hi]
      simp [Caller.step, hm]

theorem Inv_initial (name : String) (l : RemoteList) (callers : List Caller)
    (h : ∀ c ∈ callers, c.pc = AppendPC.idle ∧ ∀ p ∈ c.pending, p.2.ListName = name) :
    Server.Inv name { store := l, mu := false, callers := callers } := by
  refine ⟨?_, ?_, ?_⟩
  · intro i c hc
    have hm := h c (List.mem_iff_getElem?.2 ⟨i, hc⟩)
    refine ⟨hm.2, ?_, fun hne => absurd hm.1 hne⟩
    rw [hm.1]
    trivial
  · intro i j ci cj hi _ hne _
    exact absurd (h ci (List.mem_iff_getElem?.2 ⟨i, hi⟩)).1 hne
  · intro hm
    simp at hm

theorem owed_sum_of_finished (cs : List Caller)
    (h : ∀ c ∈ cs, c.pending = [] ∧ c.pc = AppendPC.idle) :
    (cs.map Caller.owed).sum = 0 := by
  induction cs with
  | nil => rfl
  | cons c cs ih =>
    obtain ⟨h1, h2⟩ := h c (List.mem_cons_self _ _)
    simp only [List.map_cons, List.sum_cons, ih (fun x hx => h x (List.mem_cons_of_mem _ hx))]
    simp [Caller.owed, h1, h2, AppendPC.owed]

theorem stepsLeft_sum_eq_zero_iff (cs : List Caller) :
    (cs.map Caller.stepsLeft).sum = 0 ↔
      ∀ c ∈ cs, c.pending = [] ∧ c.pc = AppendPC.idle := by
  induction cs with
  | nil => simp
  | cons c cs ih =>
    simp only [List.map_cons, List.sum_cons, Nat.add_eq_zero, ih, List.mem_cons,
      forall_eq_or_imp]
    refine and_congr_left (fun _ => ?_)
    obtain ⟨pending, pc⟩ := c
    simp only [Caller.stepsLeft, Nat.add_eq_zero]
    constructor
    · rintro ⟨hp, hpc⟩
      constructor
      · cases pending with
        | nil => rfl
        | cons p rest =>
          simp only [List.map_cons, List.sum_cons, Nat.add_eq_zero] at hp
          have hp1 := hp.1
          split_ifs at hp1
      · cases pc with
        | idle => rfl
        | atWriteWAL io args =>
          simp only [AppendPC.stepsLeft] at hpc
          split_ifs at hpc
        | atGetUUID args => simp [AppendPC.stepsLeft] at hpc
        | atRead args u => simp [AppendPC.stepsLeft] at hpc
        | atStore u list => simp [AppendPC.stepsLeft] at hpc
        | atUnlock err => simp [AppendPC.stepsLeft] at hpc
    · rintro ⟨rfl, rfl⟩
      exact ⟨rfl, rfl⟩

theorem sums_initial (M : Nat) (callers : List Caller)
    (h : ∀ c ∈ callers, c.pc = AppendPC.idle ∧ c.pending.length = M ∧
      ∀ p ∈ c.pending, p.1.outcome = WalOutcome.ok) :
    (callers.map Caller.owed).sum = callers.length * M ∧
    (callers.map Caller.stepsLeft).sum = 6 * (callers.length * M) := by
  induction callers with
  | nil => simp
  | cons c cs ih =>
    obtain ⟨h1, h2, h3⟩ := h c (List.mem_cons_self _ _)
    obtain ⟨i1, i2⟩ := ih (fun x hx => h x (List.mem_cons_of_mem _ hx))
    have ho : c.owed = M := by
      unfold Caller.owed
      rw [h1, List.filter_eq_self.2 (fun p hp => by simp [h3 p hp]), h2]
      rfl
    have hs : c.stepsLeft = 6 * M := by
      unfold Caller.stepsLeft
      rw [h1, List.map_congr_left (g := fun _ => 6) (fun p hp => by simp [h3 p hp]),
        List.map_const', List.sum_replicate, h2]
      simp [AppendPC.stepsLeft, Nat.mul_comm]
    simp only [List.map_cons, List.sum_cons, List.length_cons, i1, i2, ho, hs]
    constructor <;> ring

/-- A caller alone: the steps of one call, run to the end, do to the store what
`Append` does, whether the log write succeeds (six steps) or fails (three). -/
theorem Append_as_steps (io : WalIO) (args : AppendArgs) (l : RemoteList) :
    Server.run (List.replicate (if io.outcome = WalOutcome.ok then 6 else 3) 0)
        { store := l, mu := false, callers := [{ pending := [(io, args)], pc := .idle }] } =
      some { store := (Append io args false l).1, mu := false,
             callers := [{ pending := [], pc := .idle }] } := by
  obtain ⟨now, outcome⟩ := io
  cases outcome with
  | ok =>
    cases hg : mapGet l.nameToUUID args.ListName <;>
      simp [Server.run, Server.step, Caller.step, Append, writeWAL, getOrCreateListUUID, hg,
        List.replicate]
  | marshalFail =>
    simp [Server.run, Server.step, Caller.step, Append, writeWAL, List.replicate]
  | syncFail =>
    simp [Server.run, Server.step, Caller.step, Append, writeWAL, List.replicate]
  | writeFail torn =>
    cases torn <;>
      simp [Server.run, Server.step, Caller.step, Append, writeWAL, List.replicate]

/-- What the lock is for: were two goroutines inside `Append` at once, a state
the invariant excludes, both could read the list before either stores it, and
of the two appended values only one would be left, although both calls return
no error. -/
theorem two_goroutines_inside_Append_lose_a_value :
    (Server.run [0, 0, 0, 1, 1, 1, 0, 1, 0, 1]
      { store := emptyStore, mu := true,
        callers := [{ pending := [], pc := .atWriteWAL ⟨1, .ok⟩ ⟨"c", 1⟩ },
                    { pending := [], pc := .atWriteWAL ⟨2, .ok⟩ ⟨"c", 2⟩ }] }).map
      (fun s => (decide s.finished, contents s.store "c", s.store.walFile.length)) =
      some (true, some [2], 2) := by
  decide

/-- C19: let K callers each have M `Append` calls to the same list to issue,
every log write succeeding, on a server whose lock is free.  Goroutines step
one statement at a time in any order the scheduler picks, `l.mu.Lock()` waiting
while the lock is held.  In every state `s` such a schedule reaches: no two
goroutines are inside `Append`; if all calls have returned, `Size` of the list
is `Size` before plus K times M (K times M on a new list); if not, some
goroutine can step; and the schedule has at most 6 K M steps, exactly that many
when all calls have returned, so every schedule can be continued to the end
and none goes on for ever. -/
theorem concurrent_appends_all_counted (name : String) (K M : Nat) (l : RemoteList)
    (callers : List Caller) (sched : List Nat) (s : Server)
    (hK : callers.length = K)
    (hcallers : ∀ c ∈ callers, c.pc = AppendPC.idle ∧ c.pending.length = M ∧
      ∀ p ∈ c.pending, p.2.ListName = name ∧ p.1.outcome = WalOutcome.ok)
    (hrun : Server.run sched { store := l, mu := false, callers := callers } = some s) :
    (∀ (i j : Nat) (ci cj : Caller), s.callers[i]? = some ci → s.callers[j]? = some cj →
      ci.pc ≠ AppendPC.idle → cj.pc ≠ AppendPC.idle → i = j) ∧
    (s.finished →
      Size { ListName := name } s.store =
        ((Size { ListName := name } l).1 + ((K * M : Nat) : Int), none)) ∧
    (s.finished → mapGet l.nameToUUID name = none →
      Size { ListName := name } s.store = (((K * M : Nat) : Int), none)) ∧
    (¬ s.finished → ∃ i, (s.step i).isSome) ∧
    sched.length ≤ 6 * (K * M) ∧
    (sched.length = 6 * (K * M) ↔ s.finished) := by
  have hinv0 := Inv_initial name l callers
    (fun c hc => ⟨(hcallers c hc).1, fun p hp => ((hcallers c hc).2.2 p hp).1⟩)
  obtain ⟨hinv, hsize, hsteps, _⟩ := Server_run_spec name sched _ s hinv0 hrun
  obtain ⟨hown, hleft⟩ := sums_initial M callers
    (fun c hc => ⟨(hcallers c hc).1, (hcallers c hc).2.1,
      fun p hp => ((hcallers c hc).2.2 p hp).2⟩)
  simp only at hsize hsteps
  rw [hown, hK] at hsize
  rw [hleft, hK] at hsteps
  have hfin : s.finished → sizeOf s.store name = sizeOf l name + K * M := by
    intro hf
    have h0 := owed_sum_of_finished s.callers hf
    omega
  refine ⟨hinv.2.1, ?_, ?_, Server_progress name s hinv, by omega, ?_⟩
  · intro hf
    rw [Size_eq_sizeOf, Size_eq_sizeOf, hfin hf]
    simp
  · intro hf hnew
    have h0 : sizeOf l name = 0 := by
      unfold sizeOf
      rw [(contents_eq_none_iff l name).2 hnew]
      rfl
    rw [Size_eq_sizeOf, hfin hf, h0]
    simp
  · have hz := stepsLeft_sum_eq_zero_iff s.callers
    constructor
    · intro hlen
      exact hz.1 (by omega)
    · intro hf
      have := hz.2 hf
      omega

/-- Witness of C19: two callers with two appends each on the empty store; the
second caller gets the lock for both its calls between the two calls of the
first. -/
theorem concurrent_appends_all_counted_witness :
    Server.run [0, 0, 0, 0, 0, 0, 1, 1, 1, 1, 1, 1, 1, 1, 1, 1, 1, 1, 0, 0, 0, 0, 0, 0]
        ⟨emptyStore, false,
          [⟨[(⟨1, .ok⟩, ⟨"c", 0⟩), (⟨2, .ok⟩, ⟨"c", 1⟩)], .idle⟩,
           ⟨[(⟨1, .ok⟩, ⟨"c", 100⟩), (⟨2, .ok⟩, ⟨"c", 101⟩)], .idle⟩]⟩ =
      some ⟨⟨[("c", 0)], [(0, [0, 100, 101, 1])], 4,
              [.entry ⟨1, 1, "APPEND", "c", 0⟩, .entry ⟨2, 1, "APPEND", "c", 100⟩,
               .entry ⟨3, 2, "APPEND", "c", 101⟩, .entry ⟨4, 2, "APPEND", "c", 1⟩], 1⟩,
            false, [⟨[], .idle⟩, ⟨[], .idle⟩]⟩ ∧
    Size { ListName := "c" }
        ⟨[("c", 0)], [(0, [0, 100, 101, 1])], 4,
          [.entry ⟨1, 1, "APPEND", "c", 0⟩, .entry ⟨2, 1, "APPEND", "c", 100⟩,
           .entry ⟨3, 2, "APPEND", "c", 101⟩, .entry ⟨4, 2, "APPEND", "c", 1⟩], 1⟩ =
      (4, none) :=
  ⟨by decide,
    ((concurrent_appends_all_counted "c" 2 2 emptyStore
        [⟨[(⟨1, .ok⟩, ⟨"c", 0⟩), (⟨2, .ok⟩, ⟨"c", 1⟩)], .idle⟩,
         ⟨[(⟨1, .ok⟩, ⟨"c", 100⟩), (⟨2, .ok⟩, ⟨"c", 101⟩)], .idle⟩]
        [0, 0, 0, 0, 0, 0, 1, 1, 1, 1, 1, 1, 1, 1, 1, 1, 1, 1, 0, 0, 0, 0, 0, 0]
        ⟨⟨[("c", 0)], [(0, [0, 100, 101, 1])], 4,
            [.entry ⟨1, 1, "APPEND", "c", 0⟩, .entry ⟨2, 1, "APPEND", "c", 100⟩,
             .entry ⟨3, 2, "APPEND", "c", 101⟩, .entry ⟨4, 2, "APPEND", "c", 1⟩], 1⟩,
          false, [⟨[], .idle⟩, ⟨[], .idle⟩]⟩
        rfl (by decide) (by decide)).2.1 (by decide)).trans (by decide)⟩

end Remotelist
